import Mathlib

/-!
# GribJump: random access into bit-packed GRIB fields

A shallow embedding of `src/metkit/gribjump/GribInfo.cc` (the value extractor
`GribInfo::extractAtIndex`, the range extractors and their helpers), of the
tool `src/tools/grib-jump.cc` and of three functions of the request language
(`bestMatch` of `MarsLanguage.cc`, `TypeEnum::expand`, `TypeRange::tidy`),
together with the properties of the specification that are settled on them.

Conventions of the embedding.

* `unsigned long` / `size_t` / `uint64_t` values are naturals; where the C++
  arithmetic can leave the 64-bit range the operation is written with an
  explicit `% 2 ^ 64`.
* A finite `double` is the rational it denotes. An operation on `double`
  values is the exact operation followed by `toDouble`, the rounding to the
  nearest binary64 number. Infinities and NaN are not rationals: an operation
  whose result leaves the finite range is outside the embedding, and the
  statements about values say where they need it.
* A failing `ASSERT` and a failing read throw in C++; here the function
  returns `none`.
* The byte resource is threaded through explicitly, because `seek` and `read`
  move its position.
* The extractors take one more argument `junk`, the content of the local
  array `buf` before it is filled (the source does not initialise it).
* A `std::string` is the list of its characters.
* Line numbers refer to `GribInfo.cc` unless another file is named.
-/

namespace metkit.gribjump

/-! ## The byte resource -/

/-- One operation issued on the byte resource. -/
inductive IOp where
  | seek (offset : Nat)
  | read (len : Nat)
  deriving DecidableEq

/-- Modelled from the spec: `GribHandleData` (`metkit/gribjump/GribHandleData.h`
is not among the sources). It is the ByteReader of the specification: a
resource of bytes with a current position; `seek` moves to an absolute byte
offset and returns it, `read` delivers the next bytes and advances. The field
`ops` records the operations issued so far, most recent first. -/
structure GribHandleData where
  bytes : List Nat
  pos : Nat
  ops : List IOp
  deriving DecidableEq

/-- Modelled from the spec: `seek(absoluteOffset) → absoluteOffset`. The first
component is the position returned to the caller. -/
def GribHandleData.seek (f : GribHandleData) (offset : Nat) : Nat × GribHandleData :=
  (offset, { f with pos := offset, ops := IOp.seek offset :: f.ops })

/-- Modelled from the spec: `read(buffer, n)`. The bytes that are available
from the current position, at most `n` of them, each taken as an octet; the
caller compares the number delivered with `n` (a short read is an error). -/
def GribHandleData.read (f : GribHandleData) (n : Nat) : List Nat × GribHandleData :=
  let bs := ((f.bytes.drop f.pos).take n).map (fun b => b % 256)
  (bs, { f with pos := f.pos + bs.length, ops := IOp.read n :: f.ops })

/-! ## The metadata record -/

/-- The record `GribInfo` of `GribInfo.h`. The two multipliers and the
reference value are `double` in the source. -/
structure GribInfo where
  referenceValue : ℚ
  binaryScaleFactor : Int
  decimalScaleFactor : Int
  bitsPerValue : Nat
  offsetBeforeData : Nat
  offsetBeforeBitmap : Nat
  numberOfValues : Nat
  numberOfDataPoints : Nat
  totalLength : Nat
  msgStartOffset : Nat
  sphericalHarmonics : Int
  binaryMultiplier : ℚ
  decimalMultiplier : ℚ

/-- The constructor `GribInfo::GribInfo()`. It leaves `totalLength_` and
`msgStartOffset_` uninitialised; they are zero here. -/
def GribInfo.new : GribInfo :=
  { referenceValue := 0, binaryScaleFactor := 0, decimalScaleFactor := 0,
    bitsPerValue := 0, offsetBeforeData := 0, offsetBeforeBitmap := 0,
    numberOfValues := 0, numberOfDataPoints := 0, totalLength := 0,
    msgStartOffset := 0, sphericalHarmonics := 0,
    binaryMultiplier := 1, decimalMultiplier := 1 }

/-- The method `ready()`. -/
def GribInfo.ready (g : GribInfo) : Bool := decide (0 < g.numberOfValues)

/-- The macro `MISSING`. -/
def MISSING : ℚ := 9999

/-! ## Machine numbers -/

/-- The arithmetic of `long` after an overflow, as two's complement: the
representative of `x` modulo `2 ^ 64` in `[-2 ^ 63, 2 ^ 63)`. -/
def wrapLong (x : Int) : Int := (x + 2 ^ 63) % 2 ^ 64 - 2 ^ 63

/-- Rounding to the nearest integer, a tie going to the even one. -/
def roundHalfEven (q : ℚ) : Int :=
  if q - ⌊q⌋ < 1 / 2 then ⌊q⌋
  else if 1 / 2 < q - ⌊q⌋ then ⌊q⌋ + 1
  else if ⌊q⌋ % 2 = 0 then ⌊q⌋ else ⌊q⌋ + 1

/-- The number of binary digits of `n`; `fuel` bounds it, and `n` itself is
enough fuel. -/
def bitLength : Nat → Nat → Nat
  | 0, _ => 0
  | fuel + 1, n => if n = 0 then 0 else bitLength fuel (n / 2) + 1

/-- The binary exponent `e` of a rational `x ≠ 0`, with
`2 ^ e ≤ |x| < 2 ^ (e + 1)`: the difference of the bit lengths of numerator
and denominator, or one less. -/
def binaryExponent (x : ℚ) : Int :=
  if (2 : ℚ) ^ ((bitLength x.num.natAbs x.num.natAbs : Int) - (bitLength x.den x.den : Int)) ≤ |x|
  then (bitLength x.num.natAbs x.num.natAbs : Int) - (bitLength x.den x.den : Int)
  else (bitLength x.num.natAbs x.num.natAbs : Int) - (bitLength x.den x.den : Int) - 1

/-- The rounding of IEEE 754 binary64 arithmetic (`double`), to nearest with
ties to even: the multiple of the quantum `2 ^ (e - 52)` of `x`, or of
`2 ^ (-1074)` for a subnormal result, that is nearest to `x`. The exponent is
not bounded above: where C++ gives an infinity (`|x|` at or above
`2 ^ 1024 - 2 ^ 970`) the value returned here is not a `double`. -/
def toDouble (x : ℚ) : ℚ :=
  if x = 0 then 0
  else (roundHalfEven (x / 2 ^ max (binaryExponent x - 52) (-1074)) : ℚ) *
    2 ^ max (binaryExponent x - 52) (-1074)

/-- The rational `x` is a `double`: rounding leaves it as it is. -/
def isDouble (x : ℚ) : Bool := toDouble x == x

/-! ## Bit helpers -/

/-- The function `count_bits`: `__builtin_popcountll` of a 64-bit word, the
number of set bits among bits 0..63. -/
def count_bits (n : Nat) : Nat :=
  (List.range 64).countP (fun j => n.testBit j)

/-- The function `reverse_bytes` on a 64-bit word. Every left shift is applied
to a masked value that stays below `2 ^ 64`, so no truncation is written. -/
def reverse_bytes (n : Nat) : Nat :=
  ((n &&& 0x00000000000000FF) <<< 56) |||
  ((n &&& 0x000000000000FF00) <<< 40) |||
  ((n &&& 0x0000000000FF0000) <<< 24) |||
  ((n &&& 0x00000000FF000000) <<< 8) |||
  ((n &&& 0x000000FF00000000) >>> 8) |||
  ((n &&& 0x0000FF0000000000) >>> 24) |||
  ((n &&& 0x00FF000000000000) >>> 40) |||
  ((n &&& 0xFF00000000000000) >>> 56)

/-- The value of a `uint64_t` whose storage was filled by `read(&n, 8)` on a
little-endian host: the first byte read is the least significant one. -/
def word_of_bytes : List Nat → Nat
  | [] => 0
  | b :: bs => b % 256 + 256 * word_of_bytes bs

/-- Bit `b` (bit 0 is the most significant bit of byte 0) of a byte buffer. -/
def bufBit (p : Nat → Nat) (b : Nat) : Nat :=
  (p (b / 8) % 256) / 2 ^ (7 - b % 8) % 2

/-- Modelled from the spec: the BitDecoder `grib_decode_unsigned_long` (an
external C function, declared `extern "C"` in `GribInfo.cc`): the unsigned
integer formed by the `nbits` bits of `p` that start at bit `bitp`, the
earliest bit being the most significant. -/
def grib_decode_unsigned_long (p : Nat → Nat) (bitp : Nat) : Nat → Nat
  | 0 => 0
  | nbits + 1 => 2 * grib_decode_unsigned_long p bitp nbits + bufBit p (bitp + nbits)

/-! ## The extractor -/

/-- The loop of `extractAtIndex` and `extractAtIndexRange` that skips whole
8-byte words of the bitmap, adding their population counts to `count`
(a `size_t`). -/
def skipWords : Nat → GribHandleData → Nat → Option (Nat × GribHandleData)
  | 0, f, count => some (count, f)
  | k + 1, f, count =>
    let r := f.read 8
    if r.1.length = 8 then
      skipWords k r.2 ((count + count_bits (word_of_bytes r.1)) % 2 ^ 64)
    else none

/-- The bitmap scan shared by `extractAtIndex` (lines 273-288) and
`extractAtIndexRange` (lines 197-214), started with the resource positioned at
the bitmap: it returns the shifted last word `n` and the running `count`. -/
def scanBitmap (f : GribHandleData) (index : Nat) : Option ((Nat × Nat) × GribHandleData) :=
  match skipWords (index / (8 * 8)) f 0 with
  | none => none
  | some (count, f1) =>
    let r := f1.read 8
    if r.1.length = 8 then
      let n := reverse_bytes (word_of_bytes r.1)
      let n := n >>> (8 * 8 - index % (8 * 8) - 1)
      some ((n, (count + count_bits n) % 2 ^ 64), r.2)
    else none

/-- The expression
`(double) (((p * binaryMultiplier_) + referenceValue_) * decimalMultiplier_)` of
lines 248 and 312: `p`, an `unsigned long`, is converted to `double` for the
first product, and each of the three operations is rounded to `double`. -/
def reconstruct (g : GribInfo) (p : Nat) : ℚ :=
  toDouble (toDouble (toDouble (toDouble (p : ℚ) * g.binaryMultiplier) + g.referenceValue) *
    g.decimalMultiplier)

/-- The value read shared by `extractAtIndex` (lines 300-312) and
`extractAtIndexRange` (lines 236-248) for the physical slot `index`. The local
array `buf` is not initialised in the source: `junk k` is whatever byte the
memory at `buf + k` holds before the read, which fills the first `len` bytes.
The product `index * bitsPerValue_` is a `size_t` product; the conversions of
the offsets to `off_t` preserve every offset below `2 ^ 63` and are not
written. -/
def readValue (g : GribInfo) (junk : Nat → Nat) (f : GribHandleData) (index : Nat) :
    Option (ℚ × GribHandleData) :=
  let offset := g.offsetBeforeData + (index * g.bitsPerValue % 2 ^ 64) / 8
  let s := f.seek offset
  if s.1 = offset then
    let len := (g.bitsPerValue + 7) % 2 ^ 64 / 8
    let r := s.2.read len
    if r.1.length = len then
      let buf : Nat → Nat := fun k => if k < len then r.1.getD k 0 else junk k
      let bitp := (index * g.bitsPerValue % 2 ^ 64) % 8
      let p := grib_decode_unsigned_long buf bitp g.bitsPerValue
      some (reconstruct g p, r.2)
    else none
  else none

/-- Lines 262-296 of `extractAtIndex`: the resolution of a logical index to
`none` (the point is missing) or to a physical slot. -/
def resolveSlot (g : GribInfo) (f : GribHandleData) (index : Nat) :
    Option (Option Nat × GribHandleData) :=
  if g.offsetBeforeBitmap ≠ 0 then
    if index < g.numberOfDataPoints then
      let s := f.seek g.offsetBeforeBitmap
      if s.1 = g.offsetBeforeBitmap then
        match scanBitmap s.2 index with
        | none => none
        | some ((n, count), f1) =>
          if n &&& 1 = 0 then some (none, f1)
          else some (some ((count + 2 ^ 64 - 1) % 2 ^ 64), f1)
      else none
    else none
  else some (some index, f)

/-- The method `GribInfo::extractAtIndex`. -/
def extractAtIndex (g : GribInfo) (junk : Nat → Nat) (f : GribHandleData) (index : Nat) :
    Option (ℚ × GribHandleData) :=
  if g.bitsPerValue = 0 then some (g.referenceValue, f)
  else if g.sphericalHarmonics ≠ 0 then none
  else
    match resolveSlot g f index with
    | none => none
    | some (none, f1) => some (MISSING, f1)
    | some (some slot, f1) =>
      if slot < g.numberOfValues then readValue g junk f1 slot else none

/-- The method `GribInfo::extractAtIndexRangeNaive`: a loop of `extractAtIndex`
over `i_start, i_start + 1, ...`; `k` is the number of iterations left. -/
def naiveLoop (g : GribInfo) (junk : Nat → Nat) :
    Nat → GribHandleData → Nat → Option (List ℚ × GribHandleData)
  | 0, f, _ => some ([], f)
  | k + 1, f, i =>
    match extractAtIndex g junk f i with
    | none => none
    | some (v, f1) =>
      match naiveLoop g junk k f1 (i + 1) with
      | none => none
      | some (vs, f2) => some (v :: vs, f2)

/-- The method `GribInfo::extractAtIndexRangeNaive`; its `reserve` is not
modelled. -/
def extractAtIndexRangeNaive (g : GribInfo) (junk : Nat → Nat) (f : GribHandleData)
    (i_start i_end : Nat) : Option (List ℚ × GribHandleData) :=
  naiveLoop g junk (i_end - i_start) f i_start

/-- The first loop of `extractAtIndexRange` (lines 193-222): for each index it
seeks back to the bitmap, scans, and appends to `n_index` the slot `count - 1`
or, for a missing point, `-1` converted to `size_t`. -/
def indexLoop (g : GribInfo) : Nat → GribHandleData → Nat → Option (List Nat × GribHandleData)
  | 0, f, _ => some ([], f)
  | k + 1, f, index =>
    let s := f.seek g.offsetBeforeBitmap
    if s.1 = g.offsetBeforeBitmap then
      match scanBitmap s.2 index with
      | none => none
      | some ((n, count), f1) =>
        let e := if n &&& 1 ≠ 0 then (count + 2 ^ 64 - 1) % 2 ^ 64 else 2 ^ 64 - 1
        match indexLoop g k f1 (index + 1) with
        | none => none
        | some (es, f2) => some (e :: es, f2)
    else none

/-- The second loop of `extractAtIndexRange` (lines 229-251) over `n_index`. -/
def valueLoop (g : GribInfo) (junk : Nat → Nat) :
    List Nat → GribHandleData → Option (List ℚ × GribHandleData)
  | [], f => some ([], f)
  | e :: es, f =>
    if e = 2 ^ 64 - 1 then
      match valueLoop g junk es f with
      | none => none
      | some (vs, f2) => some (MISSING :: vs, f2)
    else
      match readValue g junk f e with
      | none => none
      | some (v, f1) =>
        match valueLoop g junk es f1 with
        | none => none
        | some (vs, f2) => some (v :: vs, f2)

/-- The method `GribInfo::extractAtIndexRange`. The vector sizes
`i_end - i_start` are `size_t` differences; memory allocation (the constructor
of the result vector, `reserve`) is not modelled and never fails here. -/
def extractAtIndexRange (g : GribInfo) (junk : Nat → Nat) (f : GribHandleData)
    (i_start i_end : Nat) : Option (List ℚ × GribHandleData) :=
  if g.bitsPerValue = 0 then
    some (List.replicate ((i_end + 2 ^ 64 - i_start) % 2 ^ 64) g.referenceValue, f)
  else if ¬ i_start < i_end then none
  else if ¬ i_end ≤ g.numberOfDataPoints then none
  else if g.sphericalHarmonics ≠ 0 then none
  else
    let r : Option (List Nat × GribHandleData) :=
      if g.offsetBeforeBitmap ≠ 0 then
        let s := f.seek g.offsetBeforeBitmap
        if s.1 = g.offsetBeforeBitmap then indexLoop g (i_end - i_start) s.2 i_start
        else none
      else
        some ((List.range (i_end - i_start)).map (fun k => i_start + k), f)
    match r with
    | none => none
    | some (n_index, f1) => valueLoop g junk n_index f1

/-! ## The harvest -/

/-- Modelled from the spec: the header reader. `GribHandle` and the accessors
`GribAccessor<T>` (`metkit/codes/GribAccessor.h`) are not among the sources; a
header is the tuple of the numbers that the ten accessors of `GribInfo.cc`
return for it. -/
structure GribHandle where
  bitmapPresent : Int
  binaryScaleFactor : Int
  decimalScaleFactor : Int
  bitsPerValue : Nat
  referenceValue : ℚ
  offsetBeforeData : Nat
  offsetBeforeBitmap : Nat
  numberOfValues : Nat
  numberOfDataPoints : Nat
  sphericalHarmonics : Int

/-- Modelled from the spec: the external C function `grib_power(s, n)`, which
the specification gives as `pow(n, s)`: the `double` nearest to the power
`n ^ s`. A power beyond the largest finite `double` is an infinity in C++ and
is outside the embedding. -/
def grib_power (s n : Int) : ℚ := toDouble ((n : ℚ) ^ s)

/-- The method `GribInfo::update`. It assigns nine raw fields and the two
multipliers and leaves the other members of the record as they are. The
negation `-decimalScaleFactor_` is a negation of a `long`. -/
def GribInfo.update (g : GribInfo) (h : GribHandle) : GribInfo :=
  { g with
    binaryScaleFactor := h.binaryScaleFactor
    decimalScaleFactor := h.decimalScaleFactor
    bitsPerValue := h.bitsPerValue
    referenceValue := h.referenceValue
    offsetBeforeData := h.offsetBeforeData
    numberOfDataPoints := h.numberOfDataPoints
    numberOfValues := h.numberOfValues
    sphericalHarmonics := h.sphericalHarmonics
    offsetBeforeBitmap := if h.bitmapPresent ≠ 0 then h.offsetBeforeBitmap else 0
    binaryMultiplier := grib_power h.binaryScaleFactor 2
    decimalMultiplier := grib_power (wrapLong (-h.decimalScaleFactor)) 10 }

/-! ## Several ranges -/

/-- The loop of `extractAtIndexRangeOfRanges` over the ranges, in input order:
the values of each range are appended to the output. -/
def rangesLoop (g : GribInfo) (junk : Nat → Nat) :
    List (Nat × Nat) → GribHandleData → Option (List ℚ × GribHandleData)
  | [], f => some ([], f)
  | (s, e) :: rs, f =>
    match extractAtIndexRange g junk f s e with
    | none => none
    | some (vs, f1) =>
      match rangesLoop g junk rs f1 with
      | none => none
      | some (ws, f2) => some (vs ++ ws, f2)

/-- Modelled from the spec: `GribInfo::extractAtIndexRangeOfRanges`, which
`GribInfo.h` declares and `grib-jump.cc` calls but which is not defined in the
sources. Its input is a non-empty sequence of `(start, end)` pairs and its
output concatenates the per-range results in input order with no
deduplication; the per-range result is the one of `extractAtIndexRange`, and an
empty sequence is an error. -/
def extractAtIndexRangeOfRanges (g : GribInfo) (junk : Nat → Nat) (f : GribHandleData)
    (ranges : List (Nat × Nat)) : Option (List ℚ × GribHandleData) :=
  if ranges = [] then none else rangesLoop g junk ranges f

/-! ## The JSON form -/

/-- Modelled from the spec: the JSON document that `eckit::JSON` writes and
`eckit::JSONParser::decodeFile` returns (eckit is an external library). The
schema is a flat object whose values are numbers: a list of key and number
pairs in document order, each number being the value its decimal text
denotes. -/
def JSONObject : Type := List (String × ℚ)

/-- Modelled from the spec: `v["key"]`, the first member with that key; a
missing key is an error. -/
def JSONObject.get (v : JSONObject) (key : String) : Option ℚ :=
  match v with
  | [] => none
  | (k, x) :: rest => if k = key then some x else JSONObject.get rest key

/-- The decimal exponent of `x ≥ 1`, found by division. -/
def decExpUp : Nat → ℚ → Int
  | 0, _ => 0
  | fuel + 1, x => if x < 10 then 0 else decExpUp fuel (x / 10) + 1

/-- The decimal exponent of `0 < x < 1`, found by multiplication. -/
def decExpDown : Nat → ℚ → Int
  | 0, _ => 0
  | fuel + 1, x => if 1 ≤ x then 0 else decExpDown fuel (x * 10) - 1

/-- The decimal exponent `e` of `x > 0`, with `10 ^ e ≤ x < 10 ^ (e + 1)`. The
search stops after 400 steps; the finite non-zero `double` values lie between
`10 ^ (-324)` and `10 ^ 309`. -/
def decimalExponent (x : ℚ) : Int :=
  if 1 ≤ x then decExpUp 400 x else decExpDown 400 x

/-- Modelled from the spec: the number that `json << x` writes for a `double`
after `json.precision(p)`: the text has `p` significant decimal digits (the
default floating-point format of a C++ stream), so the number written is `x`
rounded to `p` significant digits. -/
def printDouble (p : Nat) (x : ℚ) : ℚ :=
  if x = 0 then 0
  else (roundHalfEven (x * 10 ^ ((p : Int) - 1 - decimalExponent |x|)) : ℚ) /
    10 ^ ((p : Int) - 1 - decimalExponent |x|)

/-- Modelled from the spec: the conversion of a JSON number to `long`. A number
without fractional part converts to itself, another one is truncated as a C++
conversion from `double` does. -/
def toLong (q : ℚ) : Int := if 0 ≤ q then ⌊q⌋ else ⌈q⌉

/-- Modelled from the spec: the conversion of a JSON number to
`unsigned long`, the conversion to `long` taken modulo `2 ^ 64`. -/
def toUnsignedLong (q : ℚ) : Nat := (toLong q % 2 ^ 64).toNat

/-- The method `GribInfo::toJSON`: the object with the eleven members in the
order of the source, the three `double` members written at precision 15. -/
def GribInfo.toJSON (g : GribInfo) : JSONObject :=
  [("binaryScaleFactor", (g.binaryScaleFactor : ℚ)),
   ("decimalScaleFactor", (g.decimalScaleFactor : ℚ)),
   ("bitsPerValue", (g.bitsPerValue : ℚ)),
   ("referenceValue", printDouble 15 g.referenceValue),
   ("offsetBeforeData", (g.offsetBeforeData : ℚ)),
   ("numberOfDataPoints", (g.numberOfDataPoints : ℚ)),
   ("numberOfValues", (g.numberOfValues : ℚ)),
   ("offsetBeforeBitmap", (g.offsetBeforeBitmap : ℚ)),
   ("sphericalHarmonics", (g.sphericalHarmonics : ℚ)),
   ("binaryMultiplier", printDouble 15 g.binaryMultiplier),
   ("decimalMultiplier", printDouble 15 g.decimalMultiplier)]

/-- The method `GribInfo::fromJSONFile` on the decoded document `v`: eleven
assignments, in the order of the source, and no check of the values. The
members of the record that are not serialized stay as they are. -/
def GribInfo.fromJSONFile (g : GribInfo) (v : JSONObject) : Option GribInfo :=
  match v.get "binaryScaleFactor", v.get "decimalScaleFactor", v.get "bitsPerValue",
    v.get "referenceValue", v.get "offsetBeforeData", v.get "numberOfDataPoints",
    v.get "numberOfValues", v.get "offsetBeforeBitmap", v.get "sphericalHarmonics",
    v.get "binaryMultiplier", v.get "decimalMultiplier" with
  | some bsf, some dsf, some bpv, some ref, some obd, some ndp, some nv, some obb, some sh,
      some bm, some dm =>
    some { g with
      binaryScaleFactor := toLong bsf
      decimalScaleFactor := toLong dsf
      bitsPerValue := toUnsignedLong bpv
      referenceValue := ref
      offsetBeforeData := toUnsignedLong obd
      numberOfDataPoints := toUnsignedLong ndp
      numberOfValues := toUnsignedLong nv
      offsetBeforeBitmap := toUnsignedLong obb
      sphericalHarmonics := toLong sh
      binaryMultiplier := bm
      decimalMultiplier := dm }
  | _, _, _, _, _, _, _, _, _, _, _ => none

/-! ## Strings -/

/-- A `std::string`: the sequence of its `char` elements. -/
abbrev StdString : Type := List Char

/-- The search of `std::string::find`: the first position at or after `i`, the
position of the first element of `s`, where `pat` occurs; `none` is `npos`. -/
def strFindFrom (pat : StdString) : StdString → Nat → Option Nat
  | [], i => if pat = [] then some i else none
  | c :: s, i => if pat.isPrefixOf (c :: s) then some i else strFindFrom pat s (i + 1)

/-- The call `s.find(pat)` of `std::string`. -/
def strFind (s pat : StdString) : Option Nat := strFindFrom pat s 0

/-- The comparison `operator<` of `std::string`, which orders the keys of a
`std::map<std::string, T>`: lexicographic, element by element. -/
def strLt : StdString → StdString → Bool
  | _, [] => false
  | [], _ :: _ => true
  | a :: as, b :: bs => if a < b then true else if a = b then strLt as bs else false

/-! ## The request language -/

/-- The function `bestMatch` of `MarsLanguage.cc`; `none` is the `UserError`
thrown after the loop. -/
def bestMatch (name : StdString) : List StdString → Option StdString
  | [] => none
  | value :: rest => if strFind value name = some 0 then some value else bestMatch name rest

/-- The assignment `m[k] = v` on a `std::map<std::string, std::string>`, the
map being the list of its entries in ascending key order: a new key is put at
its place, the value of a key that is there is replaced. -/
def mapAssign (k v : StdString) : List (StdString × StdString) → List (StdString × StdString)
  | [] => [(k, v)]
  | (k1, v1) :: rest =>
    if strLt k k1 then (k, v) :: (k1, v1) :: rest
    else if strLt k1 k then (k1, v1) :: mapAssign k v rest
    else (k1, v) :: rest

/-- The class `TypeEnum`: the member `values_`, a map from each enum value to
itself, as the list of its entries in iteration order. -/
structure TypeEnum where
  values_ : List (StdString × StdString)

/-- The constructor `TypeEnum::TypeEnum`: `values_[v] = v` for each element `v`
of the setting `values`, in order. -/
def TypeEnum.new (values : List StdString) : TypeEnum :=
  ⟨values.foldl (fun m v => mapAssign v v m) []⟩

/-- The inner loop of `TypeEnum::expand` for the input `j`: the value of the
first entry, in iteration order, whose key has `j` at position 0; nothing if
there is none. -/
def expandOne (j : StdString) : List (StdString × StdString) → List StdString
  | [] => []
  | (k, v) :: rest => if strFind k j = some 0 then [v] else expandOne j rest

/-- The method `TypeEnum::expand`: the new content of the vector `values`. -/
def TypeEnum.expand (t : TypeEnum) : List StdString → List StdString
  | [] => []
  | j :: js => expandOne j t.values_ ++ TypeEnum.expand t js

/-- The three places where `TypeRange::tidy` throws `UserError`, named by the
letter that ends the message. -/
inductive RangeError where
  | a
  | b
  | c
  deriving DecidableEq

/-- The loop of `TypeRange::tidy` (`TypeRange.cc`, lines 47-82) over the characters that are
left; `first` says that the iterator is at `value.begin()`, `n` says that the
pointer `n` is `&b`. -/
def rangeLoop : List Char → Bool → Int → Int → Bool → Except RangeError (Int × Int × Bool)
  | [], _, a, b, n => Except.ok (a, b, n)
  | j :: rest, first, a, b, n =>
    if j = '-' then
      if first = false then
        if n = true then Except.error RangeError.a
        else rangeLoop rest false a b true
      else Except.error RangeError.b
    else if j.isDigit then
      if n = true then
        rangeLoop rest false a (wrapLong (wrapLong (b * 10) + ((j.toNat : Int) - 48))) n
      else
        rangeLoop rest false (wrapLong (wrapLong (a * 10) + ((j.toNat : Int) - 48))) b n
    else Except.error RangeError.c

/-- The decimal digits of `n`, most significant first; `fuel` bounds the number
of digits. -/
def decimalDigits : Nat → Nat → List Char
  | 0, _ => []
  | fuel + 1, n =>
    if n < 10 then [Char.ofNat (48 + n)]
    else decimalDigits fuel (n / 10) ++ [Char.ofNat (48 + n % 10)]

/-- The text that `oss << x` writes for a `long`: a minus sign for a negative
number, then the decimal digits without leading zeros. -/
def longToString (x : Int) : StdString :=
  if x < 0 then '-' :: decimalDigits (x.natAbs + 1) x.natAbs
  else decimalDigits (x.natAbs + 1) x.natAbs

/-- The method `TypeRange::tidy`. The method `TypeInteger::tidy` of the base
class is not among the sources: `integerTidy` is what it returns, `none` when
it throws. -/
def TypeRange.tidy (integerTidy : StdString → Option StdString) (value : StdString) :
    Except RangeError StdString :=
  match integerTidy value with
  | some r => Except.ok r
  | none =>
    match rangeLoop value true 0 0 false with
    | Except.error e => Except.error e
    | Except.ok (a, b, n) =>
      if n = false then Except.ok (longToString a)
      else Except.ok (longToString a ++ '-' :: longToString b)

/-! ## The command-line tool -/

/-- Modelled from the spec: `eckit::option::CmdArgs` (eckit is an external
library): the options of the command line that the tool reads, each absent or
given, and the positional arguments. -/
structure CmdArgs where
  extract : Option Bool
  query : Option Bool
  msg : Option Int
  metaName : Option StdString
  positional : List StdString

/-- The call `args.count()`: the number of positional arguments. -/
def CmdArgs.count (args : CmdArgs) : Nat := args.positional.length

/-- The call `args(i)`: positional argument `i`; an access at or beyond
`count()` is an error. -/
def CmdArgs.arg (args : CmdArgs) (i : Nat) : Option StdString := args.positional[i]?

/-- The function `isspace` of the C locale. -/
def isSpace (c : Char) : Bool := c = ' ' || (9 ≤ c.toNat && c.toNat ≤ 13)

/-- The function `std::stoi`: leading white space, an optional sign and the
longest run of decimal digits; `none` when there is no digit
(`std::invalid_argument`) or when the number is not an `int`
(`std::out_of_range`). -/
def stoi (str : StdString) : Option Int :=
  let s := str.dropWhile isSpace
  let t := if s.head? = some '-' ∨ s.head? = some '+' then s.tail else s
  let ds := t.takeWhile Char.isDigit
  if ds = [] then none
  else
    let m : Int := ((ds.foldl (fun n c => n * 10 + (c.toNat - 48)) 0 : Nat) : Int)
    let v : Int := if s.head? = some '-' then -m else m
    if -2 ^ 31 ≤ v ∧ v < 2 ^ 31 then some v else none

/-- The conversion of an `int` to `size_t`. -/
def toSizeT (x : Int) : Nat := (x % 2 ^ 64).toNat

/-- What the tool uses of its surroundings, none of it among the sources: the
file system (`PathName::exists`, `PathName::baseName`, which belong to eckit),
`GribHandleData::extractMetadata`, `GribInfo::fromBinary` (`none` when they
throw), the byte resource opened on a file, and the content of the local array
`buf` of the extractor. -/
structure ToolEnv where
  fileExists : StdString → Bool
  baseName : StdString → StdString
  extractMetadata : StdString → StdString → Option GribInfo
  fromBinary : GribInfo → StdString → Int → Option GribInfo
  dataSource : StdString → GribHandleData
  junk : Nat → Nat

/-- The members of the class `GribJump` of `grib-jump.cc`. -/
structure GribJump where
  doExtract : Bool
  doQuery : Bool
  doRange : Bool
  gribFileName : StdString
  binFileName : StdString
  msgid : Int
  singleIndex : Nat
  rangesVector : List (Nat × Nat)

/-- The tool as constructed: the three flags are `false`; the members that the
source leaves uninitialised are zero or empty here. -/
def GribJump.new : GribJump :=
  { doExtract := false, doQuery := false, doRange := false, gribFileName := [],
    binFileName := [], msgid := 0, singleIndex := 0, rangesVector := [] }

/-- The loop of `init` (`grib-jump.cc`, lines 89-92) from position `i` on: each pair of
positional arguments becomes a range. `fuel` bounds the number of iterations;
`init` passes `count()`, which the loop does not reach. -/
def rangesFromArgs (args : CmdArgs) : Nat → Nat → Option (List (Nat × Nat))
  | 0, _ => some []
  | fuel + 1, i =>
    if i < args.count then
      match args.arg i, args.arg (i + 1) with
      | some x, some y =>
        match stoi x, stoi y with
        | some p, some q =>
          match rangesFromArgs args fuel (i + 2) with
          | some rs => some ((toSizeT p, toSizeT q) :: rs)
          | none => none
        | _, _ => none
      | _, _ => none
    else some []

/-- The method `GribJump::init`; `none` when an assertion fails or a call
throws. -/
def GribJump.init (env : ToolEnv) (t : GribJump) (args : CmdArgs) : Option GribJump :=
  match args.arg 0 with
  | none => none
  | some file =>
    let bin := args.metaName.getD (env.baseName file ++ ".bin".toList)
    if env.fileExists file = false then none
    else
      let t1 : GribJump :=
        { t with
          doExtract := args.extract.getD false || !env.fileExists bin
          doQuery := args.query.getD false
          msgid := args.msg.getD 0
          gribFileName := file
          binFileName := bin }
      if t1.doQuery = false then some t1
      else if args.count = 2 then
        match args.arg 1 with
        | none => none
        | some a =>
          match stoi a with
          | none => none
          | some x => some { t1 with doRange := false, singleIndex := toSizeT x }
      else if args.count % 2 = 1 then
        match rangesFromArgs args args.count 1 with
        | none => none
        | some rs => some { t1 with doRange := true, rangesVector := t1.rangesVector ++ rs }
      else none

/-- The method `GribJump::execute`: the values it prints after `Value:`, none
when it does not query; `none` when an assertion fails or a call throws. -/
def GribJump.execute (env : ToolEnv) (t : GribJump) (args : CmdArgs) : Option (List ℚ) :=
  match (if t.doExtract then env.extractMetadata t.gribFileName t.binFileName
         else some GribInfo.new) with
  | none => none
  | some gribInfo =>
    if t.doQuery then
      match env.fromBinary gribInfo t.binFileName t.msgid with
      | none => none
      | some gribInfo =>
        if gribInfo.ready = false then none
        else if t.doRange then
          (extractAtIndexRangeOfRanges gribInfo env.junk (env.dataSource t.gribFileName)
            t.rangesVector).map Prod.fst
        else
          match args.arg 2 with
          | none => none
          | some a =>
            match stoi a with
            | none => none
            | some x =>
              (extractAtIndex gribInfo env.junk (env.dataSource t.gribFileName)
                (toSizeT x)).map (fun r => [r.1])
    else some []

/-! ## Reference notions used in the statements -/

/-- Bit `i` of the bitmap that starts at byte `off`: bit 0 is the most
significant bit of the first bitmap byte. -/
def bitmapBit (bytes : List Nat) (off i : Nat) : Bool :=
  (bytes.getD (off + i / 8) 0 % 256).testBit (7 - i % 8)

/-- The number of set bits among bitmap bits `0 .. i-1`. -/
def setBitsBefore (bytes : List Nat) (off i : Nat) : Nat :=
  (List.range i).countP (bitmapBit bytes off)

/-- The physical slot of the logical index `t` in terms of the record and of the
bitmap: `none` for a missing point; without a bitmap the index itself. -/
def slotOf (g : GribInfo) (bytes : List Nat) (t : Nat) : Option Nat :=
  if g.offsetBeforeBitmap ≠ 0 then
    if bitmapBit bytes g.offsetBeforeBitmap t
      then some (setBitsBefore bytes g.offsetBeforeBitmap t) else none
  else some t

/-- The entry that the first loop of `extractAtIndexRange` stores in `n_index`
for the logical index `t`, in terms of the bitmap. -/
def slotEntry (bytes : List Nat) (off t : Nat) : Nat :=
  if bitmapBit bytes off t then setBitsBefore bytes off t else 2 ^ 64 - 1

/-- The position just after the bytes that `readValue` reads for `slot`. -/
def valueEnd (g : GribInfo) (slot : Nat) : Nat :=
  g.offsetBeforeData + (slot * g.bitsPerValue % 2 ^ 64) / 8 + (g.bitsPerValue + 7) % 2 ^ 64 / 8

/-- The value that `readValue` computes for the physical slot `slot` once its
seek and its read have succeeded, as a function of the bytes of the resource. -/
def decodeSlot (g : GribInfo) (junk : Nat → Nat) (bytes : List Nat) (slot : Nat) : ℚ :=
  let offset := g.offsetBeforeData + (slot * g.bitsPerValue % 2 ^ 64) / 8
  let len := (g.bitsPerValue + 7) % 2 ^ 64 / 8
  let buf : Nat → Nat := fun k => if k < len then bytes.getD (offset + k) 0 % 256 else junk k
  let p := grib_decode_unsigned_long buf ((slot * g.bitsPerValue % 2 ^ 64) % 8) g.bitsPerValue
  reconstruct g p

/-- The value of the logical index `t` of a record with a bitmap, in terms of
the bitmap and of the packed data: `MISSING` for a cleared bit, otherwise the
decoded value of the slot given by the preceding set bits. -/
def pointValue (g : GribInfo) (junk : Nat → Nat) (bytes : List Nat) (t : Nat) : ℚ :=
  if bitmapBit bytes g.offsetBeforeBitmap t
    then decodeSlot g junk bytes (setBitsBefore bytes g.offsetBeforeBitmap t)
    else MISSING

/-- The value of the logical index `t` in terms of the record and of the bytes
of the resource: `MISSING` or the decoded value of its slot. -/
def valueOf (g : GribInfo) (junk : Nat → Nat) (bytes : List Nat) (t : Nat) : ℚ :=
  match slotOf g bytes t with
  | none => MISSING
  | some slot => decodeSlot g junk bytes slot

/-- The big-endian integer of the `n` bytes that start at byte `off`. -/
def bigEndianBytes (bytes : List Nat) (off : Nat) : Nat → Nat
  | 0 => 0
  | n + 1 => 256 * bigEndianBytes bytes off n + bytes.getD (off + n) 0 % 256

/-- The unsigned big-endian integer formed by bits `[i * w, (i + 1) * w)` of
the section that starts at byte `off`: the packed value of slot `i` in the
reference layout. -/
def packedValue (bytes : List Nat) (off w i : Nat) : Nat :=
  grib_decode_unsigned_long (fun k => bytes.getD (off + k) 0) (i * w) w

/-- The number of bytes that `readValue` asks for: `len` of lines 241 and 305. -/
def valueReadLen (g : GribInfo) : Nat := (g.bitsPerValue + 7) % 2 ^ 64 / 8

/-- The operations that the resource `f'` has recorded since it was `f`, most
recent first. -/
def newOps (f f' : GribHandleData) : List IOp :=
  f'.ops.take (f'.ops.length - f.ops.length)

/-- An operation is a seek, a read of 8 bytes or a read of `valueReadLen` bytes. -/
def readLenOk (g : GribInfo) : IOp → Bool
  | IOp.seek _ => true
  | IOp.read n => n == 8 || n == valueReadLen g

/-- The resource `f'` has recorded the operations of `f` and, after them, only
operations that satisfy `P`. -/
def OpsGrow (P : IOp → Bool) (f f' : GribHandleData) : Prop :=
  ∃ new : List IOp, f'.ops = new ++ f.ops ∧ ∀ op, op ∈ new → P op = true

/-- The number of bytes, counted from byte `(s * w) / 8` of the data section,
that hold the bits `[s * w, s * w + w)` of slot `s`, which is
`⌈(w + (s * w) mod 8) / 8⌉`. -/
def neededBytes (w s : Nat) : Nat := (w + (s * w) % 8 + 7) / 8

/-- The value of the logical index `t`: the reference value of a constant field
(`bitsPerValue = 0`), otherwise `valueOf`. -/
def logicalValue (g : GribInfo) (junk : Nat → Nat) (bytes : List Nat) (t : Nat) : ℚ :=
  if g.bitsPerValue = 0 then g.referenceValue else valueOf g junk bytes t

/-- What a caller sees of a result apart from the record of operations: the
value, and the bytes and the position of the resource. -/
def view {α : Type} (r : Option (α × GribHandleData)) : Option (α × List Nat × Nat) :=
  r.map (fun x => (x.1, x.2.bytes, x.2.pos))

/-- The value of a result and the bytes of the resource. -/
def vals {α : Type} (r : Option (α × GribHandleData)) : Option (α × List Nat) :=
  r.map (fun x => (x.1, x.2.bytes))

/-- The magnitude of `x` is below the overflow threshold of `double`: the
rounding of `x` is a finite `double`. -/
def inDoubleRange (x : ℚ) : Bool := decide (|x| < 2 ^ 1024 - 2 ^ 970)

/-- None of the three operations of `reconstruct g p` leaves the finite range
of `double`. -/
def reconstructFinite (g : GribInfo) (p : Nat) : Bool :=
  inDoubleRange (toDouble (p : ℚ) * g.binaryMultiplier) &&
  inDoubleRange (toDouble (toDouble (p : ℚ) * g.binaryMultiplier) + g.referenceValue) &&
  inDoubleRange (toDouble (toDouble (toDouble (p : ℚ) * g.binaryMultiplier) +
    g.referenceValue) * g.decimalMultiplier)

/-- The eleven keys of the JSON form. -/
def requiredKeys : List String :=
  ["binaryScaleFactor", "decimalScaleFactor", "bitsPerValue", "referenceValue",
   "offsetBeforeData", "numberOfDataPoints", "numberOfValues", "offsetBeforeBitmap",
   "sphericalHarmonics", "binaryMultiplier", "decimalMultiplier"]

/-- The map is in strictly ascending key order and every value is its key. -/
def EnumMapOk (m : List (StdString × StdString)) : Prop :=
  m.Pairwise (fun x y => strLt x.1 y.1 = true) ∧ ∀ x, x ∈ m → x.2 = x.1

/-- The number spelled by a run of decimal digits, continuing from `acc`. -/
def digitsValueFrom (acc : Nat) : List Char → Nat
  | [] => acc
  | c :: cs => digitsValueFrom (acc * 10 + (c.toNat - 48)) cs

/-- The number spelled by a run of decimal digits; the empty run spells 0. -/
def digitsValue (cs : List Char) : Nat := digitsValueFrom 0 cs

/-- The decimal form of a natural number, without leading zeros. -/
def decimal (n : Nat) : StdString := decimalDigits (n + 1) n

/-- The result is a thrown `UserError`. -/
def throwsUserError {α : Type} (r : Except RangeError α) : Prop := ∃ e, r = Except.error e

/-! ## Example records and resources -/

/-- The fourth scenario of the specification: four points, bitmap at byte 1,
three 8-bit values at byte 9. -/
def exBitmapInfo : GribInfo :=
  { GribInfo.new with bitsPerValue := 8, numberOfValues := 3, numberOfDataPoints := 4,
                      offsetBeforeBitmap := 1, offsetBeforeData := 9 }

/-- One pad byte, the bitmap word `B0 00 .. 00` (bits `1011 0000 ...`), then the
data bytes 10 20 30. -/
def exBitmapResource : GribHandleData :=
  ⟨[0, 0xB0, 0, 0, 0, 0, 0, 0, 0, 10, 20, 30], 0, []⟩

/-- The second scenario of the specification: four 8-bit values, no bitmap, no
scaling. -/
def exPlainInfo : GribInfo :=
  { GribInfo.new with bitsPerValue := 8, numberOfValues := 4, numberOfDataPoints := 4 }

/-- The data section 01 02 03 04 as a whole resource. -/
def exPlainResource : GribHandleData := ⟨[1, 2, 3, 4], 0, []⟩

/-- The fifth scenario of the specification: reference value 100, binary
multiplier 2, decimal multiplier 10. -/
def exScaledInfo : GribInfo :=
  { GribInfo.new with bitsPerValue := 8, numberOfValues := 1, numberOfDataPoints := 1,
                      referenceValue := 100, binaryScaleFactor := 1, decimalScaleFactor := -1,
                      binaryMultiplier := 2, decimalMultiplier := 10 }

/-- The single packed value 5. -/
def exScaledResource : GribHandleData := ⟨[5], 0, []⟩

/-- Four 3-bit values without bitmap and without scaling. -/
def exNarrowInfo : GribInfo :=
  { GribInfo.new with bitsPerValue := 3, numberOfValues := 4, numberOfDataPoints := 4 }

/-- A constant field (`bitsPerValue = 0`, reference value 5) with a bitmap at
byte 1 over four points. -/
def exConstBitmapInfo : GribInfo :=
  { GribInfo.new with referenceValue := 5, numberOfValues := 3, numberOfDataPoints := 4,
                      offsetBeforeBitmap := 1, offsetBeforeData := 9 }

/-- A record whose bitmap (all four bits set) has more set bits than
`numberOfValues = 1`. -/
def exShortInfo : GribInfo :=
  { GribInfo.new with bitsPerValue := 8, numberOfValues := 1, numberOfDataPoints := 4,
                      offsetBeforeBitmap := 1, offsetBeforeData := 9 }

/-- One pad byte, the bitmap word `F0 00 .. 00`, then the data bytes 10 20 30 40. -/
def exShortResource : GribHandleData :=
  ⟨[0, 0xF0, 0, 0, 0, 0, 0, 0, 0, 10, 20, 30, 40], 0, []⟩

/-- A record without bitmap that announces two values for four data points. -/
def exFewValuesInfo : GribInfo :=
  { GribInfo.new with bitsPerValue := 8, numberOfValues := 2, numberOfDataPoints := 4 }

/-- A constant field flagged as spherical harmonics. -/
def exConstSpectralInfo : GribInfo :=
  { GribInfo.new with referenceValue := 5, numberOfValues := 4, numberOfDataPoints := 4,
                      sphericalHarmonics := 1 }

/-- A spherical-harmonics record with 8-bit values. -/
def exSpectralInfo : GribInfo :=
  { GribInfo.new with bitsPerValue := 8, numberOfValues := 4, numberOfDataPoints := 4,
                      sphericalHarmonics := 1 }

/-- A record without bitmap that announces more values than data points. -/
def exManyValuesInfo : GribInfo :=
  { GribInfo.new with bitsPerValue := 8, numberOfValues := 4, numberOfDataPoints := 2 }

/-- The record of `exPlainInfo` for a message that starts at byte 4 of its file. -/
def exSecondMessageInfo : GribInfo :=
  { exPlainInfo with msgStartOffset := 4 }

/-- A file whose first four bytes belong to another message; the message of
`exPlainResource` follows at byte 4. -/
def exTwoMessageResource : GribHandleData := ⟨[9, 9, 9, 9, 1, 2, 3, 4], 0, []⟩

/-- The third scenario of the specification: four 12-bit values without bitmap. -/
def exTwelveBitInfo : GribInfo :=
  { GribInfo.new with bitsPerValue := 12, numberOfValues := 4, numberOfDataPoints := 4 }

/-- The packed values 1, 2, 3, 4 at 12 bits each. -/
def exTwelveBitResource : GribHandleData := ⟨[0x00, 0x10, 0x02, 0x00, 0x30, 0x04], 0, []⟩

/-- The first scenario of the specification: a constant field with reference
value 273.15 over four points, no bitmap. -/
def exConstInfo : GribInfo :=
  { GribInfo.new with referenceValue := 5463 / 20, numberOfValues := 4, numberOfDataPoints := 4 }

/-- Two 7-bit values without bitmap and without scaling. -/
def exSevenBitInfo : GribInfo :=
  { GribInfo.new with bitsPerValue := 7, numberOfValues := 2, numberOfDataPoints := 2 }

/-- Six 11-bit values without bitmap and without scaling. -/
def exElevenBitInfo : GribInfo :=
  { GribInfo.new with bitsPerValue := 11, numberOfValues := 6, numberOfDataPoints := 6 }

/-- Nine bytes that hold six 11-bit values; slot 5 is all ones. -/
def exElevenBitResource : GribHandleData :=
  ⟨[0, 0, 0, 0, 0, 0, 0x01, 0xFF, 0xC0], 0, []⟩

/-- A record whose reference value is the single-precision number nearest to
273.15, that is 273.149993896484375, as GRIB stores it. -/
def exFloatRefInfo : GribInfo :=
  { GribInfo.new with bitsPerValue := 8, numberOfValues := 4, numberOfDataPoints := 4,
                      referenceValue := 8950579 / 32768 }

/-- A record whose reference value is the `double` next to 1, `1 + 2 ^ (-52)`. -/
def exNextToOneInfo : GribInfo :=
  { GribInfo.new with bitsPerValue := 8, numberOfValues := 4, numberOfDataPoints := 4,
                      referenceValue := 1 + 1 / 2 ^ 52 }

/-- A JSON document with the eleven keys whose values break the data model:
`bitsPerValue = 65`, `numberOfValues = 10` for 4 data points, no bitmap, and
multipliers 3 and 7 for scale factors 0. -/
def exInvalidJSON : JSONObject :=
  [("binaryScaleFactor", 0), ("decimalScaleFactor", 0), ("bitsPerValue", 65),
   ("referenceValue", 0), ("offsetBeforeData", 0), ("numberOfDataPoints", 4),
   ("numberOfValues", 10), ("offsetBeforeBitmap", 0), ("sphericalHarmonics", 0),
   ("binaryMultiplier", 3), ("decimalMultiplier", 7)]

/-- A JSON document without the key `bitsPerValue`. -/
def exIncompleteJSON : JSONObject :=
  [("binaryScaleFactor", 0), ("decimalScaleFactor", 0),
   ("referenceValue", 0), ("offsetBeforeData", 0), ("numberOfDataPoints", 4),
   ("numberOfValues", 4), ("offsetBeforeBitmap", 0), ("sphericalHarmonics", 0),
   ("binaryMultiplier", 1), ("decimalMultiplier", 1)]

/-- A resource that agrees with `exBitmapResource` on bitmap bits 0..2 and
differs in the pad byte, in the bitmap bits 4..63, in the data, in its position
and in its record of operations. -/
def exOtherBitmapResource : GribHandleData :=
  ⟨[0xFF, 0xBF, 0xFF, 0xFF, 0xFF, 0xFF, 0xFF, 0xFF, 0xFF, 1, 2, 3, 4], 5, [IOp.seek 5]⟩

/-- Two points with a bitmap at byte 1 and one 16-bit value at byte 9. -/
def exSentinelInfo : GribInfo :=
  { GribInfo.new with bitsPerValue := 16, numberOfValues := 1, numberOfDataPoints := 2,
                      offsetBeforeBitmap := 1, offsetBeforeData := 9 }

/-- One pad byte, the bitmap word `80 00 .. 00` (point 0 present, point 1
missing), then the packed value `27 0F`, which is 9999. -/
def exSentinelResource : GribHandleData :=
  ⟨[0, 0x80, 0, 0, 0, 0, 0, 0, 0, 0x27, 0x0F], 0, []⟩

/-- A parameter for `TypeInteger::tidy` that rejects every value. -/
def exRejectAll : StdString → Option StdString := fun _ => none

/-- Surroundings in which every file exists, the metadata file holds the record
of the second scenario and the GRIB file holds its four values. -/
def exToolEnv : ToolEnv :=
  { fileExists := fun _ => true
    baseName := fun p => p
    extractMetadata := fun _ _ => some exPlainInfo
    fromBinary := fun _ _ _ => some exPlainInfo
    dataSource := fun _ => exPlainResource
    junk := fun _ => 0 }

/-- The command line `grib-jump --query data.grib 3`. -/
def exQueryArgs : CmdArgs :=
  { extract := none, query := some true, msg := none, metaName := none,
    positional := ["data.grib".toList, "3".toList] }

/-- Two 64-bit values without bitmap and without scaling. -/
def exWideInfo : GribInfo :=
  { GribInfo.new with bitsPerValue := 64, numberOfValues := 2, numberOfDataPoints := 2 }

/-- The packed values `2 ^ 64 - 1` and `2 ^ 53 + 1`. -/
def exWideResource : GribHandleData :=
  ⟨[0xFF, 0xFF, 0xFF, 0xFF, 0xFF, 0xFF, 0xFF, 0xFF, 0x00, 0x20, 0, 0, 0, 0, 0, 0x01], 0, []⟩

/-- A header without bitmap with `decimalScaleFactor = 1`. -/
def exTenthHeader : GribHandle :=
  { bitmapPresent := 0, binaryScaleFactor := 0, decimalScaleFactor := 1, bitsPerValue := 8,
    referenceValue := 0, offsetBeforeData := 0, offsetBeforeBitmap := 0, numberOfValues := 4,
    numberOfDataPoints := 4, sphericalHarmonics := 0 }

/-- A header without bitmap with `binaryScaleFactor = -1075`. -/
def exTinyHeader : GribHandle :=
  { exTenthHeader with binaryScaleFactor := -1075, decimalScaleFactor := 0 }

/-- A header that reports a bitmap and gives 0 as its offset. -/
def exZeroOffsetHeader : GribHandle :=
  { exTenthHeader with bitmapPresent := 1, offsetBeforeBitmap := 0, decimalScaleFactor := 0 }

/-! ## Lemmas -/

/-- Bit `j` of the word read from `bs` is bit `j % 8` of byte `j / 8`. -/
theorem word_of_bytes_testBit (bs : List Nat) (j : Nat) :
    (word_of_bytes bs).testBit j = (bs.getD (j / 8) 0 % 256).testBit (j % 8) := by
  induction bs generalizing j with
  | nil => simp [word_of_bytes]
  | cons b bs ih =>
    have hb : b % 256 < 2 ^ 8 := Nat.mod_lt _ (by norm_num)
    have h := Nat.testBit_mul_pow_two_add (word_of_bytes bs) hb j
    have e : word_of_bytes (b :: bs) = 2 ^ 8 * word_of_bytes bs + b % 256 := by
      simp [word_of_bytes]; ring
    rw [e, h]
    by_cases hj : j < 8
    · have h1 : j / 8 = 0 := by omega
      have h2 : j % 8 = j := by omega
      simp [hj, h1, h2]
    · have h1 : j / 8 = (j - 8) / 8 + 1 := by omega
      have h2 : j % 8 = (j - 8) % 8 := by omega
      rw [if_neg hj, ih, h1, h2]
      simp

/-- The bits of the byte mask. -/
theorem testBit_255 (i : Nat) : Nat.testBit 255 i = decide (i < 8) := by
  have h : (255 : Nat) = 2 ^ 8 - 1 := by norm_num
  rw [h, Nat.testBit_two_pow_sub_one]

/-- The function `reverse_bytes` moves bit `m` of byte `k` to bit `m` of byte `7 - k` and
yields a 64-bit word. -/
theorem reverse_bytes_testBit_all (n j : Nat) :
    (reverse_bytes n).testBit j =
      (decide (j < 64) && n.testBit (8 * (7 - j / 8) + j % 8)) := by
  have m0 : (0x00000000000000FF : Nat) = 255 <<< 0 := by decide
  have m1 : (0x000000000000FF00 : Nat) = 255 <<< 8 := by decide
  have m2 : (0x0000000000FF0000 : Nat) = 255 <<< 16 := by decide
  have m3 : (0x00000000FF000000 : Nat) = 255 <<< 24 := by decide
  have m4 : (0x000000FF00000000 : Nat) = 255 <<< 32 := by decide
  have m5 : (0x0000FF0000000000 : Nat) = 255 <<< 40 := by decide
  have m6 : (0x00FF000000000000 : Nat) = 255 <<< 48 := by decide
  have m7 : (0xFF00000000000000 : Nat) = 255 <<< 56 := by decide
  unfold reverse_bytes
  rw [m0, m1, m2, m3, m4, m5, m6, m7]
  simp only [Nat.testBit_or, Nat.testBit_and, Nat.testBit_shiftLeft, Nat.testBit_shiftRight,
    testBit_255]
  by_cases hj : j < 64
  · interval_cases j <;> simp
  · have a1 : ¬ (j - 56 - 0 < 8) := by omega
    have a2 : ¬ (j - 40 - 8 < 8) := by omega
    have a3 : ¬ (j - 24 - 16 < 8) := by omega
    have a4 : ¬ (j - 8 - 24 < 8) := by omega
    have a5 : ¬ (8 + j - 32 < 8) := by omega
    have a6 : ¬ (24 + j - 40 < 8) := by omega
    have a7 : ¬ (40 + j - 48 < 8) := by omega
    have a8 : ¬ (56 + j - 56 < 8) := by omega
    simp [hj, a1, a2, a3, a4, a5, a6, a7, a8]
    constructor <;> intros <;> omega

/-- Counting over `0 .. a+b-1` splits at `a`. -/
theorem countP_range_add (p : Nat → Bool) (a b : Nat) :
    (List.range (a + b)).countP p =
      (List.range a).countP p + (List.range b).countP (fun j => p (a + j)) := by
  rw [List.range_add, List.countP_append, List.countP_map]
  rfl

/-- Counting over `0 .. r` may run downwards. -/
theorem countP_range_reflect (p : Nat → Bool) (r : Nat) :
    (List.range (r + 1)).countP (fun j => p (r - j)) = (List.range (r + 1)).countP p := by
  induction r generalizing p with
  | zero => simp [show List.range 1 = [0] from rfl, List.countP_cons]
  | succ r ih =>
    have h1 : (List.range (r + 1 + 1)).countP (fun j => p (r + 1 - j)) =
        (List.range (1 + (r + 1))).countP (fun j => p (r + 1 - j)) := by
      rw [Nat.add_comm 1]
    rw [h1, countP_range_add]
    have h2 : (fun j => p (r + 1 - (1 + j))) = (fun j => (fun t => p t) (r - j)) := by
      funext j
      congr 1
      omega
    rw [h2, ih]
    rw [List.range_succ (n := r + 1), List.countP_append]
    simp [show List.range 1 = [0] from rfl, List.countP_cons, Nat.add_comm]

/-- Reversing the bit order inside each byte permutes the 64 bit positions. -/
theorem byteSwapBits_perm :
    List.Perm ((List.range 64).map (fun t => 8 * (t / 8) + 7 - t % 8)) (List.range 64) := by
  decide

/-- Counting over the 64 bit positions is not affected by the bit order inside the
bytes. -/
theorem countP_byteSwapBits (p : Nat → Bool) :
    (List.range 64).countP (fun t => p (8 * (t / 8) + 7 - t % 8)) = (List.range 64).countP p := by
  have h := List.Perm.countP_eq p byteSwapBits_perm
  rw [List.countP_map] at h
  exact h

/-- A read that stays inside the resource delivers all `n` bytes. -/
theorem read_length (f : GribHandleData) (n : Nat) (h : f.pos + n ≤ f.bytes.length) :
    (f.read n).1.length = n := by
  simp [GribHandleData.read]
  omega

/-- Byte `k` of a read that stays inside the resource. -/
theorem read_getD (f : GribHandleData) (n k : Nat) (hk : k < n)
    (h : f.pos + n ≤ f.bytes.length) :
    (f.read n).1.getD k 0 = f.bytes.getD (f.pos + k) 0 % 256 := by
  have h1 : k < ((f.bytes.drop f.pos).take n).length := by
    simp
    omega
  simp [GribHandleData.read, List.getD_eq_getElem?_getD, List.getElem?_map, List.getElem?_take, hk,
    List.getElem?_drop]
  have h2 : f.pos + k < f.bytes.length := by omega
  simp [List.getElem?_eq_getElem h2]

/-- The resource after a read that stays inside it. -/
theorem read_snd (f : GribHandleData) (n : Nat) (h : f.pos + n ≤ f.bytes.length) :
    (f.read n).2 = ⟨f.bytes, f.pos + n, IOp.read n :: f.ops⟩ := by
  have h1 := read_length f n h
  simp only [GribHandleData.read] at h1 ⊢
  rw [h1]

/-- The bits of the `w`-th bitmap word as read (little-endian) are the bitmap bits
`64 * w ..`, the bit order inside each byte being reversed. -/
theorem word_bit (f : GribHandleData) (off w t : Nat) (hp : f.pos = off + 8 * w)
    (hr : f.pos + 8 ≤ f.bytes.length) (ht : t < 64) :
    (word_of_bytes (f.read 8).1).testBit (8 * (t / 8) + 7 - t % 8) =
      bitmapBit f.bytes off (64 * w + t) := by
  have h1 : (8 * (t / 8) + 7 - t % 8) / 8 = t / 8 := by omega
  have h2 : (8 * (t / 8) + 7 - t % 8) % 8 = 7 - t % 8 := by omega
  have h3 : (64 * w + t) / 8 = 8 * w + t / 8 := by omega
  have h4 : (64 * w + t) % 8 = t % 8 := by omega
  rw [word_of_bytes_testBit, h1, h2, read_getD f 8 (t / 8) (by omega) hr]
  unfold bitmapBit
  rw [h3, h4, hp, Nat.mod_mod, Nat.add_assoc]

/-- The population count of the `w`-th bitmap word, taken without reversing its
bytes, counts the bitmap bits `64 * w .. 64 * w + 63`. -/
theorem count_bits_word (f : GribHandleData) (off w : Nat) (hp : f.pos = off + 8 * w)
    (hr : f.pos + 8 ≤ f.bytes.length) :
    count_bits (word_of_bytes (f.read 8).1) =
      (List.range 64).countP (fun t => bitmapBit f.bytes off (64 * w + t)) := by
  unfold count_bits
  rw [← countP_byteSwapBits (fun j => (word_of_bytes (f.read 8).1).testBit j)]
  apply List.countP_congr
  intro t ht
  rw [List.mem_range] at ht
  rw [word_bit f off w t hp hr ht]

/-- After `reverse_bytes`, bit `63 - t` of the `w`-th word is bitmap bit `64 * w + t`. -/
theorem reverse_word_bit (f : GribHandleData) (off w t : Nat) (hp : f.pos = off + 8 * w)
    (hr : f.pos + 8 ≤ f.bytes.length) (ht : t < 64) :
    (reverse_bytes (word_of_bytes (f.read 8).1)).testBit (63 - t) =
      bitmapBit f.bytes off (64 * w + t) := by
  rw [reverse_bytes_testBit_all, ← word_bit f off w t hp hr ht]
  have h1 : 63 - t < 64 := by omega
  have h2 : 8 * (7 - (63 - t) / 8) + (63 - t) % 8 = 8 * (t / 8) + 7 - t % 8 := by omega
  simp [h1, h2]

/-- Counting may stop where the predicate stays false. -/
theorem countP_range_cut (p : Nat → Bool) (m n : Nat) (h : m ≤ n)
    (hz : ∀ j, m ≤ j → j < n → p j = false) :
    (List.range n).countP p = (List.range m).countP p := by
  obtain ⟨d, rfl⟩ := Nat.exists_eq_add_of_le h
  rw [countP_range_add]
  have h0 : (List.range d).countP (fun j => p (m + j)) = 0 := by
    rw [List.countP_eq_zero]
    intro j hj
    rw [List.mem_range] at hj
    simp [hz (m + j) (by omega) (by omega)]
  rw [h0, Nat.add_zero]

/-- The population count of the reversed and shifted last word counts the bitmap
bits `64 * w .. 64 * w + r`. -/
theorem count_bits_last (f : GribHandleData) (off w r : Nat) (hp : f.pos = off + 8 * w)
    (hr : f.pos + 8 ≤ f.bytes.length) (hlt : r < 64) :
    count_bits (reverse_bytes (word_of_bytes (f.read 8).1) >>> (63 - r)) =
      (List.range (r + 1)).countP (fun t => bitmapBit f.bytes off (64 * w + t)) := by
  unfold count_bits
  rw [countP_range_cut _ (r + 1) 64 (by omega)]
  · rw [← countP_range_reflect (fun t => bitmapBit f.bytes off (64 * w + t)) r]
    apply List.countP_congr
    intro j hj
    rw [List.mem_range] at hj
    have h1 : 63 - r + j = 63 - (r - j) := by omega
    rw [Nat.testBit_shiftRight, h1, reverse_word_bit f off w (r - j) hp hr (by omega)]
  · intro j h1 h2
    rw [Nat.testBit_shiftRight, reverse_bytes_testBit_all]
    have : ¬ (63 - r + j < 64) := by omega
    simp [this]

/-- The lowest bit of the reversed and shifted last word is bitmap bit `64 * w + r`. -/
theorem last_bit (f : GribHandleData) (off w r : Nat) (hp : f.pos = off + 8 * w)
    (hr : f.pos + 8 ≤ f.bytes.length) (hlt : r < 64) :
    ((reverse_bytes (word_of_bytes (f.read 8).1) >>> (63 - r)) &&& 1 = 0) ↔
      bitmapBit f.bytes off (64 * w + r) = false := by
  rw [← reverse_word_bit f off w r hp hr hlt, Nat.and_one_is_mod]
  have h := Nat.testBit_shiftRight (i := 63 - r) (j := 0)
    (reverse_bytes (word_of_bytes (f.read 8).1))
  rw [Nat.add_zero] at h
  rw [← h, Nat.testBit_zero]
  have := Nat.mod_two_eq_zero_or_one (reverse_bytes (word_of_bytes (f.read 8).1) >>> (63 - r))
  rcases this with h0 | h0 <;> simp [h0]

/-- The skip loop: after `k` words from word `w` the count has grown by the set
bits among bitmap bits `64 * w .. 64 * (w + k) - 1`. -/
theorem skipWords_spec (off : Nat) (k : Nat) : ∀ (f : GribHandleData) (c w : Nat),
    f.pos = off + 8 * w → off + 8 * (w + k) ≤ f.bytes.length → c < 2 ^ 64 →
    skipWords k f c =
      some ((c + (List.range (64 * k)).countP (fun t => bitmapBit f.bytes off (64 * w + t))) % 2 ^ 64,
        ⟨f.bytes, f.pos + 8 * k, List.replicate k (IOp.read 8) ++ f.ops⟩) := by
  induction k with
  | zero =>
    intro f c w _ _ hc
    simp only [skipWords, Nat.mul_zero, List.range_zero, List.countP_nil, Nat.add_zero,
      Nat.mod_eq_of_lt hc, List.replicate_zero, List.nil_append]
  | succ k ih =>
    intro f c w hp hr hc
    have hr8 : f.pos + 8 ≤ f.bytes.length := by omega
    have hlen := read_length f 8 hr8
    have hsnd := read_snd f 8 hr8
    have hcb := count_bits_word f off w hp hr8
    simp only [skipWords, hlen, if_true]
    rw [hsnd, hcb]
    rw [ih ⟨f.bytes, f.pos + 8, IOp.read 8 :: f.ops⟩ _ (w + 1) (by simp; omega) (by simp; omega)
      (Nat.mod_lt _ (by norm_num))]
    have e1 : 64 * (k + 1) = 64 + 64 * k := by ring
    rw [e1, countP_range_add]
    have e2 : (fun t => bitmapBit f.bytes off (64 * (w + 1) + t)) =
        (fun j => bitmapBit f.bytes off (64 * w + (64 + j))) := by
      funext j
      congr 1
      ring
    simp only [e2]
    have e3 : f.pos + 8 + 8 * k = f.pos + 8 * (k + 1) := by ring
    have e4 : List.replicate k (IOp.read 8) ++ IOp.read 8 :: f.ops =
        List.replicate (k + 1) (IOp.read 8) ++ f.ops := by
      rw [List.replicate_succ', List.append_assoc]
      rfl
    rw [Nat.add_mod, Nat.mod_mod, ← Nat.add_mod, Nat.add_assoc, e3, e4]

/-- At most `i` bits are set among `i` bits. -/
theorem setBitsBefore_le (bytes : List Nat) (off i : Nat) : setBitsBefore bytes off i ≤ i := by
  unfold setBitsBefore
  have h := List.countP_le_length (bitmapBit bytes off) (l := List.range i)
  simpa using h

/-- One more bit. -/
theorem setBitsBefore_succ (bytes : List Nat) (off i : Nat) :
    setBitsBefore bytes off (i + 1) =
      setBitsBefore bytes off i + (if bitmapBit bytes off i then 1 else 0) := by
  unfold setBitsBefore
  rw [List.range_succ, List.countP_append]
  simp [List.countP_cons]

/-- The bitmap scan for index `i`, started at the bitmap: the count is the number
of set bits among bits `0 .. i`, and the lowest bit of `n` is bit `i`. -/
theorem scanBitmap_spec (f : GribHandleData) (off i : Nat) (hp : f.pos = off)
    (hr : off + 8 * (i / 64 + 1) ≤ f.bytes.length) (hi : i + 1 < 2 ^ 64) :
    ∃ n, scanBitmap f i = some ((n, setBitsBefore f.bytes off (i + 1)),
        ⟨f.bytes, off + 8 * (i / 64 + 1), List.replicate (i / 64 + 1) (IOp.read 8) ++ f.ops⟩) ∧
      (n &&& 1 = 0 ↔ bitmapBit f.bytes off i = false) := by
  have hsk := skipWords_spec off (i / 64) f 0 0 (by omega) (by omega) (by norm_num)
  obtain ⟨f1, hf1⟩ : ∃ f1 : GribHandleData, f1 =
      ⟨f.bytes, f.pos + 8 * (i / 64), List.replicate (i / 64) (IOp.read 8) ++ f.ops⟩ := ⟨_, rfl⟩
  have hb1 : f1.bytes = f.bytes := by rw [hf1]
  have hp1 : f1.pos = off + 8 * (i / 64) := by rw [hf1, ← hp]
  have ho1 : f1.ops = List.replicate (i / 64) (IOp.read 8) ++ f.ops := by rw [hf1]
  rw [← hf1] at hsk
  have hr8 : f1.pos + 8 ≤ f1.bytes.length := by
    rw [hb1, hp1]
    omega
  have hlen := read_length f1 8 hr8
  have hsnd := read_snd f1 8 hr8
  have hlast := count_bits_last f1 off (i / 64) (i % 64) hp1 hr8 (Nat.mod_lt _ (by norm_num))
  have hbit := last_bit f1 off (i / 64) (i % 64) hp1 hr8 (Nat.mod_lt _ (by norm_num))
  rw [hb1] at hlast hbit
  have e64 : 64 * (i / 64) + i % 64 = i := Nat.div_add_mod i 64
  have esh : 8 * 8 - i % (8 * 8) - 1 = 63 - i % 64 := by omega
  have e88 : i / (8 * 8) = i / 64 := by norm_num
  have hsplit : setBitsBefore f.bytes off (i + 1) =
      (List.range (64 * (i / 64))).countP (fun t => bitmapBit f.bytes off (64 * 0 + t)) +
      (List.range (i % 64 + 1)).countP (fun t => bitmapBit f.bytes off (64 * (i / 64) + t)) := by
    unfold setBitsBefore
    have e : i + 1 = 64 * (i / 64) + (i % 64 + 1) := by omega
    rw [e, countP_range_add]
    simp
  have hle := setBitsBefore_le f.bytes off (i + 1)
  have hA : (List.range (64 * (i / 64))).countP (fun t => bitmapBit f.bytes off (64 * 0 + t)) <
      2 ^ 64 := by omega
  have hB : setBitsBefore f.bytes off (i + 1) < 2 ^ 64 := by omega
  have e3 : off + 8 * (i / 64) + 8 = off + 8 * (i / 64 + 1) := by ring
  have e4 : IOp.read 8 :: (List.replicate (i / 64) (IOp.read 8) ++ f.ops) =
      List.replicate (i / 64 + 1) (IOp.read 8) ++ f.ops := by
    rw [List.replicate_succ]
    rfl
  refine ⟨reverse_bytes (word_of_bytes (f1.read 8).1) >>> (63 - i % 64), ?_, ?_⟩
  · unfold scanBitmap
    rw [e88, hsk]
    dsimp only
    rw [if_pos hlen, esh, hsnd, hlast, Nat.zero_add, Nat.mod_eq_of_lt hA, ← hsplit,
      Nat.mod_eq_of_lt hB, hb1, hp1, ho1, e3, e4]
  · rw [hbit, e64]

/-- The result of a seek. -/
theorem seek_eq (f : GribHandleData) (off : Nat) :
    f.seek off = (off, ⟨f.bytes, off, IOp.seek off :: f.ops⟩) := rfl

/-- The slot resolution of `extractAtIndex` with a bitmap, with the resulting state
of the resource. -/
theorem resolveSlot_bitmap_eq (g : GribInfo) (f : GribHandleData) (i : Nat)
    (hb : g.offsetBeforeBitmap ≠ 0) (hi : i < g.numberOfDataPoints)
    (hn : g.numberOfDataPoints < 2 ^ 64)
    (hr : g.offsetBeforeBitmap + 8 * (i / 64 + 1) ≤ f.bytes.length) :
    resolveSlot g f i =
      some (if bitmapBit f.bytes g.offsetBeforeBitmap i
              then some (setBitsBefore f.bytes g.offsetBeforeBitmap i) else none,
        ⟨f.bytes, g.offsetBeforeBitmap + 8 * (i / 64 + 1),
          List.replicate (i / 64 + 1) (IOp.read 8) ++ IOp.seek g.offsetBeforeBitmap :: f.ops⟩) := by
  obtain ⟨n, hs, hbit⟩ := scanBitmap_spec
    ⟨f.bytes, g.offsetBeforeBitmap, IOp.seek g.offsetBeforeBitmap :: f.ops⟩
    g.offsetBeforeBitmap i rfl hr (by omega)
  unfold resolveSlot
  rw [if_pos hb, if_pos hi, seek_eq]
  dsimp only
  rw [if_pos rfl, hs]
  dsimp only
  have hsucc := setBitsBefore_succ f.bytes g.offsetBeforeBitmap i
  have hle := setBitsBefore_le f.bytes g.offsetBeforeBitmap i
  by_cases hbi : bitmapBit f.bytes g.offsetBeforeBitmap i = true
  · have hn0 : ¬ (n &&& 1 = 0) := by
      rw [hbit, hbi]
      simp
    rw [if_neg hn0, if_pos hbi, hsucc, if_pos hbi]
    have e : (setBitsBefore f.bytes g.offsetBeforeBitmap i + 1 + 2 ^ 64 - 1) % 2 ^ 64 =
        setBitsBefore f.bytes g.offsetBeforeBitmap i := by
      have : setBitsBefore f.bytes g.offsetBeforeBitmap i + 1 + 2 ^ 64 - 1 =
          setBitsBefore f.bytes g.offsetBeforeBitmap i + 2 ^ 64 := by omega
      rw [this, Nat.add_mod_right, Nat.mod_eq_of_lt (by omega)]
    rw [e]
  · have hbf : bitmapBit f.bytes g.offsetBeforeBitmap i = false := by
      simpa using hbi
    rw [if_pos (hbit.mpr hbf), if_neg hbi]

/-- The value read for `slot` when its bytes lie inside the resource, with the
resulting state of the resource. -/
theorem readValue_eq (g : GribInfo) (junk : Nat → Nat) (f : GribHandleData) (slot : Nat)
    (h : g.offsetBeforeData + (slot * g.bitsPerValue % 2 ^ 64) / 8 +
      (g.bitsPerValue + 7) % 2 ^ 64 / 8 ≤ f.bytes.length) :
    readValue g junk f slot = some (decodeSlot g junk f.bytes slot,
      ⟨f.bytes, g.offsetBeforeData + (slot * g.bitsPerValue % 2 ^ 64) / 8 +
          (g.bitsPerValue + 7) % 2 ^ 64 / 8,
        IOp.read ((g.bitsPerValue + 7) % 2 ^ 64 / 8) ::
          IOp.seek (g.offsetBeforeData + (slot * g.bitsPerValue % 2 ^ 64) / 8) :: f.ops⟩) := by
  obtain ⟨f1, hf1⟩ : ∃ f1 : GribHandleData, f1 =
      ⟨f.bytes, g.offsetBeforeData + (slot * g.bitsPerValue % 2 ^ 64) / 8,
        IOp.seek (g.offsetBeforeData + (slot * g.bitsPerValue % 2 ^ 64) / 8) :: f.ops⟩ :=
    ⟨_, rfl⟩
  have hb1 : f1.bytes = f.bytes := by rw [hf1]
  have hp1 : f1.pos = g.offsetBeforeData + (slot * g.bitsPerValue % 2 ^ 64) / 8 := by rw [hf1]
  have ho1 : f1.ops =
      IOp.seek (g.offsetBeforeData + (slot * g.bitsPerValue % 2 ^ 64) / 8) :: f.ops := by
    rw [hf1]
  have hr : f1.pos + (g.bitsPerValue + 7) % 2 ^ 64 / 8 ≤ f1.bytes.length := by
    rw [hb1, hp1]
    exact h
  have hlen := read_length f1 _ hr
  have hsnd := read_snd f1 _ hr
  have hbuf : (fun k => if k < (g.bitsPerValue + 7) % 2 ^ 64 / 8
        then (f1.read ((g.bitsPerValue + 7) % 2 ^ 64 / 8)).1.getD k 0 else junk k) =
      (fun k => if k < (g.bitsPerValue + 7) % 2 ^ 64 / 8
        then f.bytes.getD (g.offsetBeforeData + (slot * g.bitsPerValue % 2 ^ 64) / 8 + k) 0 % 256
        else junk k) := by
    funext k
    by_cases hk : k < (g.bitsPerValue + 7) % 2 ^ 64 / 8
    · rw [if_pos hk, if_pos hk, read_getD f1 _ k hk hr, hb1, hp1]
    · rw [if_neg hk, if_neg hk]
  unfold readValue decodeSlot
  dsimp only
  rw [seek_eq, ← hf1]
  dsimp only
  rw [if_pos rfl, if_pos hlen, hbuf, hsnd, hb1, hp1, ho1]

/-- Decoding `n + m` bits is decoding `n` bits and then `m` bits. -/
theorem decode_add (p : Nat → Nat) (b n m : Nat) :
    grib_decode_unsigned_long p b (n + m) =
      2 ^ m * grib_decode_unsigned_long p b n + grib_decode_unsigned_long p (b + n) m := by
  induction m with
  | zero => simp [grib_decode_unsigned_long]
  | succ m ih =>
    rw [← Nat.add_assoc]
    simp only [grib_decode_unsigned_long]
    rw [ih, Nat.add_assoc b n m]
    ring

set_option maxRecDepth 100000 in
/-- The eight bits of an octet, most significant first, give the octet back. -/
theorem byte_bits : ∀ x, x < 256 →
    2 * (2 * (2 * (2 * (2 * (2 * (2 * (2 * 0 + x / 2 ^ (7 - 0) % 2) + x / 2 ^ (7 - 1) % 2) +
      x / 2 ^ (7 - 2) % 2) + x / 2 ^ (7 - 3) % 2) + x / 2 ^ (7 - 4) % 2) +
      x / 2 ^ (7 - 5) % 2) + x / 2 ^ (7 - 6) % 2) + x / 2 ^ (7 - 7) % 2 = x := by
  decide

/-- Decoding the eight bits of byte `k` gives that byte. -/
theorem decode_byte (p : Nat → Nat) (k : Nat) :
    grib_decode_unsigned_long p (8 * k) 8 = p k % 256 := by
  have h0 : (8 * k + 0) / 8 = k := by omega
  have h1 : (8 * k + 1) / 8 = k := by omega
  have h2 : (8 * k + 2) / 8 = k := by omega
  have h3 : (8 * k + 3) / 8 = k := by omega
  have h4 : (8 * k + 4) / 8 = k := by omega
  have h5 : (8 * k + 5) / 8 = k := by omega
  have h6 : (8 * k + 6) / 8 = k := by omega
  have h7 : (8 * k + 7) / 8 = k := by omega
  have m0 : (8 * k + 0) % 8 = 0 := by omega
  have m1 : (8 * k + 1) % 8 = 1 := by omega
  have m2 : (8 * k + 2) % 8 = 2 := by omega
  have m3 : (8 * k + 3) % 8 = 3 := by omega
  have m4 : (8 * k + 4) % 8 = 4 := by omega
  have m5 : (8 * k + 5) % 8 = 5 := by omega
  have m6 : (8 * k + 6) % 8 = 6 := by omega
  have m7 : (8 * k + 7) % 8 = 7 := by omega
  simp only [grib_decode_unsigned_long, bufBit, h0, h1, h2, h3, h4, h5, h6, h7,
    m0, m1, m2, m3, m4, m5, m6, m7]
  exact byte_bits (p k % 256) (Nat.mod_lt _ (by norm_num))

/-- Decoding `8 * n` bits from bit 0 gives the big-endian integer of `n` bytes. -/
theorem decode_bytes (p : Nat → Nat) (bytes : List Nat) (off : Nat) (n : Nat)
    (h : ∀ j, j < n → p j % 256 = bytes.getD (off + j) 0 % 256) :
    grib_decode_unsigned_long p 0 (8 * n) = bigEndianBytes bytes off n := by
  induction n with
  | zero => simp [grib_decode_unsigned_long, bigEndianBytes]
  | succ n ih =>
    have e : 8 * (n + 1) = 8 * n + 8 := by ring
    rw [e, decode_add, Nat.zero_add, decode_byte, ih (fun j hj => h j (by omega)),
      h n (by omega)]
    simp only [bigEndianBytes]
    norm_num

/-- Without a bitmap, `extractAtIndex` is the value read of the slot `i` itself. -/
theorem extractAtIndex_nobitmap_eq (g : GribInfo) (junk : Nat → Nat) (f : GribHandleData)
    (i : Nat) (hb : g.offsetBeforeBitmap = 0) (hw : g.bitsPerValue ≠ 0)
    (hs : g.sphericalHarmonics = 0) (hi : i < g.numberOfValues) :
    extractAtIndex g junk f i = readValue g junk f i := by
  unfold extractAtIndex resolveSlot
  rw [if_neg hw, if_neg (by simp [hs]), if_neg (by simp [hb])]
  dsimp only
  rw [if_pos hi]

/-- For a byte-aligned width the decoded packed value is the big-endian integer of
the value's bytes. -/
theorem decodeSlot_aligned (g : GribInfo) (junk : Nat → Nat) (bytes : List Nat) (i k : Nat)
    (hk8 : k ≤ 8) (hw : g.bitsPerValue = 8 * k) (hov : i * g.bitsPerValue < 2 ^ 64) :
    decodeSlot g junk bytes i =
      reconstruct g (bigEndianBytes bytes (g.offsetBeforeData + i * k) k) := by
  have e1 : i * g.bitsPerValue % 2 ^ 64 = 8 * (i * k) := by
    rw [Nat.mod_eq_of_lt hov, hw]
    ring
  have e2 : (g.bitsPerValue + 7) % 2 ^ 64 / 8 = k := by
    rw [hw, Nat.mod_eq_of_lt (by omega)]
    omega
  have e3 : 8 * (i * k) / 8 = i * k := by omega
  have e4 : 8 * (i * k) % 8 = 0 := by omega
  unfold decodeSlot
  dsimp only
  rw [e1, e2, e3, e4]
  have hd := decode_bytes
    (fun j => if j < k then bytes.getD (g.offsetBeforeData + i * k + j) 0 % 256 else junk j)
    bytes (g.offsetBeforeData + i * k) k
    (by
      intro j hj
      simp only [if_pos hj, Nat.mod_mod])
  rw [hw, hd]

/-- The value read for `slot` leaves the bytes of the resource unchanged. -/
theorem readValue_eq' (g : GribInfo) (junk : Nat → Nat) (f : GribHandleData) (slot : Nat)
    (h : valueEnd g slot ≤ f.bytes.length) :
    ∃ f', readValue g junk f slot = some (decodeSlot g junk f.bytes slot, f') ∧
      f'.bytes = f.bytes :=
  ⟨_, readValue_eq g junk f slot h, rfl⟩

/-- The first loop of `extractAtIndexRange` in terms of the bitmap. -/
theorem indexLoop_spec (g : GribInfo) (k : Nat) : ∀ (f : GribHandleData) (i : Nat),
    i + k < 2 ^ 64 →
    (∀ j, j < k → g.offsetBeforeBitmap + 8 * ((i + j) / 64 + 1) ≤ f.bytes.length) →
    ∃ f', indexLoop g k f i =
        some ((List.range k).map (fun j => slotEntry f.bytes g.offsetBeforeBitmap (i + j)), f') ∧
      f'.bytes = f.bytes := by
  induction k with
  | zero =>
    intro f i _ _
    exact ⟨f, rfl, rfl⟩
  | succ k ih =>
    intro f i hi hr
    obtain ⟨n, hs, hbit⟩ := scanBitmap_spec
      ⟨f.bytes, g.offsetBeforeBitmap, IOp.seek g.offsetBeforeBitmap :: f.ops⟩
      g.offsetBeforeBitmap i rfl (by simpa using hr 0 (by omega)) (by omega)
    obtain ⟨f2, h2, hb2⟩ := ih
      ⟨f.bytes, g.offsetBeforeBitmap + 8 * (i / 64 + 1),
        List.replicate (i / 64 + 1) (IOp.read 8) ++ IOp.seek g.offsetBeforeBitmap :: f.ops⟩
      (i + 1) (by omega)
      (by
        intro j hj
        have := hr (j + 1) (by omega)
        rw [show i + 1 + j = i + (j + 1) by ring]
        exact this)
    refine ⟨f2, ?_, hb2⟩
    simp only [indexLoop]
    rw [seek_eq]
    dsimp only
    rw [if_pos rfl, hs]
    dsimp only
    rw [h2]
    dsimp only
    have hsucc := setBitsBefore_succ f.bytes g.offsetBeforeBitmap i
    have hle := setBitsBefore_le f.bytes g.offsetBeforeBitmap i
    have hentry : (if n &&& 1 ≠ 0
        then (setBitsBefore f.bytes g.offsetBeforeBitmap (i + 1) + 2 ^ 64 - 1) % 2 ^ 64
        else 2 ^ 64 - 1) = slotEntry f.bytes g.offsetBeforeBitmap i := by
      unfold slotEntry
      by_cases hbi : bitmapBit f.bytes g.offsetBeforeBitmap i = true
      · have hn0 : n &&& 1 ≠ 0 := by
          rw [Ne, hbit, hbi]
          simp
        rw [if_pos hn0, if_pos hbi, hsucc, if_pos hbi]
        have : setBitsBefore f.bytes g.offsetBeforeBitmap i + 1 + 2 ^ 64 - 1 =
            setBitsBefore f.bytes g.offsetBeforeBitmap i + 2 ^ 64 := by omega
        rw [this, Nat.add_mod_right, Nat.mod_eq_of_lt (by omega)]
      · have hbf : bitmapBit f.bytes g.offsetBeforeBitmap i = false := by
          simpa using hbi
        rw [if_neg (not_not.mpr (hbit.mpr hbf)), if_neg hbi]
    rw [hentry, List.range_succ_eq_map, List.map_cons, List.map_map]
    simp only [Nat.add_zero]
    congr 3
    apply List.map_congr_left
    intro j _
    simp only [Function.comp, Nat.succ_eq_add_one]
    congr 1
    ring

/-- The second loop of `extractAtIndexRange` when every value read stays inside the
resource. -/
theorem valueLoop_spec (g : GribInfo) (junk : Nat → Nat) (es : List Nat) :
    ∀ f : GribHandleData,
    (∀ e, e ∈ es → e ≠ 2 ^ 64 - 1 → valueEnd g e ≤ f.bytes.length) →
    ∃ f', valueLoop g junk es f =
        some (es.map (fun e => if e = 2 ^ 64 - 1 then MISSING else decodeSlot g junk f.bytes e),
          f') ∧
      f'.bytes = f.bytes := by
  induction es with
  | nil =>
    intro f _
    exact ⟨f, rfl, rfl⟩
  | cons e es ih =>
    intro f hr
    by_cases he : e = 2 ^ 64 - 1
    · obtain ⟨f2, h2, hb2⟩ := ih f (fun e' he' => hr e' (List.mem_cons_of_mem _ he'))
      refine ⟨f2, ?_, hb2⟩
      simp only [valueLoop]
      rw [if_pos he, h2]
      simp only [List.map_cons, if_pos he]
    · obtain ⟨f1, h1, hb1⟩ := readValue_eq' g junk f e (hr e (List.mem_cons_self _ _) he)
      obtain ⟨f2, h2, hb2⟩ := ih f1 (by
        intro e' he' hne
        rw [hb1]
        exact hr e' (List.mem_cons_of_mem _ he') hne)
      refine ⟨f2, ?_, hb2.trans hb1⟩
      simp only [valueLoop]
      rw [if_neg he, h1]
      dsimp only
      rw [h2, hb1]
      simp only [List.map_cons, if_neg he]

/-- An entry of `n_index` is turned into the value of its logical index. -/
theorem slotEntry_value (g : GribInfo) (junk : Nat → Nat) (bytes : List Nat) (t : Nat)
    (ht : t + 1 < 2 ^ 64) :
    (if slotEntry bytes g.offsetBeforeBitmap t = 2 ^ 64 - 1 then MISSING
      else decodeSlot g junk bytes (slotEntry bytes g.offsetBeforeBitmap t)) =
    pointValue g junk bytes t := by
  unfold slotEntry pointValue
  have hle := setBitsBefore_le bytes g.offsetBeforeBitmap t
  by_cases hbi : bitmapBit bytes g.offsetBeforeBitmap t = true
  · rw [if_pos hbi, if_pos hbi, if_neg (by omega)]
  · rw [if_neg hbi, if_neg hbi, if_pos rfl]

/-- With a bitmap, `extractAtIndexRange` returns the values of the logical indices
`s .. e-1` in this order. -/
theorem extractAtIndexRange_bitmap_eq (g : GribInfo) (junk : Nat → Nat) (f : GribHandleData)
    (s e : Nat) (hb : g.offsetBeforeBitmap ≠ 0) (hw : g.bitsPerValue ≠ 0)
    (hsp : g.sphericalHarmonics = 0) (hse : s < e) (he : e ≤ g.numberOfDataPoints)
    (hn : g.numberOfDataPoints < 2 ^ 64)
    (hbm : g.offsetBeforeBitmap + 8 * ((e - 1) / 64 + 1) ≤ f.bytes.length)
    (hval : ∀ i, s ≤ i → i < e → bitmapBit f.bytes g.offsetBeforeBitmap i = true →
      valueEnd g (setBitsBefore f.bytes g.offsetBeforeBitmap i) ≤ f.bytes.length) :
    ∃ f', extractAtIndexRange g junk f s e =
        some ((List.range (e - s)).map (fun j => pointValue g junk f.bytes (s + j)), f') ∧
      f'.bytes = f.bytes := by
  obtain ⟨f1, h1, hb1⟩ := indexLoop_spec g (e - s)
    ⟨f.bytes, g.offsetBeforeBitmap, IOp.seek g.offsetBeforeBitmap :: f.ops⟩ s (by omega)
    (by
      intro j hj
      have h64 : (s + j) / 64 ≤ (e - 1) / 64 := Nat.div_le_div_right (by omega)
      show g.offsetBeforeBitmap + 8 * ((s + j) / 64 + 1) ≤ f.bytes.length
      omega)
  obtain ⟨f2, h2, hb2⟩ := valueLoop_spec g junk
    ((List.range (e - s)).map (fun j => slotEntry f.bytes g.offsetBeforeBitmap (s + j))) f1
    (by
      intro x hx hne
      rw [List.mem_map] at hx
      obtain ⟨j, hj, rfl⟩ := hx
      rw [List.mem_range] at hj
      rw [hb1]
      show valueEnd g (slotEntry f.bytes g.offsetBeforeBitmap (s + j)) ≤ f.bytes.length
      unfold slotEntry at hne ⊢
      by_cases hbi : bitmapBit f.bytes g.offsetBeforeBitmap (s + j) = true
      · rw [if_pos hbi]
        exact hval (s + j) (by omega) (by omega) hbi
      · rw [if_neg hbi] at hne
        exact absurd rfl hne)
  refine ⟨f2, ?_, hb2.trans hb1⟩
  unfold extractAtIndexRange
  rw [if_neg hw, if_neg (by simpa using hse), if_neg (by simpa using he),
    if_neg (by simp [hsp]), if_pos hb, seek_eq]
  dsimp only
  rw [if_pos rfl]
  change (match indexLoop g (e - s)
      ⟨f.bytes, g.offsetBeforeBitmap, IOp.seek g.offsetBeforeBitmap :: f.ops⟩ s with
    | none => none
    | some (n_index, f1) => valueLoop g junk n_index f1) = _
  rw [h1]
  dsimp only
  rw [h2, List.map_map, hb1]
  congr 2
  apply List.map_congr_left
  intro j hj
  rw [List.mem_range] at hj
  exact slotEntry_value g junk f.bytes (s + j) (by omega)

/-- With a bitmap, `extractAtIndex` returns `MISSING` for an index whose bit is 0. -/
theorem extractAtIndex_missing (g : GribInfo) (junk : Nat → Nat) (f : GribHandleData) (i : Nat)
    (hb : g.offsetBeforeBitmap ≠ 0) (hw : g.bitsPerValue ≠ 0) (hsp : g.sphericalHarmonics = 0)
    (hi : i < g.numberOfDataPoints) (hn : g.numberOfDataPoints < 2 ^ 64)
    (hr : g.offsetBeforeBitmap + 8 * (i / 64 + 1) ≤ f.bytes.length)
    (hbit : bitmapBit f.bytes g.offsetBeforeBitmap i = false) :
    (extractAtIndex g junk f i).map Prod.fst = some MISSING := by
  unfold extractAtIndex
  rw [if_neg hw, if_neg (by simp [hsp]), resolveSlot_bitmap_eq g f i hb hi hn hr, hbit]
  rfl

/-- The example of the specification: bitmap `1011 0000`, data 10 20 30. -/
theorem extractAtIndexRange_example :
    (extractAtIndexRange exBitmapInfo (fun _ => 0) exBitmapResource 0 4).map Prod.fst =
      some [10, 9999, 20, 30] := by
  decide!

/-- No function of the extractor reads `msgStartOffset`: changing it changes no
result. -/
theorem extractAtIndex_ignores_msgStartOffset (g : GribInfo) (junk : Nat → Nat)
    (f : GribHandleData) (i k : Nat) :
    extractAtIndex { g with msgStartOffset := k } junk f i = extractAtIndex g junk f i := rfl

/-- The decoder depends only on the bits it is asked for. -/
theorem decode_congr (p q : Nat → Nat) (b c n : Nat)
    (h : ∀ j, j < n → bufBit p (b + j) = bufBit q (c + j)) :
    grib_decode_unsigned_long p b n = grib_decode_unsigned_long q c n := by
  induction n with
  | zero => rfl
  | succ n ih =>
    simp only [grib_decode_unsigned_long]
    rw [ih (fun j hj => h j (by omega)), h n (by omega)]

/-- When the bits of slot `i` end inside the bytes that are read, the decoded packed
value is the one of the reference layout. -/
theorem decodeSlot_fits (g : GribInfo) (junk : Nat → Nat) (bytes : List Nat) (i : Nat)
    (hov : i * g.bitsPerValue < 2 ^ 64) (hw : g.bitsPerValue + 7 < 2 ^ 64)
    (hfit : (i * g.bitsPerValue) % 8 + g.bitsPerValue ≤ 8 * ((g.bitsPerValue + 7) / 8)) :
    decodeSlot g junk bytes i =
      reconstruct g (packedValue bytes g.offsetBeforeData g.bitsPerValue i) := by
  unfold decodeSlot packedValue
  dsimp only
  rw [Nat.mod_eq_of_lt hov, Nat.mod_eq_of_lt hw]
  generalize i * g.bitsPerValue = x at hfit ⊢
  have hd := decode_congr
    (fun k => if k < (g.bitsPerValue + 7) / 8
      then bytes.getD (g.offsetBeforeData + x / 8 + k) 0 % 256 else junk k)
    (fun k => bytes.getD (g.offsetBeforeData + k) 0) (x % 8) x g.bitsPerValue
    (by
      intro j hj
      have h1 : (x % 8 + j) / 8 < (g.bitsPerValue + 7) / 8 := by omega
      have h2 : (x + j) / 8 = x / 8 + (x % 8 + j) / 8 := by omega
      have h3 : (x + j) % 8 = (x % 8 + j) % 8 := by omega
      unfold bufBit
      simp only [if_pos h1, Nat.mod_mod, h2, h3, Nat.add_assoc])
  rw [hd]

/-- Without a bitmap, `extractAtIndex` returns the reconstruction of the packed
value of slot `i` whenever the bits of the slot end inside the
`(bitsPerValue + 7) / 8` bytes that are read. -/
theorem extractAtIndex_fits (g : GribInfo) (junk : Nat → Nat) (f : GribHandleData) (i : Nat)
    (hb : g.offsetBeforeBitmap = 0) (hs : g.sphericalHarmonics = 0)
    (hw1 : 1 ≤ g.bitsPerValue) (hw64 : g.bitsPerValue ≤ 64) (hi : i < g.numberOfValues)
    (hov : i * g.bitsPerValue < 2 ^ 64)
    (hfit : (i * g.bitsPerValue) % 8 + g.bitsPerValue ≤ 8 * ((g.bitsPerValue + 7) / 8))
    (hread : valueEnd g i ≤ f.bytes.length) :
    (extractAtIndex g junk f i).map Prod.fst =
      some (reconstruct g (packedValue f.bytes g.offsetBeforeData g.bitsPerValue i)) := by
  rw [extractAtIndex_nobitmap_eq g junk f i hb (by omega) hs hi,
    readValue_eq g junk f i hread, ← decodeSlot_fits g junk f.bytes i hov (by omega) hfit]
  rfl

/-- The 12-bit example of the specification: index 3 gives 4. -/
theorem extractAtIndex_twelve_bit_example :
    (extractAtIndex exTwelveBitInfo (fun _ => 0) exTwelveBitResource 3).map Prod.fst = some 4 :=
  (extractAtIndex_fits exTwelveBitInfo (fun _ => 0) exTwelveBitResource 3
    (by decide) (by decide) (by decide) (by decide) (by decide) (by decide) (by decide)
    (by decide)).trans (by decide!)

/-- With a bitmap, `valueOf` is `pointValue`. -/
theorem valueOf_bitmap (g : GribInfo) (junk : Nat → Nat) (bytes : List Nat) (t : Nat)
    (hb : g.offsetBeforeBitmap ≠ 0) : valueOf g junk bytes t = pointValue g junk bytes t := by
  unfold valueOf slotOf pointValue
  rw [if_pos hb]
  by_cases hbi : bitmapBit bytes g.offsetBeforeBitmap t = true
  · rw [if_pos hbi, if_pos hbi]
  · rw [if_neg hbi, if_neg hbi]

/-- Without a bitmap, `valueOf` is the decoded value of the slot `t`. -/
theorem valueOf_nobitmap (g : GribInfo) (junk : Nat → Nat) (bytes : List Nat) (t : Nat)
    (hb : g.offsetBeforeBitmap = 0) : valueOf g junk bytes t = decodeSlot g junk bytes t := by
  unfold valueOf slotOf
  rw [if_neg (by simp [hb])]

/-- The result of `extractAtIndex` when the slot is below `numberOfValues` and every
byte read lies inside the resource. -/
theorem extractAtIndex_eq_valueOf (g : GribInfo) (junk : Nat → Nat) (f : GribHandleData)
    (t : Nat) (hw : g.bitsPerValue ≠ 0) (hsp : g.sphericalHarmonics = 0)
    (hn : g.numberOfDataPoints < 2 ^ 64)
    (hbm : g.offsetBeforeBitmap ≠ 0 → t < g.numberOfDataPoints ∧
      g.offsetBeforeBitmap + 8 * (t / 64 + 1) ≤ f.bytes.length)
    (hslot : ∀ slot, slotOf g f.bytes t = some slot →
      slot < g.numberOfValues ∧ valueEnd g slot ≤ f.bytes.length) :
    ∃ f', extractAtIndex g junk f t = some (valueOf g junk f.bytes t, f') ∧
      f'.bytes = f.bytes := by
  unfold extractAtIndex
  rw [if_neg hw, if_neg (by simp [hsp])]
  by_cases hb : g.offsetBeforeBitmap ≠ 0
  · obtain ⟨ht, hr⟩ := hbm hb
    rw [resolveSlot_bitmap_eq g f t hb ht hn hr]
    by_cases hbi : bitmapBit f.bytes g.offsetBeforeBitmap t = true
    · have hso : slotOf g f.bytes t = some (setBitsBefore f.bytes g.offsetBeforeBitmap t) := by
        unfold slotOf
        rw [if_pos hb, if_pos hbi]
      obtain ⟨h1, h2⟩ := hslot _ hso
      rw [if_pos hbi]
      dsimp only
      rw [if_pos h1]
      obtain ⟨f', hf', hb'⟩ := readValue_eq' g junk
        ⟨f.bytes, g.offsetBeforeBitmap + 8 * (t / 64 + 1),
          List.replicate (t / 64 + 1) (IOp.read 8) ++ IOp.seek g.offsetBeforeBitmap :: f.ops⟩
        (setBitsBefore f.bytes g.offsetBeforeBitmap t) h2
      refine ⟨f', ?_, hb'⟩
      rw [hf']
      unfold valueOf
      rw [hso]
    · have hso : slotOf g f.bytes t = none := by
        unfold slotOf
        rw [if_pos hb, if_neg hbi]
      rw [if_neg hbi]
      refine ⟨⟨f.bytes, g.offsetBeforeBitmap + 8 * (t / 64 + 1),
        List.replicate (t / 64 + 1) (IOp.read 8) ++ IOp.seek g.offsetBeforeBitmap :: f.ops⟩,
        ?_, rfl⟩
      unfold valueOf
      rw [hso]
  · have hso : slotOf g f.bytes t = some t := by
      unfold slotOf
      rw [if_neg hb]
    obtain ⟨h1, h2⟩ := hslot _ hso
    obtain ⟨f', hf', hb'⟩ := readValue_eq' g junk f t h2
    refine ⟨f', ?_, hb'⟩
    unfold resolveSlot
    rw [if_neg hb]
    dsimp only
    rw [if_pos h1, hf']
    unfold valueOf
    rw [hso]

/-- The loop of `extractAtIndexRangeNaive` under the conditions of
`extractAtIndex_eq_valueOf` for each index. -/
theorem naiveLoop_spec (g : GribInfo) (junk : Nat → Nat) (hw : g.bitsPerValue ≠ 0)
    (hsp : g.sphericalHarmonics = 0) (hn : g.numberOfDataPoints < 2 ^ 64) (k : Nat) :
    ∀ (f : GribHandleData) (i : Nat),
    (∀ j, j < k → (g.offsetBeforeBitmap ≠ 0 → i + j < g.numberOfDataPoints ∧
        g.offsetBeforeBitmap + 8 * ((i + j) / 64 + 1) ≤ f.bytes.length) ∧
      ∀ slot, slotOf g f.bytes (i + j) = some slot →
        slot < g.numberOfValues ∧ valueEnd g slot ≤ f.bytes.length) →
    ∃ f', naiveLoop g junk k f i =
        some ((List.range k).map (fun j => valueOf g junk f.bytes (i + j)), f') ∧
      f'.bytes = f.bytes := by
  induction k with
  | zero =>
    intro f i _
    exact ⟨f, rfl, rfl⟩
  | succ k ih =>
    intro f i h
    obtain ⟨f1, h1, hb1⟩ := extractAtIndex_eq_valueOf g junk f i hw hsp hn
      (by simpa using (h 0 (by omega)).1) (by simpa using (h 0 (by omega)).2)
    obtain ⟨f2, h2, hb2⟩ := ih f1 (i + 1) (by
      intro j hj
      have := h (j + 1) (by omega)
      rw [hb1, show i + 1 + j = i + (j + 1) by ring]
      exact this)
    refine ⟨f2, ?_, hb2.trans hb1⟩
    simp only [naiveLoop]
    rw [h1]
    dsimp only
    rw [h2, hb1, List.range_succ_eq_map, List.map_cons, List.map_map]
    simp only [Nat.add_zero]
    congr 3
    apply List.map_congr_left
    intro j _
    simp only [Function.comp, Nat.succ_eq_add_one]
    congr 1
    ring

/-- Without a bitmap, `extractAtIndexRange` returns the decoded values of the slots
`s .. e-1`. -/
theorem extractAtIndexRange_nobitmap_eq (g : GribInfo) (junk : Nat → Nat) (f : GribHandleData)
    (s e : Nat) (hb : g.offsetBeforeBitmap = 0) (hw : g.bitsPerValue ≠ 0)
    (hsp : g.sphericalHarmonics = 0) (hse : s < e) (he : e ≤ g.numberOfDataPoints)
    (hn : g.numberOfDataPoints < 2 ^ 64)
    (hval : ∀ i, s ≤ i → i < e → valueEnd g i ≤ f.bytes.length) :
    ∃ f', extractAtIndexRange g junk f s e =
        some ((List.range (e - s)).map (fun j => decodeSlot g junk f.bytes (s + j)), f') ∧
      f'.bytes = f.bytes := by
  obtain ⟨f2, h2, hb2⟩ := valueLoop_spec g junk
    ((List.range (e - s)).map (fun j => s + j)) f
    (by
      intro x hx _
      rw [List.mem_map] at hx
      obtain ⟨j, hj, rfl⟩ := hx
      rw [List.mem_range] at hj
      exact hval (s + j) (by omega) (by omega))
  refine ⟨f2, ?_, hb2⟩
  unfold extractAtIndexRange
  rw [if_neg hw, if_neg (by simpa using hse), if_neg (by simpa using he),
    if_neg (by simp [hsp]), if_neg (by simp [hb])]
  dsimp only
  rw [h2, List.map_map]
  congr 2
  apply List.map_congr_left
  intro j hj
  rw [List.mem_range] at hj
  simp only [Function.comp]
  rw [if_neg (by omega)]

/-- On a valid range whose points all resolve to slots below `numberOfValues`,
with every byte that is read inside the resource, `extractAtIndexRange` and
`extractAtIndexRangeNaive` return the same values: the value of each logical
index in ascending order. -/
theorem range_eq_naive_of_slots_in_bound (g : GribInfo) (junk : Nat → Nat)
    (f : GribHandleData) (s e : Nat) (hw : g.bitsPerValue ≠ 0)
    (hsp : g.sphericalHarmonics = 0) (hse : s < e) (he : e ≤ g.numberOfDataPoints)
    (hn : g.numberOfDataPoints < 2 ^ 64)
    (hbm : g.offsetBeforeBitmap ≠ 0 →
      g.offsetBeforeBitmap + 8 * ((e - 1) / 64 + 1) ≤ f.bytes.length)
    (hslot : ∀ i, s ≤ i → i < e → ∀ slot, slotOf g f.bytes i = some slot →
      slot < g.numberOfValues ∧ valueEnd g slot ≤ f.bytes.length) :
    (extractAtIndexRange g junk f s e).map Prod.fst =
        some ((List.range (e - s)).map (fun j => valueOf g junk f.bytes (s + j))) ∧
    (extractAtIndexRangeNaive g junk f s e).map Prod.fst =
        some ((List.range (e - s)).map (fun j => valueOf g junk f.bytes (s + j))) := by
  constructor
  · by_cases hb : g.offsetBeforeBitmap ≠ 0
    · obtain ⟨f', h, _⟩ := extractAtIndexRange_bitmap_eq g junk f s e hb hw hsp hse he hn
        (hbm hb) (by
          intro i hsi hie hbi
          refine (hslot i hsi hie _ ?_).2
          unfold slotOf
          rw [if_pos hb, if_pos hbi])
      rw [h]
      simp only [Option.map_some']
      congr 1
      apply List.map_congr_left
      intro j _
      exact (valueOf_bitmap g junk f.bytes (s + j) hb).symm
    · have hb0 : g.offsetBeforeBitmap = 0 := by
        simpa using hb
      obtain ⟨f', h, _⟩ := extractAtIndexRange_nobitmap_eq g junk f s e hb0 hw hsp hse he hn
        (by
          intro i hsi hie
          refine (hslot i hsi hie i ?_).2
          unfold slotOf
          rw [if_neg hb])
      rw [h]
      simp only [Option.map_some']
      congr 1
      apply List.map_congr_left
      intro j _
      exact (valueOf_nobitmap g junk f.bytes (s + j) hb0).symm
  · obtain ⟨f', h, _⟩ := naiveLoop_spec g junk hw hsp hn (e - s) f s (by
      intro j hj
      refine ⟨?_, hslot (s + j) (by omega) (by omega)⟩
      intro hb
      have h64 : (s + j) / 64 ≤ (e - 1) / 64 := Nat.div_le_div_right (by omega)
      have := hbm hb
      exact ⟨by omega, by omega⟩)
    unfold extractAtIndexRangeNaive
    rw [h]
    rfl

/-- The check of line 298: `extractAtIndex` fails whenever the index resolves to
a slot that is not below `numberOfValues`. -/
theorem extractAtIndex_fails_beyond_numberOfValues (g : GribInfo) (junk : Nat → Nat)
    (f f1 : GribHandleData) (i slot : Nat)
    (h : resolveSlot g f i = some (some slot, f1)) (hs : g.numberOfValues ≤ slot) :
    g.bitsPerValue ≠ 0 → extractAtIndex g junk f i = none := by
  intro hw
  unfold extractAtIndex
  rw [if_neg hw]
  by_cases hsp : g.sphericalHarmonics ≠ 0
  · rw [if_pos hsp]
  · rw [if_neg hsp, h]
    dsimp only
    rw [if_neg (by omega)]

/-- The set bits before `a + b` are those before `a` and those among
`a .. a+b-1`. -/
theorem setBitsBefore_add (bytes : List Nat) (off a b : Nat) :
    setBitsBefore bytes off (a + b) =
      setBitsBefore bytes off a +
        (List.range b).countP (fun j => bitmapBit bytes off (a + j)) := by
  unfold setBitsBefore
  rw [countP_range_add]

/-- A read that delivers all `n` bytes stays inside the resource, unless `n = 0`. -/
theorem read_fits_of_length (f : GribHandleData) (n : Nat) (h : (f.read n).1.length = n) :
    n = 0 ∨ f.pos + n ≤ f.bytes.length := by
  simp [GribHandleData.read] at h
  omega

/-- Byte `k` of a read, for every byte that was delivered. -/
theorem read_getD_of_lt (f : GribHandleData) (n k : Nat) (hk : k < (f.read n).1.length) :
    (f.read n).1.getD k 0 = f.bytes.getD (f.pos + k) 0 % 256 := by
  have hk' : k < n ∧ k < f.bytes.length - f.pos := by
    simp [GribHandleData.read] at hk
    omega
  have h2 : f.pos + k < f.bytes.length := by omega
  simp [GribHandleData.read, List.getD_eq_getElem?_getD, List.getElem?_map, List.getElem?_take,
    hk'.1, List.getElem?_drop, List.getElem?_eq_getElem h2]

/-- The skip loop, when it succeeds: the resource it leaves and the bytes it
has consumed. -/
theorem skipWords_some (k : Nat) : ∀ (f f' : GribHandleData) (c c' : Nat),
    skipWords k f c = some (c', f') →
    f' = ⟨f.bytes, f.pos + 8 * k, List.replicate k (IOp.read 8) ++ f.ops⟩ ∧
      (k = 0 ∨ f.pos + 8 * k ≤ f.bytes.length) := by
  induction k with
  | zero =>
    intro f f' c c' h
    simp only [skipWords, Option.some.injEq, Prod.mk.injEq] at h
    refine ⟨?_, Or.inl rfl⟩
    rw [← h.2]
    rfl
  | succ k ih =>
    intro f f' c c' h
    simp only [skipWords] at h
    by_cases hl : (f.read 8).1.length = 8
    · rw [if_pos hl] at h
      obtain ⟨h1, h2⟩ := ih _ _ _ _ h
      have hfit := read_fits_of_length f 8 hl
      have hpos : (f.read 8).2.pos = f.pos + 8 := by
        show f.pos + (f.read 8).1.length = f.pos + 8
        rw [hl]
      have hby : (f.read 8).2.bytes = f.bytes := rfl
      have hops : (f.read 8).2.ops = IOp.read 8 :: f.ops := rfl
      rw [hpos, hby, hops] at h1
      rw [hpos, hby] at h2
      refine ⟨?_, Or.inr (by omega)⟩
      rw [h1, List.replicate_succ', List.append_assoc]
      congr 1
      ring
    · rw [if_neg hl] at h
      exact absurd h (by simp)

/-- A bitmap scan that succeeds has read its `index / 64 + 1` words inside the
resource. -/
theorem scanBitmap_some (f f' : GribHandleData) (i : Nat) (r : Nat × Nat)
    (h : scanBitmap f i = some (r, f')) :
    f.pos + 8 * (i / 64 + 1) ≤ f.bytes.length := by
  unfold scanBitmap at h
  have e88 : i / (8 * 8) = i / 64 := by norm_num
  rw [e88] at h
  cases hs : skipWords (i / 64) f 0 with
  | none =>
    rw [hs] at h
    exact absurd h (by simp)
  | some p =>
    obtain ⟨c1, f1⟩ := p
    rw [hs] at h
    dsimp only at h
    obtain ⟨hf1, hk⟩ := skipWords_some _ _ _ _ _ hs
    by_cases hl : (f1.read 8).1.length = 8
    · have hfit := read_fits_of_length f1 8 hl
      rw [hf1] at hfit
      simp only at hfit
      omega
    · rw [if_neg hl] at h
      exact absurd h (by simp)

/-- A value read that succeeds returns the decoded value of the slot and leaves
the resource after the bytes it has read. -/
theorem readValue_some (g : GribInfo) (junk : Nat → Nat) (f f' : GribHandleData) (slot : Nat)
    (v : ℚ) (h : readValue g junk f slot = some (v, f')) :
    v = decodeSlot g junk f.bytes slot ∧
    f' = ⟨f.bytes, g.offsetBeforeData + (slot * g.bitsPerValue % 2 ^ 64) / 8 + valueReadLen g,
      IOp.read (valueReadLen g) ::
        IOp.seek (g.offsetBeforeData + (slot * g.bitsPerValue % 2 ^ 64) / 8) :: f.ops⟩ := by
  obtain ⟨f1, hf1⟩ : ∃ f1 : GribHandleData, f1 =
      ⟨f.bytes, g.offsetBeforeData + (slot * g.bitsPerValue % 2 ^ 64) / 8,
        IOp.seek (g.offsetBeforeData + (slot * g.bitsPerValue % 2 ^ 64) / 8) :: f.ops⟩ :=
    ⟨_, rfl⟩
  have hb1 : f1.bytes = f.bytes := by rw [hf1]
  have hp1 : f1.pos = g.offsetBeforeData + (slot * g.bitsPerValue % 2 ^ 64) / 8 := by rw [hf1]
  have ho1 : f1.ops =
      IOp.seek (g.offsetBeforeData + (slot * g.bitsPerValue % 2 ^ 64) / 8) :: f.ops := by
    rw [hf1]
  unfold readValue at h
  dsimp only at h
  rw [seek_eq, ← hf1] at h
  dsimp only at h
  rw [if_pos rfl] at h
  by_cases hl : (f1.read ((g.bitsPerValue + 7) % 2 ^ 64 / 8)).1.length =
      (g.bitsPerValue + 7) % 2 ^ 64 / 8
  · rw [if_pos hl] at h
    simp only [Option.some.injEq, Prod.mk.injEq] at h
    obtain ⟨hv, hf'⟩ := h
    have hbuf : (fun k => if k < (g.bitsPerValue + 7) % 2 ^ 64 / 8
          then (f1.read ((g.bitsPerValue + 7) % 2 ^ 64 / 8)).1.getD k 0 else junk k) =
        (fun k => if k < (g.bitsPerValue + 7) % 2 ^ 64 / 8
          then f.bytes.getD (g.offsetBeforeData + (slot * g.bitsPerValue % 2 ^ 64) / 8 + k) 0 % 256
          else junk k) := by
      funext k
      by_cases hk : k < (g.bitsPerValue + 7) % 2 ^ 64 / 8
      · rw [if_pos hk, if_pos hk, read_getD_of_lt f1 _ k (by rw [hl]; exact hk), hb1, hp1]
      · rw [if_neg hk, if_neg hk]
    constructor
    · rw [← hv, hbuf]
      rfl
    · rw [← hf']
      show (⟨f1.bytes, f1.pos + (f1.read ((g.bitsPerValue + 7) % 2 ^ 64 / 8)).1.length,
        IOp.read ((g.bitsPerValue + 7) % 2 ^ 64 / 8) :: f1.ops⟩ : GribHandleData) = _
      rw [hl, hb1, hp1, ho1]
      rfl
  · rw [if_neg hl] at h
    exact absurd h (by simp)

/-- Nothing new is recorded on an unchanged resource. -/
theorem OpsGrow.refl (P : IOp → Bool) (f : GribHandleData) : OpsGrow P f f :=
  ⟨[], rfl, fun _ h => absurd h (List.not_mem_nil _)⟩

/-- Recorded operations accumulate. -/
theorem OpsGrow.trans {P : IOp → Bool} {f1 f2 f3 : GribHandleData}
    (h12 : OpsGrow P f1 f2) (h23 : OpsGrow P f2 f3) : OpsGrow P f1 f3 := by
  obtain ⟨n1, e1, p1⟩ := h12
  obtain ⟨n2, e2, p2⟩ := h23
  refine ⟨n2 ++ n1, by rw [e2, e1, List.append_assoc], ?_⟩
  intro op hop
  rcases List.mem_append.mp hop with h | h
  · exact p2 op h
  · exact p1 op h

/-- Operations put in front of the record of `f`. -/
theorem OpsGrow.of_ops {P : IOp → Bool} {f f' : GribHandleData} (new : List IOp)
    (h : f'.ops = new ++ f.ops) (hP : ∀ op, op ∈ new → P op = true) : OpsGrow P f f' :=
  ⟨new, h, hP⟩

/-- The operations recorded since `f` are the ones `OpsGrow` speaks of. -/
theorem opsGrow_newOps {P : IOp → Bool} {f f' : GribHandleData} (h : OpsGrow P f f') :
    f'.ops = newOps f f' ++ f.ops ∧ ∀ op, op ∈ newOps f f' → P op = true := by
  obtain ⟨new, e, p⟩ := h
  have hn : newOps f f' = new := by
    unfold newOps
    rw [e, List.length_append, Nat.add_sub_cancel, List.take_left']
    rfl
  rw [hn]
  exact ⟨e, p⟩

/-- A bitmap scan records reads of 8 bytes only. -/
theorem scanBitmap_opsGrow (g : GribInfo) (f f' : GribHandleData) (i : Nat) (r : Nat × Nat)
    (h : scanBitmap f i = some (r, f')) :
    f'.ops = List.replicate (i / 64 + 1) (IOp.read 8) ++ f.ops ∧ OpsGrow (readLenOk g) f f' := by
  have hfit := scanBitmap_some f f' i r h
  have hops : f'.ops = List.replicate (i / 64 + 1) (IOp.read 8) ++ f.ops := by
    unfold scanBitmap at h
    have e88 : i / (8 * 8) = i / 64 := by norm_num
    rw [e88] at h
    cases hs : skipWords (i / 64) f 0 with
    | none =>
      rw [hs] at h
      exact absurd h (by simp)
    | some p =>
      obtain ⟨c1, f1⟩ := p
      rw [hs] at h
      dsimp only at h
      obtain ⟨hf1, _⟩ := skipWords_some _ _ _ _ _ hs
      by_cases hl : (f1.read 8).1.length = 8
      · rw [if_pos hl] at h
        simp only [Option.some.injEq, Prod.mk.injEq] at h
        rw [← h.2]
        show IOp.read 8 :: f1.ops = _
        rw [hf1, List.replicate_succ]
        rfl
      · rw [if_neg hl] at h
        exact absurd h (by simp)
  refine ⟨hops, OpsGrow.of_ops _ hops ?_⟩
  intro op hop
  rw [List.eq_of_mem_replicate hop]
  rfl

/-- A value read records one seek and one read of `valueReadLen` bytes. -/
theorem readValue_opsGrow (g : GribInfo) (junk : Nat → Nat) (f f' : GribHandleData)
    (slot : Nat) (v : ℚ) (h : readValue g junk f slot = some (v, f')) :
    OpsGrow (readLenOk g) f f' := by
  obtain ⟨_, hf'⟩ := readValue_some g junk f f' slot v h
  refine OpsGrow.of_ops [IOp.read (valueReadLen g),
    IOp.seek (g.offsetBeforeData + (slot * g.bitsPerValue % 2 ^ 64) / 8)] (by rw [hf']; rfl) ?_
  intro op hop
  simp only [List.mem_cons, List.mem_singleton, List.not_mem_nil, or_false] at hop
  rcases hop with h1 | h1
  · rw [h1]
    simp [readLenOk]
  · rw [h1]
    rfl

/-- A seek is an allowed operation. -/
theorem seek_opsGrow (g : GribInfo) (f : GribHandleData) (off : Nat) :
    OpsGrow (readLenOk g) f (f.seek off).2 :=
  OpsGrow.of_ops [IOp.seek off] rfl (by
    intro op hop
    rw [List.mem_singleton] at hop
    rw [hop]
    rfl)

/-- The slot resolution records seeks and reads of 8 bytes only. -/
theorem resolveSlot_opsGrow (g : GribInfo) (f f' : GribHandleData) (i : Nat) (o : Option Nat)
    (h : resolveSlot g f i = some (o, f')) : OpsGrow (readLenOk g) f f' := by
  unfold resolveSlot at h
  by_cases hb : g.offsetBeforeBitmap ≠ 0
  · rw [if_pos hb] at h
    by_cases hi : i < g.numberOfDataPoints
    · rw [if_pos hi] at h
      dsimp only at h
      rw [if_pos (show (f.seek g.offsetBeforeBitmap).1 = g.offsetBeforeBitmap from rfl)] at h
      cases hs : scanBitmap (f.seek g.offsetBeforeBitmap).2 i with
      | none =>
        rw [hs] at h
        exact absurd h (by simp)
      | some p =>
        obtain ⟨⟨n, c⟩, f1⟩ := p
        rw [hs] at h
        dsimp only at h
        have hg := (seek_opsGrow g f g.offsetBeforeBitmap).trans
          (scanBitmap_opsGrow g _ _ _ _ hs).2
        by_cases hn : n &&& 1 = 0
        · rw [if_pos hn] at h
          simp only [Option.some.injEq, Prod.mk.injEq] at h
          rw [← h.2]
          exact hg
        · rw [if_neg hn] at h
          simp only [Option.some.injEq, Prod.mk.injEq] at h
          rw [← h.2]
          exact hg
    · rw [if_neg hi] at h
      exact absurd h (by simp)
  · rw [if_neg hb] at h
    simp only [Option.some.injEq, Prod.mk.injEq] at h
    rw [← h.2]
    exact OpsGrow.refl _ _

/-- The operations of `extractAtIndex`: seeks, reads of 8 bytes and reads of
`valueReadLen` bytes. -/
theorem extractAtIndex_opsGrow (g : GribInfo) (junk : Nat → Nat) (f f' : GribHandleData)
    (i : Nat) (v : ℚ) (h : extractAtIndex g junk f i = some (v, f')) :
    OpsGrow (readLenOk g) f f' := by
  unfold extractAtIndex at h
  by_cases hw : g.bitsPerValue = 0
  · rw [if_pos hw] at h
    simp only [Option.some.injEq, Prod.mk.injEq] at h
    rw [← h.2]
    exact OpsGrow.refl _ _
  · rw [if_neg hw] at h
    by_cases hsp : g.sphericalHarmonics ≠ 0
    · rw [if_pos hsp] at h
      exact absurd h (by simp)
    · rw [if_neg hsp] at h
      cases hr : resolveSlot g f i with
      | none =>
        rw [hr] at h
        exact absurd h (by simp)
      | some p =>
        obtain ⟨o, f1⟩ := p
        have hg := resolveSlot_opsGrow g f f1 i o hr
        rw [hr] at h
        cases o with
        | none =>
          simp only [Option.some.injEq, Prod.mk.injEq] at h
          rw [← h.2]
          exact hg
        | some slot =>
          dsimp only at h
          by_cases hs : slot < g.numberOfValues
          · rw [if_pos hs] at h
            exact hg.trans (readValue_opsGrow g junk f1 f' slot v h)
          · rw [if_neg hs] at h
            exact absurd h (by simp)

/-- The operations of the first loop of `extractAtIndexRange`. -/
theorem indexLoop_opsGrow (g : GribInfo) (k : Nat) :
    ∀ (f f' : GribHandleData) (i : Nat) (es : List Nat),
    indexLoop g k f i = some (es, f') → OpsGrow (readLenOk g) f f' := by
  induction k with
  | zero =>
    intro f f' i es h
    simp only [indexLoop, Option.some.injEq, Prod.mk.injEq] at h
    rw [← h.2]
    exact OpsGrow.refl _ _
  | succ k ih =>
    intro f f' i es h
    simp only [indexLoop] at h
    rw [if_pos (show (f.seek g.offsetBeforeBitmap).1 = g.offsetBeforeBitmap from rfl)] at h
    cases hs : scanBitmap (f.seek g.offsetBeforeBitmap).2 i with
    | none =>
      rw [hs] at h
      exact absurd h (by simp)
    | some p =>
      obtain ⟨⟨n, c⟩, f1⟩ := p
      rw [hs] at h
      dsimp only at h
      have hg := (seek_opsGrow g f g.offsetBeforeBitmap).trans
        (scanBitmap_opsGrow g _ _ _ _ hs).2
      cases hl : indexLoop g k f1 (i + 1) with
      | none =>
        rw [hl] at h
        exact absurd h (by simp)
      | some q =>
        obtain ⟨es', f2⟩ := q
        rw [hl] at h
        simp only [Option.some.injEq, Prod.mk.injEq] at h
        rw [← h.2]
        exact hg.trans (ih f1 f2 (i + 1) es' hl)

/-- The operations of the second loop of `extractAtIndexRange`. -/
theorem valueLoop_opsGrow (g : GribInfo) (junk : Nat → Nat) (es : List Nat) :
    ∀ (f f' : GribHandleData) (vs : List ℚ),
    valueLoop g junk es f = some (vs, f') → OpsGrow (readLenOk g) f f' := by
  induction es with
  | nil =>
    intro f f' vs h
    simp only [valueLoop, Option.some.injEq, Prod.mk.injEq] at h
    rw [← h.2]
    exact OpsGrow.refl _ _
  | cons e es ih =>
    intro f f' vs h
    simp only [valueLoop] at h
    by_cases he : e = 2 ^ 64 - 1
    · rw [if_pos he] at h
      cases hl : valueLoop g junk es f with
      | none =>
        rw [hl] at h
        exact absurd h (by simp)
      | some q =>
        obtain ⟨vs', f2⟩ := q
        rw [hl] at h
        simp only [Option.some.injEq, Prod.mk.injEq] at h
        rw [← h.2]
        exact ih f f2 vs' hl
    · rw [if_neg he] at h
      cases hr : readValue g junk f e with
      | none =>
        rw [hr] at h
        exact absurd h (by simp)
      | some p =>
        obtain ⟨v, f1⟩ := p
        rw [hr] at h
        dsimp only at h
        cases hl : valueLoop g junk es f1 with
        | none =>
          rw [hl] at h
          exact absurd h (by simp)
        | some q =>
          obtain ⟨vs', f2⟩ := q
          rw [hl] at h
          simp only [Option.some.injEq, Prod.mk.injEq] at h
          rw [← h.2]
          exact (readValue_opsGrow g junk f f1 e v hr).trans (ih f1 f2 vs' hl)

/-- The operations of `extractAtIndexRange`: seeks, reads of 8 bytes and reads
of `valueReadLen` bytes. -/
theorem extractAtIndexRange_opsGrow (g : GribInfo) (junk : Nat → Nat) (f f' : GribHandleData)
    (s e : Nat) (vs : List ℚ) (h : extractAtIndexRange g junk f s e = some (vs, f')) :
    OpsGrow (readLenOk g) f f' := by
  unfold extractAtIndexRange at h
  by_cases hw : g.bitsPerValue = 0
  · rw [if_pos hw] at h
    simp only [Option.some.injEq, Prod.mk.injEq] at h
    rw [← h.2]
    exact OpsGrow.refl _ _
  · rw [if_neg hw] at h
    by_cases hse : ¬ s < e
    · rw [if_pos hse] at h
      exact absurd h (by simp)
    · rw [if_neg hse] at h
      by_cases he : ¬ e ≤ g.numberOfDataPoints
      · rw [if_pos he] at h
        exact absurd h (by simp)
      · rw [if_neg he] at h
        by_cases hsp : g.sphericalHarmonics ≠ 0
        · rw [if_pos hsp] at h
          exact absurd h (by simp)
        · rw [if_neg hsp] at h
          dsimp only at h
          by_cases hb : g.offsetBeforeBitmap ≠ 0
          · rw [if_pos hb,
              if_pos (show (f.seek g.offsetBeforeBitmap).1 = g.offsetBeforeBitmap from rfl)] at h
            cases hl : indexLoop g (e - s) (f.seek g.offsetBeforeBitmap).2 s with
            | none =>
              rw [hl] at h
              exact absurd h (by simp)
            | some q =>
              obtain ⟨es, f1⟩ := q
              rw [hl] at h
              dsimp only at h
              exact ((seek_opsGrow g f g.offsetBeforeBitmap).trans
                (indexLoop_opsGrow g _ _ _ _ _ hl)).trans (valueLoop_opsGrow g junk es f1 f' vs h)
          · rw [if_neg hb] at h
            dsimp only at h
            exact valueLoop_opsGrow g junk _ f f' vs h

/-- The operations recorded since `f`, when they are known. -/
theorem newOps_eq (f f' : GribHandleData) (new : List IOp) (h : f'.ops = new ++ f.ops) :
    newOps f f' = new := by
  unfold newOps
  rw [h, List.length_append, Nat.add_sub_cancel, List.take_left']
  rfl

/-- The two extractors on a constant field. -/
theorem constant_field_values (g : GribInfo) (junk : Nat → Nat) (f : GribHandleData)
    (hw : g.bitsPerValue = 0) :
    (∀ i, extractAtIndex g junk f i = some (g.referenceValue, f)) ∧
    (∀ s e, s < e → e ≤ g.numberOfDataPoints → g.numberOfDataPoints < 2 ^ 64 →
      extractAtIndexRange g junk f s e = some (List.replicate (e - s) g.referenceValue, f)) := by
  constructor
  · intro i
    unfold extractAtIndex
    rw [if_pos hw]
  · intro s e hse he hn
    unfold extractAtIndexRange
    rw [if_pos hw]
    have e1 : (e + 2 ^ 64 - s) % 2 ^ 64 = e - s := by
      have : e + 2 ^ 64 - s = (e - s) + 2 ^ 64 := by omega
      rw [this, Nat.add_mod_right, Nat.mod_eq_of_lt (by omega)]
    rw [e1]

/-- A first loop of `extractAtIndexRange` that succeeds has read every bitmap
word inside the resource. -/
theorem indexLoop_readable (g : GribInfo) (k : Nat) :
    ∀ (f f' : GribHandleData) (i : Nat) (es : List Nat),
    indexLoop g k f i = some (es, f') → i + k < 2 ^ 64 →
    ∀ j, j < k → g.offsetBeforeBitmap + 8 * ((i + j) / 64 + 1) ≤ f.bytes.length := by
  induction k with
  | zero =>
    intro f f' i es _ _ j hj
    omega
  | succ k ih =>
    intro f f' i es h hi j hj
    simp only [indexLoop] at h
    rw [if_pos (show (f.seek g.offsetBeforeBitmap).1 = g.offsetBeforeBitmap from rfl)] at h
    cases hs : scanBitmap (f.seek g.offsetBeforeBitmap).2 i with
    | none =>
      rw [hs] at h
      exact absurd h (by simp)
    | some p =>
      obtain ⟨⟨n, c⟩, f1⟩ := p
      rw [hs] at h
      dsimp only at h
      have hfit : g.offsetBeforeBitmap + 8 * (i / 64 + 1) ≤ f.bytes.length :=
        scanBitmap_some _ _ _ _ hs
      obtain ⟨n', hs', _⟩ := scanBitmap_spec (f.seek g.offsetBeforeBitmap).2
        g.offsetBeforeBitmap i rfl hfit (by omega)
      rw [hs] at hs'
      simp only [Option.some.injEq, Prod.mk.injEq] at hs'
      have hb1 : f1.bytes = f.bytes := by
        rw [hs'.2]
        rfl
      cases hl : indexLoop g k f1 (i + 1) with
      | none =>
        rw [hl] at h
        exact absurd h (by simp)
      | some q =>
        obtain ⟨es', f2⟩ := q
        cases j with
        | zero => exact hfit
        | succ j =>
          have := ih f1 f2 (i + 1) es' hl (by omega) j (by omega)
          rw [hb1, show i + 1 + j = i + (j + 1) by ring] at this
          exact this

/-- The entries that a successful first loop of `extractAtIndexRange` stores. -/
theorem indexLoop_some (g : GribInfo) (k : Nat) (f f' : GribHandleData) (i : Nat)
    (es : List Nat) (h : indexLoop g k f i = some (es, f')) (hi : i + k < 2 ^ 64) :
    es = (List.range k).map (fun j => slotEntry f.bytes g.offsetBeforeBitmap (i + j)) ∧
      f'.bytes = f.bytes := by
  obtain ⟨f2, h2, hb2⟩ := indexLoop_spec g k f i hi (indexLoop_readable g k f f' i es h hi)
  rw [h] at h2
  simp only [Option.some.injEq, Prod.mk.injEq] at h2
  rw [h2.2]
  exact ⟨h2.1, hb2⟩

/-- The values that a successful second loop of `extractAtIndexRange` returns. -/
theorem valueLoop_some (g : GribInfo) (junk : Nat → Nat) (es : List Nat) :
    ∀ (f f' : GribHandleData) (vs : List ℚ),
    valueLoop g junk es f = some (vs, f') →
    vs = es.map (fun e => if e = 2 ^ 64 - 1 then MISSING else decodeSlot g junk f.bytes e) ∧
      f'.bytes = f.bytes := by
  induction es with
  | nil =>
    intro f f' vs h
    simp only [valueLoop, Option.some.injEq, Prod.mk.injEq] at h
    rw [← h.1, ← h.2]
    exact ⟨rfl, rfl⟩
  | cons e es ih =>
    intro f f' vs h
    simp only [valueLoop] at h
    by_cases he : e = 2 ^ 64 - 1
    · rw [if_pos he] at h
      cases hl : valueLoop g junk es f with
      | none =>
        rw [hl] at h
        exact absurd h (by simp)
      | some q =>
        obtain ⟨vs', f2⟩ := q
        rw [hl] at h
        simp only [Option.some.injEq, Prod.mk.injEq] at h
        obtain ⟨h1, h2⟩ := ih f f2 vs' hl
        rw [← h.1, ← h.2, h1]
        exact ⟨by simp only [List.map_cons, if_pos he], h2⟩
    · rw [if_neg he] at h
      cases hr : readValue g junk f e with
      | none =>
        rw [hr] at h
        exact absurd h (by simp)
      | some p =>
        obtain ⟨v, f1⟩ := p
        rw [hr] at h
        dsimp only at h
        obtain ⟨hv, hf1⟩ := readValue_some g junk f f1 e v hr
        have hb1 : f1.bytes = f.bytes := by rw [hf1]
        cases hl : valueLoop g junk es f1 with
        | none =>
          rw [hl] at h
          exact absurd h (by simp)
        | some q =>
          obtain ⟨vs', f2⟩ := q
          rw [hl] at h
          simp only [Option.some.injEq, Prod.mk.injEq] at h
          obtain ⟨h1, h2⟩ := ih f1 f2 vs' hl
          rw [← h.1, ← h.2, h1, hv, hb1]
          exact ⟨by simp only [List.map_cons, if_neg he], h2.trans hb1⟩

/-- The values of a successful `extractAtIndexRange` on a field that is not
constant: the range is valid and the values are those of the logical indices
`s .. e-1` in ascending order. -/
theorem extractAtIndexRange_some (g : GribInfo) (junk : Nat → Nat) (f f' : GribHandleData)
    (s e : Nat) (vs : List ℚ) (hw : g.bitsPerValue ≠ 0) (hn : g.numberOfDataPoints < 2 ^ 64)
    (h : extractAtIndexRange g junk f s e = some (vs, f')) :
    s < e ∧ e ≤ g.numberOfDataPoints ∧
    vs = (List.range (e - s)).map (fun j => valueOf g junk f.bytes (s + j)) ∧
    f'.bytes = f.bytes := by
  unfold extractAtIndexRange at h
  rw [if_neg hw] at h
  by_cases hse : ¬ s < e
  · rw [if_pos hse] at h
    exact absurd h (by simp)
  · rw [if_neg hse] at h
    by_cases he : ¬ e ≤ g.numberOfDataPoints
    · rw [if_pos he] at h
      exact absurd h (by simp)
    · rw [if_neg he] at h
      by_cases hsp : g.sphericalHarmonics ≠ 0
      · rw [if_pos hsp] at h
        exact absurd h (by simp)
      · rw [if_neg hsp] at h
        dsimp only at h
        have hse' : s < e := not_not.mp hse
        have he' : e ≤ g.numberOfDataPoints := not_not.mp he
        refine ⟨hse', he', ?_⟩
        by_cases hb : g.offsetBeforeBitmap ≠ 0
        · rw [if_pos hb,
            if_pos (show (f.seek g.offsetBeforeBitmap).1 = g.offsetBeforeBitmap from rfl)] at h
          cases hl : indexLoop g (e - s) (f.seek g.offsetBeforeBitmap).2 s with
          | none =>
            rw [hl] at h
            exact absurd h (by simp)
          | some q =>
            obtain ⟨es, f1⟩ := q
            rw [hl] at h
            dsimp only at h
            obtain ⟨hes, hb1⟩ := indexLoop_some g _ _ _ _ _ hl (by omega)
            obtain ⟨hvs, hb2⟩ := valueLoop_some g junk es f1 f' vs h
            have hb1' : f1.bytes = f.bytes := hb1
            rw [hb1'] at hvs hb2
            refine ⟨?_, hb2⟩
            rw [hvs, hes, List.map_map]
            apply List.map_congr_left
            intro j hj
            rw [List.mem_range] at hj
            simp only [Function.comp]
            rw [valueOf_bitmap g junk f.bytes (s + j) hb]
            exact slotEntry_value g junk f.bytes (s + j) (by omega)
        · rw [if_neg hb] at h
          dsimp only at h
          obtain ⟨hvs, hb2⟩ := valueLoop_some g junk _ f f' vs h
          have hb0 : g.offsetBeforeBitmap = 0 := by
            simpa using hb
          refine ⟨?_, hb2⟩
          rw [hvs, List.map_map]
          apply List.map_congr_left
          intro j hj
          rw [List.mem_range] at hj
          simp only [Function.comp]
          rw [if_neg (by omega), valueOf_nobitmap g junk f.bytes (s + j) hb0]

/-- The value of a successful `extractAtIndex` on a field that is not constant. -/
theorem extractAtIndex_some (g : GribInfo) (junk : Nat → Nat) (f f' : GribHandleData)
    (t : Nat) (v : ℚ) (hw : g.bitsPerValue ≠ 0) (hn : g.numberOfDataPoints < 2 ^ 64)
    (h : extractAtIndex g junk f t = some (v, f')) :
    v = valueOf g junk f.bytes t ∧ f'.bytes = f.bytes := by
  unfold extractAtIndex at h
  rw [if_neg hw] at h
  by_cases hsp : g.sphericalHarmonics ≠ 0
  · rw [if_pos hsp] at h
    exact absurd h (by simp)
  · rw [if_neg hsp] at h
    by_cases hb : g.offsetBeforeBitmap ≠ 0
    · by_cases ht : t < g.numberOfDataPoints
      · cases hs : scanBitmap (f.seek g.offsetBeforeBitmap).2 t with
        | none =>
          have hr : resolveSlot g f t = none := by
            unfold resolveSlot
            rw [if_pos hb, if_pos ht]
            dsimp only
            rw [if_pos (show (f.seek g.offsetBeforeBitmap).1 = g.offsetBeforeBitmap from rfl), hs]
          rw [hr] at h
          exact absurd h (by simp)
        | some p =>
          obtain ⟨r, f1⟩ := p
          have hfit : g.offsetBeforeBitmap + 8 * (t / 64 + 1) ≤ f.bytes.length :=
            scanBitmap_some _ _ _ _ hs
          rw [resolveSlot_bitmap_eq g f t hb ht hn hfit] at h
          rw [valueOf_bitmap g junk f.bytes t hb]
          unfold pointValue
          by_cases hbi : bitmapBit f.bytes g.offsetBeforeBitmap t = true
          · rw [if_pos hbi] at h
            dsimp only at h
            rw [if_pos hbi]
            by_cases hsl : setBitsBefore f.bytes g.offsetBeforeBitmap t < g.numberOfValues
            · rw [if_pos hsl] at h
              obtain ⟨hv, hf'⟩ := readValue_some g junk _ f' _ v h
              exact ⟨hv, by rw [hf']⟩
            · rw [if_neg hsl] at h
              exact absurd h (by simp)
          · rw [if_neg hbi] at h
            simp only [Option.some.injEq, Prod.mk.injEq] at h
            rw [if_neg hbi, ← h.1, ← h.2]
            exact ⟨rfl, rfl⟩
      · have hr : resolveSlot g f t = none := by
          unfold resolveSlot
          rw [if_pos hb, if_neg ht]
        rw [hr] at h
        exact absurd h (by simp)
    · have hb0 : g.offsetBeforeBitmap = 0 := by
        simpa using hb
      have hr : resolveSlot g f t = some (some t, f) := by
        unfold resolveSlot
        rw [if_neg hb]
      rw [hr] at h
      dsimp only at h
      by_cases hsl : t < g.numberOfValues
      · rw [if_pos hsl] at h
        obtain ⟨hv, hf'⟩ := readValue_some g junk f f' t v h
        rw [valueOf_nobitmap g junk f.bytes t hb0]
        exact ⟨hv, by rw [hf']⟩
      · rw [if_neg hsl] at h
        exact absurd h (by simp)

/-- Two results with the same view are both failures or agree on value, bytes
and position. -/
theorem view_eq_cases {α : Type} (r1 r2 : Option (α × GribHandleData)) (h : view r1 = view r2) :
    (r1 = none ∧ r2 = none) ∨
    ∃ a f1 f2, r1 = some (a, f1) ∧ r2 = some (a, f2) ∧ f1.bytes = f2.bytes ∧ f1.pos = f2.pos := by
  cases r1 with
  | none =>
    cases r2 with
    | none => exact Or.inl ⟨rfl, rfl⟩
    | some p => simp [view] at h
  | some p =>
    cases r2 with
    | none => simp [view] at h
    | some q =>
      obtain ⟨a, f1⟩ := p
      obtain ⟨b, f2⟩ := q
      simp only [view, Option.map_some', Option.some.injEq, Prod.mk.injEq] at h
      obtain ⟨hab, hb, hp⟩ := h
      subst hab
      exact Or.inr ⟨a, f1, f2, rfl, rfl, hb, hp⟩

/-- Two results with the same values are both failures or agree on value and
bytes. -/
theorem vals_eq_cases {α : Type} (r1 r2 : Option (α × GribHandleData)) (h : vals r1 = vals r2) :
    (r1 = none ∧ r2 = none) ∨
    ∃ a f1 f2, r1 = some (a, f1) ∧ r2 = some (a, f2) ∧ f1.bytes = f2.bytes := by
  cases r1 with
  | none =>
    cases r2 with
    | none => exact Or.inl ⟨rfl, rfl⟩
    | some p => simp [vals] at h
  | some p =>
    cases r2 with
    | none => simp [vals] at h
    | some q =>
      obtain ⟨a, f1⟩ := p
      obtain ⟨b, f2⟩ := q
      simp only [vals, Option.map_some', Option.some.injEq, Prod.mk.injEq] at h
      obtain ⟨hab, hb⟩ := h
      subst hab
      exact Or.inr ⟨a, f1, f2, rfl, rfl, hb⟩

/-- A read depends on the bytes and on the position only. -/
theorem read_congr (f1 f2 : GribHandleData) (n : Nat) (hb : f1.bytes = f2.bytes)
    (hp : f1.pos = f2.pos) :
    (f1.read n).1 = (f2.read n).1 ∧ (f1.read n).2.bytes = (f2.read n).2.bytes ∧
      (f1.read n).2.pos = (f2.read n).2.pos := by
  simp only [GribHandleData.read, hb, hp, and_self]

/-- The skip loop depends on the bytes and on the position only. -/
theorem skipWords_congr (k : Nat) : ∀ (f1 f2 : GribHandleData) (c : Nat),
    f1.bytes = f2.bytes → f1.pos = f2.pos →
    view (skipWords k f1 c) = view (skipWords k f2 c) := by
  induction k with
  | zero =>
    intro f1 f2 c hb hp
    simp only [skipWords, view, Option.map_some', hb, hp]
  | succ k ih =>
    intro f1 f2 c hb hp
    obtain ⟨h1, h2, h3⟩ := read_congr f1 f2 8 hb hp
    simp only [skipWords]
    rw [h1]
    by_cases hl : (f2.read 8).1.length = 8
    · rw [if_pos hl, if_pos hl]
      exact ih _ _ _ h2 h3
    · rw [if_neg hl, if_neg hl]

/-- The bitmap scan depends on the bytes and on the position only. -/
theorem scanBitmap_congr (f1 f2 : GribHandleData) (i : Nat) (hb : f1.bytes = f2.bytes)
    (hp : f1.pos = f2.pos) : view (scanBitmap f1 i) = view (scanBitmap f2 i) := by
  unfold scanBitmap
  rcases view_eq_cases _ _ (skipWords_congr (i / (8 * 8)) f1 f2 0 hb hp) with
    ⟨e1, e2⟩ | ⟨c, g1, g2, e1, e2, hgb, hgp⟩
  · rw [e1, e2]
  · rw [e1, e2]
    dsimp only
    obtain ⟨h1, h2, h3⟩ := read_congr g1 g2 8 hgb hgp
    rw [h1]
    by_cases hl : (g2.read 8).1.length = 8
    · rw [if_pos hl, if_pos hl]
      simp only [view, Option.map_some', h2, h3]
    · rw [if_neg hl, if_neg hl]

/-- The value read depends on the bytes only. -/
theorem readValue_congr (g : GribInfo) (junk : Nat → Nat) (f1 f2 : GribHandleData) (slot : Nat)
    (hb : f1.bytes = f2.bytes) :
    vals (readValue g junk f1 slot) = vals (readValue g junk f2 slot) := by
  unfold readValue
  dsimp only
  rw [seek_eq, seek_eq]
  dsimp only
  rw [if_pos rfl, if_pos rfl]
  obtain ⟨h1, h2, _⟩ := read_congr
    ⟨f1.bytes, g.offsetBeforeData + slot * g.bitsPerValue % 2 ^ 64 / 8,
      IOp.seek (g.offsetBeforeData + slot * g.bitsPerValue % 2 ^ 64 / 8) :: f1.ops⟩
    ⟨f2.bytes, g.offsetBeforeData + slot * g.bitsPerValue % 2 ^ 64 / 8,
      IOp.seek (g.offsetBeforeData + slot * g.bitsPerValue % 2 ^ 64 / 8) :: f2.ops⟩
    ((g.bitsPerValue + 7) % 2 ^ 64 / 8) hb rfl
  rw [h1]
  split
  · simp only [vals, Option.map_some', h2]
  · rfl

/-- The first loop of `extractAtIndexRange` depends on the bytes only. -/
theorem indexLoop_congr (g : GribInfo) (k : Nat) : ∀ (f1 f2 : GribHandleData) (i : Nat),
    f1.bytes = f2.bytes → vals (indexLoop g k f1 i) = vals (indexLoop g k f2 i) := by
  induction k with
  | zero =>
    intro f1 f2 i hb
    simp only [indexLoop, vals, Option.map_some', hb]
  | succ k ih =>
    intro f1 f2 i hb
    simp only [indexLoop]
    rw [if_pos (show (f1.seek g.offsetBeforeBitmap).1 = g.offsetBeforeBitmap from rfl),
      if_pos (show (f2.seek g.offsetBeforeBitmap).1 = g.offsetBeforeBitmap from rfl)]
    rcases view_eq_cases _ _ (scanBitmap_congr (f1.seek g.offsetBeforeBitmap).2
        (f2.seek g.offsetBeforeBitmap).2 i hb rfl) with
      ⟨e1, e2⟩ | ⟨r, g1, g2, e1, e2, hgb, _⟩
    · rw [e1, e2]
    · rw [e1, e2]
      dsimp only
      rcases vals_eq_cases _ _ (ih g1 g2 (i + 1) hgb) with
        ⟨e3, e4⟩ | ⟨es, k1, k2, e3, e4, hkb⟩
      · rw [e3, e4]
      · rw [e3, e4]
        simp only [vals, Option.map_some', hkb]

/-- The second loop of `extractAtIndexRange` depends on the bytes only. -/
theorem valueLoop_congr (g : GribInfo) (junk : Nat → Nat) (es : List Nat) :
    ∀ (f1 f2 : GribHandleData), f1.bytes = f2.bytes →
    vals (valueLoop g junk es f1) = vals (valueLoop g junk es f2) := by
  induction es with
  | nil =>
    intro f1 f2 hb
    simp only [valueLoop, vals, Option.map_some', hb]
  | cons e es ih =>
    intro f1 f2 hb
    simp only [valueLoop]
    by_cases he : e = 2 ^ 64 - 1
    · rw [if_pos he, if_pos he]
      rcases vals_eq_cases _ _ (ih f1 f2 hb) with ⟨e3, e4⟩ | ⟨vs, k1, k2, e3, e4, hkb⟩
      · rw [e3, e4]
      · rw [e3, e4]
        simp only [vals, Option.map_some', hkb]
    · rw [if_neg he, if_neg he]
      rcases vals_eq_cases _ _ (readValue_congr g junk f1 f2 e hb) with
        ⟨e1, e2⟩ | ⟨v, g1, g2, e1, e2, hgb⟩
      · rw [e1, e2]
      · rw [e1, e2]
        dsimp only
        rcases vals_eq_cases _ _ (ih g1 g2 hgb) with ⟨e3, e4⟩ | ⟨vs, k1, k2, e3, e4, hkb⟩
        · rw [e3, e4]
        · rw [e3, e4]
          simp only [vals, Option.map_some', hkb]

/-- The values of `extractAtIndexRange` and the bytes it leaves depend on the
bytes of the resource only, not on its position or on its record. -/
theorem extractAtIndexRange_congr (g : GribInfo) (junk : Nat → Nat) (f1 f2 : GribHandleData)
    (s e : Nat) (hb : f1.bytes = f2.bytes) :
    vals (extractAtIndexRange g junk f1 s e) = vals (extractAtIndexRange g junk f2 s e) := by
  unfold extractAtIndexRange
  by_cases hw : g.bitsPerValue = 0
  · rw [if_pos hw, if_pos hw]
    simp only [vals, Option.map_some', hb]
  · rw [if_neg hw, if_neg hw]
    by_cases hse : ¬ s < e
    · rw [if_pos hse, if_pos hse]
    · rw [if_neg hse, if_neg hse]
      by_cases he : ¬ e ≤ g.numberOfDataPoints
      · rw [if_pos he, if_pos he]
      · rw [if_neg he, if_neg he]
        by_cases hsp : g.sphericalHarmonics ≠ 0
        · rw [if_pos hsp, if_pos hsp]
        · rw [if_neg hsp, if_neg hsp]
          dsimp only
          by_cases hbm : g.offsetBeforeBitmap ≠ 0
          · rw [if_pos hbm, if_pos hbm,
              if_pos (show (f1.seek g.offsetBeforeBitmap).1 = g.offsetBeforeBitmap from rfl),
              if_pos (show (f2.seek g.offsetBeforeBitmap).1 = g.offsetBeforeBitmap from rfl)]
            rcases vals_eq_cases _ _ (indexLoop_congr g (e - s) (f1.seek g.offsetBeforeBitmap).2
                (f2.seek g.offsetBeforeBitmap).2 s hb) with
              ⟨e1, e2⟩ | ⟨es, g1, g2, e1, e2, hgb⟩
            · rw [e1, e2]
            · rw [e1, e2]
              exact valueLoop_congr g junk es g1 g2 hgb
          · rw [if_neg hbm, if_neg hbm]
            exact valueLoop_congr g junk _ f1 f2 hb

/-- The bytes of the resource are not changed by a bitmap scan. -/
theorem scanBitmap_bytes (f f' : GribHandleData) (i : Nat) (r : Nat × Nat)
    (h : scanBitmap f i = some (r, f')) : f'.bytes = f.bytes := by
  unfold scanBitmap at h
  cases hs : skipWords (i / (8 * 8)) f 0 with
  | none =>
    rw [hs] at h
    exact absurd h (by simp)
  | some p =>
    obtain ⟨c1, f1⟩ := p
    rw [hs] at h
    dsimp only at h
    obtain ⟨hf1, _⟩ := skipWords_some _ _ _ _ _ hs
    by_cases hl : (f1.read 8).1.length = 8
    · rw [if_pos hl] at h
      simp only [Option.some.injEq, Prod.mk.injEq] at h
      rw [← h.2]
      show f1.bytes = f.bytes
      rw [hf1]
    · rw [if_neg hl] at h
      exact absurd h (by simp)

/-- The bytes of the resource are not changed by the first loop of
`extractAtIndexRange`. -/
theorem indexLoop_bytes (g : GribInfo) (k : Nat) :
    ∀ (f f' : GribHandleData) (i : Nat) (es : List Nat),
    indexLoop g k f i = some (es, f') → f'.bytes = f.bytes := by
  induction k with
  | zero =>
    intro f f' i es h
    simp only [indexLoop, Option.some.injEq, Prod.mk.injEq] at h
    rw [← h.2]
  | succ k ih =>
    intro f f' i es h
    simp only [indexLoop] at h
    rw [if_pos (show (f.seek g.offsetBeforeBitmap).1 = g.offsetBeforeBitmap from rfl)] at h
    cases hs : scanBitmap (f.seek g.offsetBeforeBitmap).2 i with
    | none =>
      rw [hs] at h
      exact absurd h (by simp)
    | some p =>
      obtain ⟨⟨n, c⟩, f1⟩ := p
      rw [hs] at h
      dsimp only at h
      have hb1 : f1.bytes = f.bytes := scanBitmap_bytes (f.seek g.offsetBeforeBitmap).2 _ _ _ hs
      cases hl : indexLoop g k f1 (i + 1) with
      | none =>
        rw [hl] at h
        exact absurd h (by simp)
      | some q =>
        obtain ⟨es', f2⟩ := q
        rw [hl] at h
        simp only [Option.some.injEq, Prod.mk.injEq] at h
        rw [← h.2]
        exact (ih f1 f2 (i + 1) es' hl).trans hb1

/-- The bytes of the resource are not changed by `extractAtIndexRange`. -/
theorem extractAtIndexRange_bytes (g : GribInfo) (junk : Nat → Nat) (f f' : GribHandleData)
    (s e : Nat) (vs : List ℚ) (h : extractAtIndexRange g junk f s e = some (vs, f')) :
    f'.bytes = f.bytes := by
  unfold extractAtIndexRange at h
  by_cases hw : g.bitsPerValue = 0
  · rw [if_pos hw] at h
    simp only [Option.some.injEq, Prod.mk.injEq] at h
    rw [← h.2]
  · rw [if_neg hw] at h
    by_cases hse : ¬ s < e
    · rw [if_pos hse] at h
      exact absurd h (by simp)
    · rw [if_neg hse] at h
      by_cases he : ¬ e ≤ g.numberOfDataPoints
      · rw [if_pos he] at h
        exact absurd h (by simp)
      · rw [if_neg he] at h
        by_cases hsp : g.sphericalHarmonics ≠ 0
        · rw [if_pos hsp] at h
          exact absurd h (by simp)
        · rw [if_neg hsp] at h
          dsimp only at h
          by_cases hb : g.offsetBeforeBitmap ≠ 0
          · rw [if_pos hb,
              if_pos (show (f.seek g.offsetBeforeBitmap).1 = g.offsetBeforeBitmap from rfl)] at h
            cases hl : indexLoop g (e - s) (f.seek g.offsetBeforeBitmap).2 s with
            | none =>
              rw [hl] at h
              exact absurd h (by simp)
            | some q =>
              obtain ⟨es, f1⟩ := q
              rw [hl] at h
              dsimp only at h
              have hb1 : f1.bytes = f.bytes :=
                indexLoop_bytes g _ (f.seek g.offsetBeforeBitmap).2 _ _ _ hl
              exact ((valueLoop_some g junk es f1 f' vs h).2).trans hb1
          · rw [if_neg hb] at h
            dsimp only at h
            exact (valueLoop_some g junk _ f f' vs h).2

/-- The values of one range in a list of ranges do not depend on the ranges
extracted before it. -/
theorem rangesLoop_pair (g : GribInfo) (junk : Nat → Nat) (f : GribHandleData)
    (s1 e1 s2 e2 : Nat) :
    (rangesLoop g junk [(s1, e1), (s2, e2)] f).map Prod.fst =
      match (extractAtIndexRange g junk f s1 e1).map Prod.fst,
        (extractAtIndexRange g junk f s2 e2).map Prod.fst with
      | some a, some b => some (a ++ b)
      | _, _ => none := by
  simp only [rangesLoop]
  cases h1 : extractAtIndexRange g junk f s1 e1 with
  | none => rfl
  | some p =>
    obtain ⟨vs, f1⟩ := p
    dsimp only
    have hb1 : f1.bytes = f.bytes := extractAtIndexRange_bytes g junk f f1 s1 e1 vs h1
    rcases vals_eq_cases _ _ (extractAtIndexRange_congr g junk f1 f s2 e2 hb1) with
      ⟨e3, e4⟩ | ⟨ws, k1, k2, e3, e4, _⟩
    · rw [e3, e4]
      rfl
    · rw [e3, e4]
      simp

/-- A single range. -/
theorem rangesLoop_single (g : GribInfo) (junk : Nat → Nat) (f : GribHandleData) (s e : Nat) :
    (rangesLoop g junk [(s, e)] f).map Prod.fst =
      (extractAtIndexRange g junk f s e).map Prod.fst := by
  simp only [rangesLoop]
  cases h1 : extractAtIndexRange g junk f s e with
  | none => rfl
  | some p =>
    obtain ⟨vs, f1⟩ := p
    simp

/-- A successful `extractAtIndexRange` on a valid range returns `e - s` values. -/
theorem range_length (g : GribInfo) (junk : Nat → Nat) (f f' : GribHandleData)
    (s e : Nat) (vs : List ℚ) (hse : s < e) (he : e ≤ g.numberOfDataPoints)
    (hn : g.numberOfDataPoints < 2 ^ 64)
    (h : extractAtIndexRange g junk f s e = some (vs, f')) : vs.length = e - s := by
  by_cases hw : g.bitsPerValue = 0
  · have hc := (constant_field_values g junk f hw).2 s e hse he hn
    rw [h] at hc
    simp only [Option.some.injEq, Prod.mk.injEq] at hc
    rw [hc.1]
    exact List.length_replicate _ _
  · obtain ⟨_, _, hvs, _⟩ := extractAtIndexRange_some g junk f f' s e vs hw hn h
    rw [hvs]
    simp

/-- Two overlapping ranges given out of order over the fourth scenario of the
specification: the values of (2, 4) followed by those of (0, 3), nothing
removed. -/
theorem extractAtIndexRangeOfRanges_example :
    (extractAtIndexRangeOfRanges exBitmapInfo (fun _ => 0) exBitmapResource
      [(2, 4), (0, 3)]).map Prod.fst = some [20, 30, 10, 9999, 20] ∧
    extractAtIndexRangeOfRanges exBitmapInfo (fun _ => 0) exBitmapResource [] = none := by
  refine ⟨by decide!, by decide!⟩

/-- An integer written as a JSON number converts back to itself. -/
theorem toLong_intCast (z : Int) : toLong (z : ℚ) = z := by
  unfold toLong
  split <;> simp

/-- A 64-bit natural written as a JSON number converts back to itself. -/
theorem toUnsignedLong_natCast (n : Nat) (h : n < 2 ^ 64) : toUnsignedLong (n : ℚ) = n := by
  unfold toUnsignedLong
  have h1 : toLong (n : ℚ) = (n : Int) := by
    have := toLong_intCast (n : Int)
    simpa using this
  rw [h1]
  omega

/-- Reading back what `toJSON` wrote restores the eight integer members, and
gives for each of the three `double` members the number that was written: the
member rounded to 15 significant decimal digits. -/
theorem fromJSONFile_toJSON (g g0 : GribInfo) (h1 : g.bitsPerValue < 2 ^ 64)
    (h2 : g.offsetBeforeData < 2 ^ 64) (h3 : g.numberOfDataPoints < 2 ^ 64)
    (h4 : g.numberOfValues < 2 ^ 64) (h5 : g.offsetBeforeBitmap < 2 ^ 64) :
    g0.fromJSONFile g.toJSON = some { g0 with
      binaryScaleFactor := g.binaryScaleFactor
      decimalScaleFactor := g.decimalScaleFactor
      bitsPerValue := g.bitsPerValue
      referenceValue := printDouble 15 g.referenceValue
      offsetBeforeData := g.offsetBeforeData
      numberOfDataPoints := g.numberOfDataPoints
      numberOfValues := g.numberOfValues
      offsetBeforeBitmap := g.offsetBeforeBitmap
      sphericalHarmonics := g.sphericalHarmonics
      binaryMultiplier := printDouble 15 g.binaryMultiplier
      decimalMultiplier := printDouble 15 g.decimalMultiplier } := by
  simp only [GribInfo.fromJSONFile, GribInfo.toJSON, JSONObject.get]
  simp [toLong_intCast, toUnsignedLong_natCast _ h1, toUnsignedLong_natCast _ h2,
    toUnsignedLong_natCast _ h3, toUnsignedLong_natCast _ h4, toUnsignedLong_natCast _ h5]

/-- A document that lacks one of the eleven keys is rejected. -/
theorem fromJSONFile_missing_key (g0 : GribInfo) (v : JSONObject) (key : String)
    (hk : key ∈ requiredKeys) (h : v.get key = none) : g0.fromJSONFile v = none := by
  simp only [requiredKeys, List.mem_cons, List.mem_singleton, List.not_mem_nil, or_false] at hk
  unfold GribInfo.fromJSONFile
  rcases hk with rfl | rfl | rfl | rfl | rfl | rfl | rfl | rfl | rfl | rfl | rfl <;>
    simp [h]

/-- The first loop of `extractAtIndexRange` seeks to the bitmap start once for
every index and reads at least one 8-byte word for every index. -/
theorem indexLoop_seeks (g : GribInfo) (k : Nat) :
    ∀ (f f' : GribHandleData) (i : Nat) (es : List Nat),
    indexLoop g k f i = some (es, f') →
    ∃ new : List IOp, f'.ops = new ++ f.ops ∧
      new.count (IOp.seek g.offsetBeforeBitmap) = k ∧ k ≤ new.count (IOp.read 8) := by
  induction k with
  | zero =>
    intro f f' i es h
    simp only [indexLoop, Option.some.injEq, Prod.mk.injEq] at h
    rw [← h.2]
    exact ⟨[], rfl, rfl, Nat.le_refl _⟩
  | succ k ih =>
    intro f f' i es h
    simp only [indexLoop] at h
    rw [if_pos (show (f.seek g.offsetBeforeBitmap).1 = g.offsetBeforeBitmap from rfl)] at h
    cases hs : scanBitmap (f.seek g.offsetBeforeBitmap).2 i with
    | none =>
      rw [hs] at h
      exact absurd h (by simp)
    | some p =>
      obtain ⟨⟨n, c⟩, f1⟩ := p
      rw [hs] at h
      dsimp only at h
      have hops := (scanBitmap_opsGrow g _ _ _ _ hs).1
      cases hl : indexLoop g k f1 (i + 1) with
      | none =>
        rw [hl] at h
        exact absurd h (by simp)
      | some q =>
        obtain ⟨es', f2⟩ := q
        rw [hl] at h
        simp only [Option.some.injEq, Prod.mk.injEq] at h
        obtain ⟨new, e1, c1, c2⟩ := ih f1 f2 (i + 1) es' hl
        refine ⟨new ++ (List.replicate (i / 64 + 1) (IOp.read 8) ++
          [IOp.seek g.offsetBeforeBitmap]), ?_, ?_, ?_⟩
        · rw [← h.2, e1, hops]
          simp [GribHandleData.seek]
        · rw [List.count_append, List.count_append, c1, List.count_replicate]
          simp
        · rw [List.count_append, List.count_append, List.count_replicate]
          simp
          omega

/-- With a bitmap, a successful `extractAtIndexRange` has sought to the bitmap
start once before its first loop and once more for every index of the range. -/
theorem extractAtIndexRange_seeks (g : GribInfo) (junk : Nat → Nat) (f f' : GribHandleData)
    (s e : Nat) (vs : List ℚ) (hw : g.bitsPerValue ≠ 0) (hb : g.offsetBeforeBitmap ≠ 0)
    (h : extractAtIndexRange g junk f s e = some (vs, f')) :
    (e - s) + 1 ≤ (newOps f f').count (IOp.seek g.offsetBeforeBitmap) ∧
      e - s ≤ (newOps f f').count (IOp.read 8) := by
  unfold extractAtIndexRange at h
  rw [if_neg hw] at h
  by_cases hse : ¬ s < e
  · rw [if_pos hse] at h
    exact absurd h (by simp)
  · rw [if_neg hse] at h
    by_cases he : ¬ e ≤ g.numberOfDataPoints
    · rw [if_pos he] at h
      exact absurd h (by simp)
    · rw [if_neg he] at h
      by_cases hsp : g.sphericalHarmonics ≠ 0
      · rw [if_pos hsp] at h
        exact absurd h (by simp)
      · rw [if_neg hsp] at h
        dsimp only at h
        rw [if_pos hb,
          if_pos (show (f.seek g.offsetBeforeBitmap).1 = g.offsetBeforeBitmap from rfl)] at h
        cases hl : indexLoop g (e - s) (f.seek g.offsetBeforeBitmap).2 s with
        | none =>
          rw [hl] at h
          exact absurd h (by simp)
        | some q =>
          obtain ⟨es, f1⟩ := q
          rw [hl] at h
          dsimp only at h
          obtain ⟨new, e1, c1, c2⟩ := indexLoop_seeks g _ _ _ _ _ hl
          obtain ⟨newv, e2, _⟩ := valueLoop_opsGrow g junk es f1 f' vs h
          have hall : f'.ops = (newv ++ (new ++ [IOp.seek g.offsetBeforeBitmap])) ++ f.ops := by
            rw [e2, e1]
            simp [GribHandleData.seek]
          rw [newOps_eq f f' _ hall]
          constructor
          · rw [List.count_append, List.count_append, c1]
            simp
          · rw [List.count_append, List.count_append]
            simp
            omega

/-- A bit of a word at or above position 64 is clear. -/
theorem testBit_of_lt_two_pow_64 (n j : Nat) (hn : n < 2 ^ 64) (hj : 64 ≤ j) :
    n.testBit j = false := by
  apply Nat.testBit_lt_two_pow
  exact Nat.lt_of_lt_of_le hn (Nat.pow_le_pow_right (by norm_num) hj)

/-- Applying `reverse_bytes` twice gives the word back. -/
theorem reverse_bytes_involutive (n : Nat) (hn : n < 2 ^ 64) :
    reverse_bytes (reverse_bytes n) = n := by
  apply Nat.eq_of_testBit_eq
  intro j
  rw [reverse_bytes_testBit_all, reverse_bytes_testBit_all]
  by_cases hj : j < 64
  · have h1 : 8 * (7 - j / 8) + j % 8 < 64 := by omega
    have h2 : 8 * (7 - (8 * (7 - j / 8) + j % 8) / 8) + (8 * (7 - j / 8) + j % 8) % 8 = j := by
      omega
    rw [h2, decide_eq_true hj, decide_eq_true h1]
    rfl
  · rw [testBit_of_lt_two_pow_64 n j hn (by omega)]
    simp [hj]

/-- The word read from the bytes in reverse order is the byte-reversed word. -/
theorem reverse_bytes_word_of_bytes (b0 b1 b2 b3 b4 b5 b6 b7 : Nat) :
    reverse_bytes (word_of_bytes [b0, b1, b2, b3, b4, b5, b6, b7]) =
      word_of_bytes [b7, b6, b5, b4, b3, b2, b1, b0] := by
  apply Nat.eq_of_testBit_eq
  intro j
  rw [reverse_bytes_testBit_all, word_of_bytes_testBit, word_of_bytes_testBit]
  by_cases hj : j < 64
  · have h1 : (8 * (7 - j / 8) + j % 8) / 8 = 7 - j / 8 := by omega
    have h2 : (8 * (7 - j / 8) + j % 8) % 8 = j % 8 := by omega
    rw [h1, h2]
    have h3 : j / 8 < 8 := by omega
    generalize j / 8 = q at h3 ⊢
    interval_cases q <;> simp [hj]
  · have h3 : 8 ≤ j / 8 := by omega
    have h4 : [b7, b6, b5, b4, b3, b2, b1, b0].getD (j / 8) 0 = 0 := by
      rw [List.getD_eq_default]
      simpa using h3
    rw [h4]
    simp [hj]

/-- The value of a word in terms of its eight bytes. -/
theorem word_of_bytes_eight (b0 b1 b2 b3 b4 b5 b6 b7 : Nat) (h0 : b0 < 256) (h1 : b1 < 256)
    (h2 : b2 < 256) (h3 : b3 < 256) (h4 : b4 < 256) (h5 : b5 < 256) (h6 : b6 < 256)
    (h7 : b7 < 256) :
    word_of_bytes [b0, b1, b2, b3, b4, b5, b6, b7] =
      b0 * 256 ^ 0 + b1 * 256 ^ 1 + b2 * 256 ^ 2 + b3 * 256 ^ 3 + b4 * 256 ^ 4 + b5 * 256 ^ 5 +
        b6 * 256 ^ 6 + b7 * 256 ^ 7 := by
  simp only [word_of_bytes, Nat.mod_eq_of_lt h0, Nat.mod_eq_of_lt h1, Nat.mod_eq_of_lt h2,
    Nat.mod_eq_of_lt h3, Nat.mod_eq_of_lt h4, Nat.mod_eq_of_lt h5, Nat.mod_eq_of_lt h6,
    Nat.mod_eq_of_lt h7]
  ring

/-- The number of set bits before `i` depends on bits `0 .. i-1` only. -/
theorem setBitsBefore_congr (bs1 bs2 : List Nat) (off i : Nat)
    (h : ∀ j, j < i → bitmapBit bs1 off j = bitmapBit bs2 off j) :
    setBitsBefore bs1 off i = setBitsBefore bs2 off i := by
  unfold setBitsBefore
  apply List.countP_congr
  intro j hj
  rw [List.mem_range] at hj
  rw [h j hj]

/-- The entry of `n_index` for a point in terms of the running count
`setBitsBefore (t + 1)`, which includes the point's own bit. -/
theorem slotEntry_cases (bytes : List Nat) (off t n : Nat) (ht : t < n) (hn : n < 2 ^ 64) :
    (slotEntry bytes off t = 2 ^ 64 - 1 ↔ bitmapBit bytes off t = false) ∧
    (bitmapBit bytes off t = true →
      1 ≤ setBitsBefore bytes off (t + 1) ∧
      slotEntry bytes off t = setBitsBefore bytes off (t + 1) - 1 ∧
      setBitsBefore bytes off (t + 1) - 1 < n ∧
      setBitsBefore bytes off (t + 1) - 1 = setBitsBefore bytes off t) := by
  have hle := setBitsBefore_le bytes off t
  have hs := setBitsBefore_succ bytes off t
  unfold slotEntry
  by_cases hbit : bitmapBit bytes off t = true
  · rw [if_pos hbit] at hs ⊢
    refine ⟨⟨fun h => ?_, fun h => ?_⟩, fun _ => ⟨by omega, by omega, by omega, by omega⟩⟩
    · omega
    · rw [hbit] at h
      exact absurd h (by simp)
  · rw [if_neg hbit]
    refine ⟨⟨fun _ => by simpa using hbit, fun _ => rfl⟩, fun h => absurd h hbit⟩

/-- A search that starts at position `i` finds nothing before `i`. -/
theorem strFindFrom_ge (pat : StdString) : ∀ (s : StdString) (i k : Nat),
    strFindFrom pat s i = some k → i ≤ k := by
  intro s
  induction s with
  | nil =>
    intro i k h
    unfold strFindFrom at h
    by_cases hp : pat = []
    · rw [if_pos hp] at h
      simp only [Option.some.injEq] at h
      omega
    · rw [if_neg hp] at h
      exact absurd h (by simp)
  | cons c s ih =>
    intro i k h
    unfold strFindFrom at h
    by_cases hp : pat.isPrefixOf (c :: s) = true
    · rw [if_pos hp] at h
      simp only [Option.some.injEq] at h
      omega
    · rw [if_neg hp] at h
      have := ih (i + 1) k h
      omega

/-- The test `s.find(pat) == 0` holds exactly when `pat` is a prefix of `s`. -/
theorem strFind_eq_zero (s pat : StdString) : strFind s pat = some 0 ↔ pat <+: s := by
  unfold strFind
  cases s with
  | nil =>
    unfold strFindFrom
    by_cases hp : pat = []
    · rw [if_pos hp, hp]
      simp
    · rw [if_neg hp]
      simp [hp]
  | cons c s =>
    unfold strFindFrom
    by_cases hp : pat.isPrefixOf (c :: s) = true
    · rw [if_pos hp]
      simpa using List.isPrefixOf_iff_prefix.mp hp
    · rw [if_neg hp]
      constructor
      · intro h
        have := strFindFrom_ge pat s 1 0 h
        omega
      · intro h
        exact absurd (List.isPrefixOf_iff_prefix.mpr h) hp

/-- The function `bestMatch` is the search for the first element that has
`name` as a prefix. -/
theorem bestMatch_eq_find (name : StdString) (values : List StdString) :
    bestMatch name values = values.find? (fun v => name.isPrefixOf v) := by
  induction values with
  | nil => rfl
  | cons v rest ih =>
    unfold bestMatch
    by_cases hp : name <+: v
    · rw [if_pos ((strFind_eq_zero v name).mpr hp)]
      simp [List.find?_cons, List.isPrefixOf_iff_prefix.mpr hp]
    · rw [if_neg (fun h => hp ((strFind_eq_zero v name).mp h)), ih]
      have : name.isPrefixOf v = false := by
        rw [← Bool.not_eq_true]
        exact fun h => hp (List.isPrefixOf_iff_prefix.mp h)
      simp [List.find?_cons, this]

/-- An abbreviated verb: `ret` selects `retrieve`, which precedes `return`. -/
theorem bestMatch_example :
    bestMatch "ret".toList ["archive".toList, "retrieve".toList, "return".toList] =
      some "retrieve".toList ∧
    bestMatch "x".toList ["archive".toList, "retrieve".toList] = none := by
  decide

/-- No string is less than itself. -/
theorem strLt_irrefl : ∀ a : StdString, strLt a a = false := by
  intro a
  induction a with
  | nil => rfl
  | cons c cs ih =>
    unfold strLt
    rw [if_neg (lt_irrefl c), if_pos rfl, ih]

/-- The comparison of strings is transitive. -/
theorem strLt_trans : ∀ a b c : StdString, strLt a b = true → strLt b c = true →
    strLt a c = true := by
  intro a
  induction a with
  | nil =>
    intro b c hab hbc
    cases c with
    | nil =>
      cases b <;> simp [strLt] at hbc
    | cons z zs => rfl
  | cons x xs ih =>
    intro b c hab hbc
    cases b with
    | nil => simp [strLt] at hab
    | cons y ys =>
      cases c with
      | nil => simp [strLt] at hbc
      | cons z zs =>
        unfold strLt at hab hbc ⊢
        by_cases hxy : x < y
        · by_cases hyz : y < z
          · rw [if_pos (lt_trans hxy hyz)]
          · rw [if_neg hyz] at hbc
            by_cases hyz' : y = z
            · rw [← hyz', if_pos hxy]
            · rw [if_neg hyz'] at hbc
              exact absurd hbc (by simp)
        · rw [if_neg hxy] at hab
          by_cases hxy' : x = y
          · rw [if_pos hxy'] at hab
            rw [hxy']
            by_cases hyz : y < z
            · rw [if_pos hyz]
            · rw [if_neg hyz] at hbc ⊢
              by_cases hyz' : y = z
              · rw [if_pos hyz'] at hbc ⊢
                exact ih ys zs hab hbc
              · rw [if_neg hyz'] at hbc
                exact absurd hbc (by simp)
          · rw [if_neg hxy'] at hab
            exact absurd hab (by simp)

/-- Two strings neither of which is less than the other are equal. -/
theorem strLt_total : ∀ a b : StdString, strLt a b = false → strLt b a = false → a = b := by
  intro a
  induction a with
  | nil =>
    intro b hab _
    cases b with
    | nil => rfl
    | cons y ys => simp [strLt] at hab
  | cons x xs ih =>
    intro b hab hba
    cases b with
    | nil => simp [strLt] at hba
    | cons y ys =>
      unfold strLt at hab hba
      by_cases hxy : x < y
      · rw [if_pos hxy] at hab
        exact absurd hab (by simp)
      · rw [if_neg hxy] at hab
        by_cases hyx : y < x
        · rw [if_pos hyx] at hba
          exact absurd hba (by simp)
        · rw [if_neg hyx] at hba
          have hxe : x = y := le_antisymm (not_lt.mp hyx) (not_lt.mp hxy)
          rw [if_pos hxe] at hab
          rw [if_pos hxe.symm] at hba
          rw [hxe, ih ys hab hba]

/-- A string is not less than one of its prefixes. -/
theorem strLt_of_prefix : ∀ p k : StdString, p <+: k → strLt k p = false := by
  intro p
  induction p with
  | nil =>
    intro k _
    cases k <;> rfl
  | cons c cs ih =>
    intro k hp
    cases k with
    | nil => simp at hp
    | cons d ds =>
      rw [List.cons_prefix_cons] at hp
      unfold strLt
      rw [hp.1, if_neg (lt_irrefl d), if_pos rfl]
      exact ih ds hp.2

/-- The keys after an assignment. -/
theorem mem_mapAssign (k : StdString) : ∀ (m : List (StdString × StdString)) (x : StdString),
    x ∈ (mapAssign k k m).map Prod.fst ↔ x = k ∨ x ∈ m.map Prod.fst := by
  intro m
  induction m with
  | nil =>
    intro x
    simp [mapAssign]
  | cons e rest ih =>
    intro x
    obtain ⟨k1, v1⟩ := e
    unfold mapAssign
    by_cases h1 : strLt k k1 = true
    · rw [if_pos h1]
      simp
    · rw [if_neg h1]
      by_cases h2 : strLt k1 k = true
      · rw [if_pos h2]
        simp only [List.map_cons, List.mem_cons, ih x]
        tauto
      · rw [if_neg h2]
        have hk : k = k1 := strLt_total k k1 (by simpa using h1) (by simpa using h2)
        simp only [List.map_cons, List.mem_cons, hk]
        tauto

/-- An assignment `m[k] = k` keeps the map ordered with every value its key. -/
theorem mapAssign_ok (k : StdString) : ∀ m : List (StdString × StdString),
    EnumMapOk m → EnumMapOk (mapAssign k k m) := by
  intro m
  induction m with
  | nil =>
    intro _
    refine ⟨by simp [mapAssign], ?_⟩
    intro x hx
    simp only [mapAssign, List.mem_singleton] at hx
    rw [hx]
  | cons e rest ih =>
    intro hm
    obtain ⟨k1, v1⟩ := e
    obtain ⟨hs, hv⟩ := hm
    have hs' := List.pairwise_cons.mp hs
    have hrest : EnumMapOk rest := ⟨hs'.2, fun x hx => hv x (List.mem_cons_of_mem _ hx)⟩
    unfold mapAssign
    by_cases h1 : strLt k k1 = true
    · rw [if_pos h1]
      refine ⟨?_, ?_⟩
      · rw [List.pairwise_cons]
        refine ⟨?_, hs⟩
        intro y hy
        rcases List.mem_cons.mp hy with rfl | hy'
        · exact h1
        · exact strLt_trans k k1 y.1 h1 (hs'.1 y hy')
      · intro x hx
        rcases List.mem_cons.mp hx with rfl | hx'
        · rfl
        · exact hv x hx'
    · rw [if_neg h1]
      by_cases h2 : strLt k1 k = true
      · rw [if_pos h2]
        obtain ⟨is, iv⟩ := ih hrest
        refine ⟨?_, ?_⟩
        · rw [List.pairwise_cons]
          refine ⟨?_, is⟩
          intro y hy
          have hy1 : y.1 ∈ (mapAssign k k rest).map Prod.fst := List.mem_map_of_mem _ hy
          rcases (mem_mapAssign k rest y.1).mp hy1 with hk | hin
          · show strLt k1 y.1 = true
            rw [hk]
            exact h2
          · obtain ⟨z, hz, hz1⟩ := List.mem_map.mp hin
            show strLt k1 y.1 = true
            rw [← hz1]
            exact hs'.1 z hz
        · intro x hx
          rcases List.mem_cons.mp hx with rfl | hx'
          · exact hv _ (List.mem_cons_self _ _)
          · exact iv x hx'
      · rw [if_neg h2]
        have hk : k = k1 := strLt_total k k1 (by simpa using h1) (by simpa using h2)
        refine ⟨?_, ?_⟩
        · rw [List.pairwise_cons]
          exact ⟨fun y hy => hs'.1 y hy, hs'.2⟩
        · intro x hx
          rcases List.mem_cons.mp hx with rfl | hx'
          · exact hk
          · exact hv x (List.mem_cons_of_mem _ hx')

/-- The map that the constructor builds is ordered, every value is its key, and
its keys are the elements of the setting. -/
theorem TypeEnum_new_ok (values : List StdString) :
    EnumMapOk (TypeEnum.new values).values_ ∧
    ∀ x, x ∈ (TypeEnum.new values).values_.map Prod.fst ↔ x ∈ values := by
  unfold TypeEnum.new
  have key : ∀ (vs : List StdString) (m : List (StdString × StdString)), EnumMapOk m →
      EnumMapOk (vs.foldl (fun m v => mapAssign v v m) m) ∧
      ∀ x, x ∈ (vs.foldl (fun m v => mapAssign v v m) m).map Prod.fst ↔
        x ∈ vs ∨ x ∈ m.map Prod.fst := by
    intro vs
    induction vs with
    | nil =>
      intro m hm
      exact ⟨hm, fun x => by simp⟩
    | cons v vs ih =>
      intro m hm
      obtain ⟨h1, h2⟩ := ih (mapAssign v v m) (mapAssign_ok v m hm)
      refine ⟨h1, ?_⟩
      intro x
      rw [List.foldl_cons, h2 x, mem_mapAssign v m x, List.mem_cons]
      tauto
  obtain ⟨h1, h2⟩ := key values [] ⟨List.Pairwise.nil, fun x hx => absurd hx (by simp)⟩
  refine ⟨h1, ?_⟩
  intro x
  rw [h2 x]
  simp

/-- What the inner loop of `expand` returns on an ordered map: nothing when no
key has `j` as a prefix, otherwise the least key that has. -/
theorem expandOne_spec (j : StdString) : ∀ m : List (StdString × StdString), EnumMapOk m →
    (expandOne j m = [] ∧ ∀ w, w ∈ m.map Prod.fst → ¬ j <+: w) ∨
    (∃ v, expandOne j m = [v] ∧ v ∈ m.map Prod.fst ∧ j <+: v ∧
      ∀ w, w ∈ m.map Prod.fst → j <+: w → strLt w v = false) := by
  intro m
  induction m with
  | nil =>
    intro _
    left
    exact ⟨rfl, fun w hw => absurd hw (by simp)⟩
  | cons e rest ih =>
    intro hm
    obtain ⟨k1, v1⟩ := e
    obtain ⟨hs, hv⟩ := hm
    have hs' := List.pairwise_cons.mp hs
    have hrest : EnumMapOk rest := ⟨hs'.2, fun x hx => hv x (List.mem_cons_of_mem _ hx)⟩
    have hv1 : v1 = k1 := hv (k1, v1) (List.mem_cons_self _ _)
    unfold expandOne
    by_cases hp : j <+: k1
    · rw [if_pos ((strFind_eq_zero k1 j).mpr hp)]
      right
      refine ⟨v1, rfl, by simp [hv1], by rw [hv1]; exact hp, ?_⟩
      intro w hw _
      rw [hv1]
      rcases List.mem_cons.mp hw with rfl | hw'
      · exact strLt_irrefl _
      · obtain ⟨z, hz, hz1⟩ := List.mem_map.mp hw'
        have hlt : strLt k1 w = true := by
          rw [← hz1]
          exact hs'.1 z hz
        cases hwk : strLt w k1 with
        | false => rfl
        | true =>
          have := strLt_trans k1 w k1 hlt hwk
          rw [strLt_irrefl] at this
          exact absurd this (by simp)
    · rw [if_neg (fun h => hp ((strFind_eq_zero k1 j).mp h))]
      rcases ih hrest with ⟨h0, hno⟩ | ⟨v, h1, hmem, hpre, hmin⟩
      · left
        refine ⟨h0, ?_⟩
        intro w hw
        rcases List.mem_cons.mp hw with rfl | hw'
        · exact hp
        · exact hno w hw'
      · right
        refine ⟨v, h1, List.mem_cons_of_mem _ hmem, hpre, ?_⟩
        intro w hw hpw
        rcases List.mem_cons.mp hw with rfl | hw'
        · exact absurd hpw hp
        · exact hmin w hw' hpw

/-- On an ordered map a key is expanded to itself. -/
theorem expandOne_key (j : StdString) (m : List (StdString × StdString)) (hm : EnumMapOk m)
    (hj : j ∈ m.map Prod.fst) : expandOne j m = [j] := by
  rcases expandOne_spec j m hm with ⟨_, hno⟩ | ⟨v, h1, hmem, hpre, hmin⟩
  · exact absurd (List.prefix_refl j) (hno j hj)
  · have h1' := hmin j hj (List.prefix_refl j)
    have h2' := strLt_of_prefix j v hpre
    rw [h1, strLt_total j v h1' h2']

/-- The method `expand` treats the inputs one by one, in order. -/
theorem TypeEnum_expand_append (t : TypeEnum) (xs ys : List StdString) :
    t.expand (xs ++ ys) = t.expand xs ++ t.expand ys := by
  induction xs with
  | nil => rfl
  | cons x xs ih =>
    show expandOne x t.values_ ++ t.expand (xs ++ ys) = (expandOne x t.values_ ++ t.expand xs) ++ _
    rw [ih, List.append_assoc]

/-- One input. -/
theorem TypeEnum_expand_single (t : TypeEnum) (j : StdString) :
    t.expand [j] = expandOne j t.values_ := by
  show expandOne j t.values_ ++ [] = _
  rw [List.append_nil]

/-- The enum values `an`, `fc`, `forecast` (given out of order) and the inputs
`f`, `forecast`, `x`, `an`: `f` and `fc` both expand to `fc`, the least value
with that prefix. -/
theorem TypeEnum_expand_example :
    (TypeEnum.new ["forecast".toList, "an".toList, "fc".toList]).values_.map Prod.fst =
      ["an".toList, "fc".toList, "forecast".toList] ∧
    (TypeEnum.new ["forecast".toList, "an".toList, "fc".toList]).expand
        ["f".toList, "forecast".toList, "x".toList, "an".toList] =
      ["fc".toList, "forecast".toList, "an".toList] := by
  decide

/-- The code of a decimal digit. -/
theorem isDigit_bounds (c : Char) (h : c.isDigit = true) : 48 ≤ c.toNat ∧ c.toNat ≤ 57 := by
  unfold Char.isDigit at h
  simp only [Bool.and_eq_true, decide_eq_true_eq, ge_iff_le] at h
  obtain ⟨h1, h2⟩ := h
  rw [UInt32.le_def] at h1 h2
  unfold Char.toNat UInt32.toNat
  exact ⟨h1, h2⟩

/-- A decimal digit is not the minus sign. -/
theorem isDigit_ne_minus (c : Char) (h : c.isDigit = true) : c ≠ '-' := by
  intro hc
  rw [hc] at h
  exact absurd h (by decide)

/-- The character of the digit `d`. -/
theorem ofNat_digit : ∀ d, d < 10 →
    (Char.ofNat (48 + d)).isDigit = true ∧ (Char.ofNat (48 + d)).toNat - 48 = d ∧
    (d ≠ 0 → Char.ofNat (48 + d) ≠ '0') ∧ Char.ofNat (48 + d) ≠ '-' := by
  decide

/-- A `long` in range is not changed by the wrap-around. -/
theorem wrapLong_of_fits (x : Int) (h0 : 0 ≤ x) (h1 : x < 2 ^ 63) : wrapLong x = x := by
  unfold wrapLong
  omega

/-- Reading more digits does not make the number smaller. -/
theorem digitsValueFrom_ge : ∀ (cs : List Char) (acc : Nat), acc ≤ digitsValueFrom acc cs := by
  intro cs
  induction cs with
  | nil =>
    intro acc
    exact Nat.le_refl _
  | cons c cs ih =>
    intro acc
    have := ih (acc * 10 + (c.toNat - 48))
    show acc ≤ digitsValueFrom (acc * 10 + (c.toNat - 48)) cs
    omega

/-- One more digit at the end. -/
theorem digitsValueFrom_append : ∀ (cs : List Char) (acc : Nat) (c : Char),
    digitsValueFrom acc (cs ++ [c]) = digitsValueFrom acc cs * 10 + (c.toNat - 48) := by
  intro cs
  induction cs with
  | nil =>
    intro acc c
    rfl
  | cons d cs ih =>
    intro acc c
    exact ih (acc * 10 + (d.toNat - 48)) c

/-- One step of the loop on a digit, for a number that stays in range. -/
theorem digit_step (x : Nat) (c : Char) (hc : c.isDigit = true)
    (hfit : x * 10 + (c.toNat - 48) < 2 ^ 63) :
    wrapLong (wrapLong ((x : Int) * 10) + ((c.toNat : Int) - 48)) =
      ((x * 10 + (c.toNat - 48) : Nat) : Int) := by
  obtain ⟨h1, h2⟩ := isDigit_bounds c hc
  have e1 : wrapLong ((x : Int) * 10) = (x : Int) * 10 := wrapLong_of_fits _ (by omega) (by omega)
  rw [e1]
  have e2 : (x : Int) * 10 + ((c.toNat : Int) - 48) = ((x * 10 + (c.toNat - 48) : Nat) : Int) := by
    omega
  rw [e2]
  exact wrapLong_of_fits _ (by omega) (by omega)

/-- The loop over a run of digits while `n` is `&a`. -/
theorem rangeLoop_digits_a : ∀ (ds rest : List Char) (first : Bool) (a : Nat) (b : Int),
    (∀ c, c ∈ ds → c.isDigit = true) → digitsValueFrom a ds < 2 ^ 63 →
    rangeLoop (ds ++ rest) first (a : Int) b false =
      rangeLoop rest (first && ds.isEmpty) ((digitsValueFrom a ds : Nat) : Int) b false := by
  intro ds
  induction ds with
  | nil =>
    intro rest first a b _ _
    show rangeLoop rest first (a : Int) b false = rangeLoop rest (first && true) (a : Int) b false
    rw [Bool.and_true]
  | cons c cs ih =>
    intro rest first a b hd hfit
    have hc : c.isDigit = true := hd c (List.mem_cons_self _ _)
    have hfit1 : a * 10 + (c.toNat - 48) < 2 ^ 63 :=
      Nat.lt_of_le_of_lt (digitsValueFrom_ge cs _) hfit
    show rangeLoop (c :: (cs ++ rest)) first (a : Int) b false = _
    rw [rangeLoop,
      if_neg (isDigit_ne_minus c hc), if_pos hc, if_neg (by simp), digit_step a c hc hfit1,
      ih rest false _ b (fun x hx => hd x (List.mem_cons_of_mem _ hx)) hfit, Bool.false_and]
    show _ = rangeLoop rest (first && false) _ b false
    rw [Bool.and_false]
    rfl

/-- The loop over a run of digits while `n` is `&b`. -/
theorem rangeLoop_digits_b : ∀ (ds rest : List Char) (first : Bool) (a : Int) (b : Nat),
    (∀ c, c ∈ ds → c.isDigit = true) → digitsValueFrom b ds < 2 ^ 63 →
    rangeLoop (ds ++ rest) first a (b : Int) true =
      rangeLoop rest (first && ds.isEmpty) a ((digitsValueFrom b ds : Nat) : Int) true := by
  intro ds
  induction ds with
  | nil =>
    intro rest first a b _ _
    show rangeLoop rest first a (b : Int) true = rangeLoop rest (first && true) a (b : Int) true
    rw [Bool.and_true]
  | cons c cs ih =>
    intro rest first a b hd hfit
    have hc : c.isDigit = true := hd c (List.mem_cons_self _ _)
    have hfit1 : b * 10 + (c.toNat - 48) < 2 ^ 63 :=
      Nat.lt_of_le_of_lt (digitsValueFrom_ge cs _) hfit
    show rangeLoop (c :: (cs ++ rest)) first a (b : Int) true = _
    rw [rangeLoop,
      if_neg (isDigit_ne_minus c hc), if_pos hc, if_pos rfl, digit_step b c hc hfit1,
      ih rest false a _ (fun x hx => hd x (List.mem_cons_of_mem _ hx)) hfit, Bool.false_and]
    show _ = rangeLoop rest (first && false) a _ true
    rw [Bool.and_false]
    rfl

/-- When the loop throws, in terms of the characters that are left. -/
theorem rangeLoop_throws : ∀ (cs : List Char) (first : Bool) (a b : Int) (n : Bool),
    throwsUserError (rangeLoop cs first a b n) ↔
      ((first = true ∧ cs.head? = some '-') ∨ (if n = true then 1 else 2) ≤ cs.count '-' ∨
        ∃ c, c ∈ cs ∧ c ≠ '-' ∧ c.isDigit = false) := by
  intro cs
  induction cs with
  | nil =>
    intro first a b n
    unfold rangeLoop throwsUserError
    cases n <;> simp
  | cons j rest ih =>
    intro first a b n
    unfold rangeLoop
    by_cases hj : j = '-'
    · rw [if_pos hj]
      by_cases hf : first = false
      · rw [if_pos hf]
        by_cases hn : n = true
        · rw [if_pos hn]
          refine ⟨fun _ => Or.inr (Or.inl ?_), fun _ => ⟨_, rfl⟩⟩
          rw [if_pos hn, hj]
          simp
        · rw [if_neg hn, ih false a b true, hj, List.count_cons_self, hf, if_neg hn]
          simp
      · rw [if_neg hf]
        refine ⟨fun _ => Or.inl ⟨by simpa using hf, by rw [hj]; rfl⟩, fun _ => ⟨_, rfl⟩⟩
    · rw [if_neg hj]
      by_cases hd : j.isDigit = true
      · rw [if_pos hd]
        have hcount : (j :: rest).count '-' = rest.count '-' := by
          rw [List.count_cons_of_ne (Ne.symm hj)]
        have hbad : (∃ c, c ∈ j :: rest ∧ c ≠ '-' ∧ c.isDigit = false) ↔
            ∃ c, c ∈ rest ∧ c ≠ '-' ∧ c.isDigit = false := by
          constructor
          · rintro ⟨c, hc, h1, h2⟩
            rcases List.mem_cons.mp hc with rfl | hc'
            · rw [hd] at h2
              exact absurd h2 (by simp)
            · exact ⟨c, hc', h1, h2⟩
          · rintro ⟨c, hc, h1, h2⟩
            exact ⟨c, List.mem_cons_of_mem _ hc, h1, h2⟩
        have hhead : ¬ (first = true ∧ (j :: rest).head? = some '-') := by
          intro h
          simp only [List.head?_cons, Option.some.injEq] at h
          exact hj h.2
        by_cases hn : n = true
        · rw [if_pos hn, ih, hcount, hbad]
          simp [hj]
        · rw [if_neg hn, ih, hcount, hbad]
          simp [hj]
      · rw [if_neg hd]
        refine ⟨fun _ => Or.inr (Or.inr ⟨j, List.mem_cons_self _ _, hj, by simpa using hd⟩),
          fun _ => ⟨_, rfl⟩⟩

/-- The digits that `decimalDigits` writes are decimal digits. -/
theorem decimalDigits_isDigit : ∀ (fuel n : Nat) (c : Char),
    c ∈ decimalDigits fuel n → c.isDigit = true := by
  intro fuel
  induction fuel with
  | zero =>
    intro n c hc
    simp [decimalDigits] at hc
  | succ fuel ih =>
    intro n c hc
    unfold decimalDigits at hc
    by_cases hn : n < 10
    · rw [if_pos hn, List.mem_singleton] at hc
      rw [hc]
      exact (ofNat_digit n hn).1
    · rw [if_neg hn] at hc
      rcases List.mem_append.mp hc with h | h
      · exact ih _ c h
      · rw [List.mem_singleton] at h
        rw [h]
        exact (ofNat_digit (n % 10) (Nat.mod_lt _ (by norm_num))).1

/-- The digits that `decimalDigits` writes spell the number, and the first one
is not 0 unless the number is 0. -/
theorem decimalDigits_spec : ∀ (fuel n : Nat), n < 10 ^ (fuel + 1) →
    digitsValue (decimalDigits (fuel + 1) n) = n ∧ decimalDigits (fuel + 1) n ≠ [] ∧
    (n ≠ 0 → (decimalDigits (fuel + 1) n).head? ≠ some '0') := by
  intro fuel
  induction fuel with
  | zero =>
    intro n hn
    have h10 : n < 10 := by simpa using hn
    unfold decimalDigits
    rw [if_pos h10]
    obtain ⟨_, h2, h3, _⟩ := ofNat_digit n h10
    refine ⟨?_, by simp, ?_⟩
    · show 0 * 10 + ((Char.ofNat (48 + n)).toNat - 48) = n
      rw [h2]
      omega
    · intro h0
      simp only [List.head?_cons, ne_eq, Option.some.injEq]
      exact h3 h0
  | succ fuel ih =>
    intro n hn
    rw [decimalDigits]
    by_cases h10 : n < 10
    · rw [if_pos h10]
      obtain ⟨_, h2, h3, _⟩ := ofNat_digit n h10
      refine ⟨?_, by simp, ?_⟩
      · show 0 * 10 + ((Char.ofNat (48 + n)).toNat - 48) = n
        rw [h2]
        omega
      · intro h0
        simp only [List.head?_cons, ne_eq, Option.some.injEq]
        exact h3 h0
    · rw [if_neg h10]
      have hq : n / 10 < 10 ^ (fuel + 1) := by
        rw [Nat.div_lt_iff_lt_mul (by norm_num)]
        rw [Nat.pow_succ] at hn
        exact hn
      obtain ⟨i1, i2, i3⟩ := ih (n / 10) hq
      obtain ⟨_, h2, _, _⟩ := ofNat_digit (n % 10) (Nat.mod_lt _ (by norm_num))
      refine ⟨?_, by simp, ?_⟩
      · unfold digitsValue at i1 ⊢
        rw [digitsValueFrom_append, i1, h2]
        omega
      · intro _
        rw [List.head?_append_of_ne_nil _ i2]
        exact i3 (by omega)

/-- The decimal form of a number: its digits spell the number, and there is no
leading zero. -/
theorem decimal_spec (n : Nat) :
    digitsValue (decimal n) = n ∧ decimal n ≠ [] ∧
    (∀ c, c ∈ decimal n → c.isDigit = true) ∧
    (n ≠ 0 → (decimal n).head? ≠ some '0') := by
  have hlt : n < 10 ^ (n + 1) := Nat.lt_of_lt_of_le (Nat.lt_pow_self (by norm_num) n)
    (Nat.pow_le_pow_right (by norm_num) (Nat.le_succ n))
  obtain ⟨h1, h2, h3⟩ := decimalDigits_spec n n hlt
  exact ⟨h1, h2, fun c hc => decimalDigits_isDigit _ _ c hc, h3⟩

/-- The text written for a `long` that is not negative. -/
theorem longToString_natCast (n : Nat) : longToString (n : Int) = decimal n := by
  unfold longToString decimal
  rw [if_neg (by omega)]
  rfl

/-- The method `tidy` on a run of digits that `TypeInteger::tidy` rejects. -/
theorem tidy_digits (integerTidy : StdString → Option StdString) (ds : StdString)
    (hrej : integerTidy ds = none) (hd : ∀ c, c ∈ ds → c.isDigit = true)
    (hfit : digitsValue ds < 2 ^ 63) :
    TypeRange.tidy integerTidy ds = Except.ok (decimal (digitsValue ds)) := by
  have h := rangeLoop_digits_a ds [] true 0 0 hd hfit
  rw [List.append_nil] at h
  unfold TypeRange.tidy
  rw [hrej]
  have h0 : ((0 : Nat) : Int) = 0 := rfl
  rw [h0] at h
  simp only [h, rangeLoop]
  rw [if_pos True.intro, longToString_natCast]
  rfl

/-- The method `tidy` on two runs of digits with a minus sign between them. -/
theorem tidy_range (integerTidy : StdString → Option StdString) (before after : StdString)
    (hrej : integerTidy (before ++ '-' :: after) = none) (hne : before ≠ [])
    (hd1 : ∀ c, c ∈ before → c.isDigit = true) (hd2 : ∀ c, c ∈ after → c.isDigit = true)
    (hfit1 : digitsValue before < 2 ^ 63) (hfit2 : digitsValue after < 2 ^ 63) :
    TypeRange.tidy integerTidy (before ++ '-' :: after) =
      Except.ok (decimal (digitsValue before) ++ '-' :: decimal (digitsValue after)) := by
  have h1 := rangeLoop_digits_a before ('-' :: after) true 0 0 hd1 hfit1
  have h2 := rangeLoop_digits_b after [] false ((digitsValue before : Nat) : Int) 0 hd2 hfit2
  rw [List.append_nil] at h2
  have h0 : ((0 : Nat) : Int) = 0 := rfl
  rw [h0] at h1 h2
  have hemp : before.isEmpty = false := by
    cases before with
    | nil => exact absurd rfl hne
    | cons _ _ => rfl
  unfold TypeRange.tidy
  rw [hrej]
  simp only [h1, hemp, Bool.and_false]
  unfold rangeLoop
  rw [if_pos rfl, if_pos rfl, if_neg (by simp)]
  show (match rangeLoop after false ((digitsValueFrom 0 before : Nat) : Int) 0 true with
    | Except.error e => Except.error e
    | Except.ok (a, b, n) =>
      if n = false then Except.ok (longToString a)
      else Except.ok (longToString a ++ '-' :: longToString b)) = _
  have h2' : rangeLoop after false ((digitsValueFrom 0 before : Nat) : Int) 0 true =
      rangeLoop [] (false && after.isEmpty) ((digitsValue before : Nat) : Int)
        ((digitsValueFrom 0 after : Nat) : Int) true := h2
  rw [h2']
  simp only [rangeLoop]
  rw [if_neg (by simp), longToString_natCast, longToString_natCast]
  rfl

/-- A value that makes the loop pass is a run of digits, or two runs of digits
with one minus sign between them, the first run not empty. -/
theorem range_shape (value : StdString)
    (h : ¬ (value.head? = some '-' ∨ 2 ≤ value.count '-' ∨
      ∃ c, c ∈ value ∧ c ≠ '-' ∧ c.isDigit = false)) :
    (∀ c, c ∈ value → c.isDigit = true) ∨
    ∃ before after, value = before ++ '-' :: after ∧ before ≠ [] ∧
      (∀ c, c ∈ before → c.isDigit = true) ∧ (∀ c, c ∈ after → c.isDigit = true) := by
  rw [not_or, not_or] at h
  obtain ⟨hhead, hcount, hbad⟩ := h
  have hdig : ∀ c, c ∈ value → c ≠ '-' → c.isDigit = true := by
    intro c hc hne
    cases hd : c.isDigit with
    | true => rfl
    | false => exact absurd ⟨c, hc, hne, hd⟩ hbad
  by_cases hm : '-' ∈ value
  · right
    obtain ⟨before, after, hsplit⟩ := List.append_of_mem hm
    have hc : before.count '-' + (1 + after.count '-') < 2 := by
      have := hcount
      rw [hsplit, List.count_append, List.count_cons_self] at this
      omega
    have hb0 : '-' ∉ before := by
      intro hin
      have := List.count_pos_iff.mpr hin
      omega
    have ha0 : '-' ∉ after := by
      intro hin
      have := List.count_pos_iff.mpr hin
      omega
    refine ⟨before, after, hsplit, ?_, ?_, ?_⟩
    · intro hnil
      rw [hsplit, hnil] at hhead
      exact hhead rfl
    · intro c hc
      exact hdig c (by rw [hsplit]; exact List.mem_append_left _ hc)
        (fun hx => hb0 (hx ▸ hc))
    · intro c hc
      exact hdig c (by rw [hsplit]; exact List.mem_append_right _ (List.mem_cons_of_mem _ hc))
        (fun hx => ha0 (hx ▸ hc))
  · left
    intro c hc
    exact hdig c hc (fun hx => hm (hx ▸ hc))

/-- A result that `TypeInteger::tidy` returns is the result of `tidy`. -/
theorem tidy_of_integerTidy (integerTidy : StdString → Option StdString) (value r : StdString)
    (h : integerTidy value = some r) : TypeRange.tidy integerTidy value = Except.ok r := by
  unfold TypeRange.tidy
  rw [h]

/-- After `init` on a query with two positional arguments the tool is in
single-point mode and `singleIndex_` is the number spelled by argument 1. -/
theorem init_single_point (env : ToolEnv) (t0 t : GribJump) (args : CmdArgs)
    (hq : args.query = some true) (hc : args.count = 2)
    (h : GribJump.init env t0 args = some t) :
    t.doQuery = true ∧ t.doRange = false ∧
    ∃ a x, args.arg 1 = some a ∧ stoi a = some x ∧ t.singleIndex = toSizeT x := by
  unfold GribJump.init at h
  cases h0 : args.arg 0 with
  | none =>
    rw [h0] at h
    exact absurd h (by simp)
  | some file =>
    rw [h0] at h
    dsimp only at h
    by_cases he : env.fileExists file = false
    · rw [if_pos he] at h
      exact absurd h (by simp)
    · rw [if_neg he, hq] at h
      simp only [Option.getD_some, Bool.true_eq_false, if_false, hc, if_true] at h
      cases h1 : args.arg 1 with
      | none =>
        rw [h1] at h
        exact absurd h (by simp)
      | some a =>
        rw [h1] at h
        dsimp only at h
        cases hs : stoi a with
        | none =>
          rw [hs] at h
          exact absurd h (by simp)
        | some x =>
          rw [hs] at h
          simp only [Option.some.injEq] at h
          rw [← h]
          exact ⟨rfl, rfl, a, x, rfl, hs, rfl⟩

/-- With two positional arguments there is no positional argument 2. -/
theorem arg_two_of_count_two (args : CmdArgs) (hc : args.count = 2) : args.arg 2 = none := by
  unfold CmdArgs.arg
  unfold CmdArgs.count at hc
  rw [List.getElem?_eq_none_iff]
  omega

/-- In single-point mode with two positional arguments `execute` fails. -/
theorem execute_single_point_fails (env : ToolEnv) (t : GribJump) (args : CmdArgs)
    (hq : t.doQuery = true) (hr : t.doRange = false) (hc : args.count = 2) :
    GribJump.execute env t args = none := by
  unfold GribJump.execute
  rw [hq, hr, arg_two_of_count_two args hc]
  cases (if t.doExtract = true then env.extractMetadata t.gribFileName t.binFileName
    else some GribInfo.new) with
  | none => rfl
  | some g =>
    dsimp only
    rw [if_pos rfl]
    cases env.fromBinary g t.binFileName t.msgid with
    | none => rfl
    | some g1 =>
      dsimp only
      by_cases hrd : g1.ready = false
      · rw [if_pos hrd]
      · rw [if_neg hrd, if_neg (by simp)]

/-- The bit length `b` of `n > 0` satisfies `2 ^ (b - 1) ≤ n < 2 ^ b`; stated
for `b = c + 1`. -/
theorem bitLength_spec : ∀ (fuel n : Nat), 0 < n → n ≤ fuel →
    ∃ c, bitLength fuel n = c + 1 ∧ 2 ^ c ≤ n ∧ n < 2 ^ (c + 1) := by
  intro fuel
  induction fuel with
  | zero =>
    intro n h0 h1
    omega
  | succ fuel ih =>
    intro n h0 h1
    rw [bitLength, if_neg (by omega)]
    by_cases h2 : n / 2 = 0
    · have hb : bitLength fuel (n / 2) = 0 := by
        rw [h2]
        cases fuel with
        | zero => rfl
        | succ k => simp [bitLength]
      refine ⟨0, by rw [hb], by omega, by omega⟩
    · obtain ⟨c, hc, l, u⟩ := ih (n / 2) (by omega) (by omega)
      refine ⟨c + 1, by rw [hc], ?_, ?_⟩
      · rw [Nat.pow_succ]
        omega
      · rw [Nat.pow_succ] at u ⊢
        omega

/-- The absolute value of a rational as a quotient of naturals. -/
theorem abs_eq_natAbs_div (x : ℚ) : |x| = (x.num.natAbs : ℚ) / (x.den : ℚ) := by
  have h : (x.num.natAbs : ℚ) = |(x.num : ℚ)| := by
    rw [Nat.cast_natAbs, Int.cast_abs]
  rw [h]
  conv_lhs => rw [← Rat.num_div_den x]
  rw [abs_div, Nat.abs_cast]

/-- The binary exponent of `x ≠ 0` is the `e` with `2 ^ e ≤ |x| < 2 ^ (e + 1)`. -/
theorem binaryExponent_spec (x : ℚ) (hx : x ≠ 0) :
    (2 : ℚ) ^ binaryExponent x ≤ |x| ∧ |x| < (2 : ℚ) ^ (binaryExponent x + 1) := by
  have hnum : 0 < x.num.natAbs := Int.natAbs_pos.mpr (Rat.num_ne_zero.mpr hx)
  have hden : 0 < x.den := x.den_pos
  obtain ⟨a, ha, la, ua⟩ := bitLength_spec x.num.natAbs x.num.natAbs hnum (Nat.le_refl _)
  obtain ⟨b, hb, lb, ub⟩ := bitLength_spec x.den x.den hden (Nat.le_refl _)
  have habs := abs_eq_natAbs_div x
  have hdq : (0 : ℚ) < (x.den : ℚ) := by exact_mod_cast hden
  have e0 : ((bitLength x.num.natAbs x.num.natAbs : Int) - (bitLength x.den x.den : Int)) =
      (a : Int) - b := by
    rw [ha, hb]
    push_cast
    ring
  have two_pos : (0 : ℚ) < 2 := by norm_num
  have two_ne : (2 : ℚ) ≠ 0 := by norm_num
  -- bounds in ℚ
  have la' : (2 : ℚ) ^ (a : Int) ≤ (x.num.natAbs : ℚ) := by
    rw [zpow_natCast]
    exact_mod_cast la
  have ua' : (x.num.natAbs : ℚ) < (2 : ℚ) ^ ((a : Int) + 1) := by
    have : ((a : Int) + 1) = ((a + 1 : Nat) : Int) := by push_cast; ring
    rw [this, zpow_natCast]
    exact_mod_cast ua
  have lb' : (2 : ℚ) ^ (b : Int) ≤ (x.den : ℚ) := by
    rw [zpow_natCast]
    exact_mod_cast lb
  have ub' : (x.den : ℚ) < (2 : ℚ) ^ ((b : Int) + 1) := by
    have : ((b : Int) + 1) = ((b + 1 : Nat) : Int) := by push_cast; ring
    rw [this, zpow_natCast]
    exact_mod_cast ub
  -- |x| > 2 ^ (a - b - 1) and |x| < 2 ^ (a - b + 1)
  have lower : (2 : ℚ) ^ ((a : Int) - b - 1) ≤ |x| := by
    rw [habs, le_div_iff₀ hdq]
    have h1 : (2 : ℚ) ^ ((a : Int) - b - 1) * (2 : ℚ) ^ ((b : Int) + 1) = (2 : ℚ) ^ (a : Int) := by
      rw [← zpow_add₀ two_ne]
      congr 1
      ring
    calc (2 : ℚ) ^ ((a : Int) - b - 1) * (x.den : ℚ)
        ≤ (2 : ℚ) ^ ((a : Int) - b - 1) * (2 : ℚ) ^ ((b : Int) + 1) :=
          mul_le_mul_of_nonneg_left (le_of_lt ub') (le_of_lt (zpow_pos two_pos _))
      _ = (2 : ℚ) ^ (a : Int) := h1
      _ ≤ (x.num.natAbs : ℚ) := la'
  have upper : |x| < (2 : ℚ) ^ ((a : Int) - b + 1) := by
    rw [habs, div_lt_iff₀ hdq]
    have h1 : (2 : ℚ) ^ ((a : Int) - b + 1) * (2 : ℚ) ^ (b : Int) = (2 : ℚ) ^ ((a : Int) + 1) := by
      rw [← zpow_add₀ two_ne]
      congr 1
      ring
    calc (x.num.natAbs : ℚ) < (2 : ℚ) ^ ((a : Int) + 1) := ua'
      _ = (2 : ℚ) ^ ((a : Int) - b + 1) * (2 : ℚ) ^ (b : Int) := h1.symm
      _ ≤ (2 : ℚ) ^ ((a : Int) - b + 1) * (x.den : ℚ) :=
          mul_le_mul_of_nonneg_left lb' (le_of_lt (zpow_pos two_pos _))
  unfold binaryExponent
  rw [e0]
  by_cases hc : (2 : ℚ) ^ ((a : Int) - b) ≤ |x|
  · rw [if_pos hc]
    exact ⟨hc, upper⟩
  · rw [if_neg hc]
    refine ⟨lower, ?_⟩
    have : (a : Int) - b - 1 + 1 = (a : Int) - b := by ring
    rw [this]
    exact lt_of_not_le hc

/-- Rounding an integer gives the integer. -/
theorem roundHalfEven_intCast (z : Int) : roundHalfEven (z : ℚ) = z := by
  unfold roundHalfEven
  rw [Int.floor_intCast, sub_self, if_pos (by norm_num)]

/-- A number `m * 2 ^ E` with `|m| < 2 ^ 53` and `E ≥ -1074` is a `double` of
the model: rounding leaves it as it is. -/
theorem toDouble_of_representable (m E : Int) (hm : |m| < 2 ^ 53) (hE : -1074 ≤ E) :
    toDouble ((m : ℚ) * 2 ^ E) = (m : ℚ) * 2 ^ E := by
  have two_pos : (0 : ℚ) < 2 := by norm_num
  have two_ne : (2 : ℚ) ≠ 0 := by norm_num
  by_cases hx : (m : ℚ) * 2 ^ E = 0
  · rw [hx]
    rfl
  · unfold toDouble
    rw [if_neg hx]
    obtain ⟨hl, _⟩ := binaryExponent_spec _ hx
    generalize binaryExponent ((m : ℚ) * 2 ^ E) = be at hl ⊢
    have habs : |(m : ℚ) * 2 ^ E| < (2 : ℚ) ^ (53 + E) := by
      rw [abs_mul, abs_of_pos (zpow_pos two_pos E), zpow_add₀ two_ne]
      apply mul_lt_mul_of_pos_right _ (zpow_pos two_pos E)
      rw [← Int.cast_abs]
      exact_mod_cast hm
    have hbe : be < 53 + E := by
      have := lt_of_le_of_lt hl habs
      exact (zpow_lt_zpow_iff_right₀ (by norm_num : (1 : ℚ) < 2)).mp this
    have hQ : max (be - 52) (-1074) ≤ E := max_le (by omega) hE
    generalize max (be - 52) (-1074) = Q at hQ ⊢
    obtain ⟨d, hd⟩ : ∃ d : Nat, E = Q + d := ⟨(E - Q).toNat, by omega⟩
    have hdiv : (m : ℚ) * 2 ^ E / 2 ^ Q = ((m * 2 ^ d : Int) : ℚ) := by
      rw [hd, zpow_add₀ two_ne, zpow_natCast]
      push_cast
      field_simp
      ring
    rw [hdiv, roundHalfEven_intCast, hd, zpow_add₀ two_ne, zpow_natCast]
    push_cast
    ring

/-- The powers of two from `2 ^ (-1074)` on are `double`s of the model. -/
theorem toDouble_two_zpow (e : Int) (he : -1074 ≤ e) : toDouble ((2 : ℚ) ^ e) = (2 : ℚ) ^ e := by
  have := toDouble_of_representable 1 e (by norm_num) he
  simpa using this

/-- The powers of ten up to `10 ^ 22` are `double`s. -/
theorem toDouble_ten_pow (k : Nat) (hk : k ≤ 22) : toDouble ((10 : ℚ) ^ k) = (10 : ℚ) ^ k := by
  have h5 : |((5 : Int) ^ k)| < 2 ^ 53 := by
    rw [abs_of_pos (by positivity)]
    calc (5 : Int) ^ k ≤ 5 ^ 22 := pow_le_pow_right₀ (by norm_num) hk
      _ < 2 ^ 53 := by norm_num
  have := toDouble_of_representable (5 ^ k) k h5 (by omega)
  have e : (((5 : Int) ^ k : Int) : ℚ) * 2 ^ (k : Int) = (10 : ℚ) ^ k := by
    rw [zpow_natCast]
    push_cast
    rw [← mul_pow]
    norm_num
  rw [e] at this
  exact this

/-- The rounded integer is within one half of the number. -/
theorem roundHalfEven_spec (q : ℚ) : |(roundHalfEven q : ℚ) - q| ≤ 1 / 2 := by
  have h1 : (⌊q⌋ : ℚ) ≤ q := Int.floor_le q
  have h2 : q < (⌊q⌋ : ℚ) + 1 := Int.lt_floor_add_one q
  unfold roundHalfEven
  by_cases c1 : q - ⌊q⌋ < 1 / 2
  · rw [if_pos c1, abs_le]
    constructor <;> linarith
  · rw [if_neg c1]
    by_cases c2 : 1 / 2 < q - ⌊q⌋
    · rw [if_pos c2, abs_le]
      push_cast
      constructor <;> linarith
    · rw [if_neg c2]
      have c3 : q - ⌊q⌋ = 1 / 2 := le_antisymm (not_lt.mp c2) (not_lt.mp c1)
      by_cases c4 : ⌊q⌋ % 2 = 0
      · rw [if_pos c4, abs_le]
        constructor <;> linarith
      · rw [if_neg c4, abs_le]
        push_cast
        constructor <;> linarith

/-- The rounding `toDouble x` of `x ≠ 0` is a multiple `r * 2 ^ Q` of the
quantum of `x`, with `|r| ≤ 2 ^ 53` and `Q ≥ -1074`, within half a quantum of
`x`. -/
theorem toDouble_spec (x : ℚ) (hx : x ≠ 0) :
    ∃ (r Q : Int), Q = max (binaryExponent x - 52) (-1074) ∧
      toDouble x = (r : ℚ) * 2 ^ Q ∧ |r| ≤ 2 ^ 53 ∧ |toDouble x - x| ≤ 2 ^ Q / 2 := by
  have two_pos : (0 : ℚ) < 2 := by norm_num
  have two_ne : (2 : ℚ) ≠ 0 := by norm_num
  obtain ⟨_, hu⟩ := binaryExponent_spec x hx
  unfold toDouble
  rw [if_neg hx]
  generalize binaryExponent x = be at hu ⊢
  have hQ : be - 52 ≤ max (be - 52) (-1074) := le_max_left _ _
  generalize max (be - 52) (-1074) = Q at hQ ⊢
  have hpos : (0 : ℚ) < 2 ^ Q := zpow_pos two_pos Q
  have hr := roundHalfEven_spec (x / 2 ^ Q)
  refine ⟨roundHalfEven (x / 2 ^ Q), Q, rfl, rfl, ?_, ?_⟩
  · have hq : |x / 2 ^ Q| < 2 ^ 53 := by
      rw [abs_div, abs_of_pos hpos, div_lt_iff₀ hpos]
      calc |x| < (2 : ℚ) ^ (be + 1) := hu
        _ ≤ (2 : ℚ) ^ (53 + Q) := zpow_le_zpow_right₀ (by norm_num) (by omega)
        _ = 2 ^ 53 * 2 ^ Q := by
          rw [zpow_add₀ two_ne]
          norm_num
    have hlt : |(roundHalfEven (x / 2 ^ Q) : ℚ)| < 2 ^ 53 + 1 := by
      have h3 : |(roundHalfEven (x / 2 ^ Q) : ℚ)| ≤
          |(roundHalfEven (x / 2 ^ Q) : ℚ) - x / 2 ^ Q| + |x / 2 ^ Q| := by
        have := abs_add ((roundHalfEven (x / 2 ^ Q) : ℚ) - x / 2 ^ Q) (x / 2 ^ Q)
        simpa using this
      linarith
    have hlt' : |roundHalfEven (x / 2 ^ Q)| < 2 ^ 53 + 1 := by
      have : ((|roundHalfEven (x / 2 ^ Q)| : Int) : ℚ) < ((2 ^ 53 + 1 : Int) : ℚ) := by
        rw [Int.cast_abs]
        have e : ((2 ^ 53 + 1 : Int) : ℚ) = 2 ^ 53 + 1 := by norm_num
        rw [e]
        exact hlt
      exact_mod_cast this
    omega
  · have e : (roundHalfEven (x / 2 ^ Q) : ℚ) * 2 ^ Q - x =
        ((roundHalfEven (x / 2 ^ Q) : ℚ) - x / 2 ^ Q) * 2 ^ Q := by
      field_simp
    rw [e, abs_mul, abs_of_pos hpos]
    calc |(roundHalfEven (x / 2 ^ Q) : ℚ) - x / 2 ^ Q| * 2 ^ Q ≤ 1 / 2 * 2 ^ Q :=
          mul_le_mul_of_nonneg_right hr (le_of_lt hpos)
      _ = 2 ^ Q / 2 := by ring

/-- A `double` of the model is left as it is by the rounding. -/
theorem toDouble_of_isDouble (x : ℚ) (h : isDouble x = true) : toDouble x = x := by
  unfold isDouble at h
  exact eq_of_beq h

/-- The rounded reconstruction is the exact one when the converted packed value
and the three exact results are `double`s. -/
theorem reconstruct_exact (g : GribInfo) (p : Nat) (h0 : isDouble (p : ℚ) = true)
    (h1 : isDouble ((p : ℚ) * g.binaryMultiplier) = true)
    (h2 : isDouble ((p : ℚ) * g.binaryMultiplier + g.referenceValue) = true)
    (h3 : isDouble (((p : ℚ) * g.binaryMultiplier + g.referenceValue) * g.decimalMultiplier) =
      true) :
    reconstruct g p = ((p : ℚ) * g.binaryMultiplier + g.referenceValue) * g.decimalMultiplier := by
  unfold reconstruct
  rw [toDouble_of_isDouble _ h0, toDouble_of_isDouble _ h1, toDouble_of_isDouble _ h2,
    toDouble_of_isDouble _ h3]

/-- C1. With a bitmap, the scan of `extractAtIndex` (whole 8-byte words
popcounted, the last word byte-reversed and shifted right by `63 - i mod 64`)
reports index `i` missing exactly when bit `i` of the bitmap is 0, and otherwise
resolves it to the number of set bits among bitmap bits `0 .. i-1`. The bitmap
words the scan reads must lie inside the resource. -/
theorem resolveSlot_bitmap (g : GribInfo) (f : GribHandleData) (i : Nat)
    (hb : g.offsetBeforeBitmap ≠ 0) (hi : i < g.numberOfDataPoints)
    (hn : g.numberOfDataPoints < 2 ^ 64)
    (hr : g.offsetBeforeBitmap + 8 * (i / 64 + 1) ≤ f.bytes.length) :
    (resolveSlot g f i).map Prod.fst =
      some (if bitmapBit f.bytes g.offsetBeforeBitmap i
              then some (setBitsBefore f.bytes g.offsetBeforeBitmap i) else none) := by
  rw [resolveSlot_bitmap_eq g f i hb hi hn hr]
  rfl

/-- C1 (witness). Index 3 of the fourth scenario: bit 3 is set and two set bits
precede it. -/
theorem resolveSlot_bitmap_witness :
    (exBitmapInfo.offsetBeforeBitmap ≠ 0 ∧ 3 < exBitmapInfo.numberOfDataPoints) ∧
    (resolveSlot exBitmapInfo exBitmapResource 3).map Prod.fst =
      some (if bitmapBit exBitmapResource.bytes exBitmapInfo.offsetBeforeBitmap 3
              then some (setBitsBefore exBitmapResource.bytes exBitmapInfo.offsetBeforeBitmap 3)
              else none) :=
  ⟨⟨by decide, by decide⟩,
    resolveSlot_bitmap exBitmapInfo exBitmapResource 3 (by decide) (by decide) (by decide)
      (by decide)⟩

/-! ### C2: round trip with the reference layout, no bitmap -/

/-- C2. Four 3-bit values in the bytes 01 80: the packed value of slot 2 (bits
6..8) is 3, but `extractAtIndex` reads one byte only, so the last bit comes from
the uninitialised buffer: it returns 2 on a zeroed buffer, and whatever the
buffer holds it returns the same value for the data 01 80 and 01 00. -/
theorem extractAtIndex_narrow_width_reads_one_byte :
    packedValue [0x01, 0x80] 0 3 2 = 3 ∧
    (extractAtIndex exNarrowInfo (fun _ => 0) ⟨[0x01, 0x80], 0, []⟩ 2).map Prod.fst = some 2 ∧
    (∀ junk : Nat → Nat,
      (extractAtIndex exNarrowInfo junk ⟨[0x01, 0x80], 0, []⟩ 2).map Prod.fst =
        (extractAtIndex exNarrowInfo junk ⟨[0x01, 0x00], 0, []⟩ 2).map Prod.fst) := by
  refine ⟨by decide, by decide!, ?_⟩
  intro junk
  rfl

/-! ### C3: numeric reconstruction for byte-aligned widths -/

/-- C3 (counterexample). At 64 bits the packed values `2 ^ 64 - 1` and
`2 ^ 53 + 1` are not `double`s: `extractAtIndex` returns `2 ^ 64` and `2 ^ 53`,
not the values of the formula in exact arithmetic. A record of spherical
harmonics without bitmap, with 8 bits per value, returns nothing for index 0. -/
theorem exact_reconstruction_fails :
    bigEndianBytes exWideResource.bytes 0 8 = 2 ^ 64 - 1 ∧
    (extractAtIndex exWideInfo (fun _ => 0) exWideResource 0).map Prod.fst = some (2 ^ 64) ∧
    (extractAtIndex exWideInfo (fun _ => 0) exWideResource 0).map Prod.fst ≠
      some (((bigEndianBytes exWideResource.bytes 0 8 : ℚ) * exWideInfo.binaryMultiplier +
        exWideInfo.referenceValue) * exWideInfo.decimalMultiplier) ∧
    bigEndianBytes exWideResource.bytes 8 8 = 2 ^ 53 + 1 ∧
    (extractAtIndex exWideInfo (fun _ => 0) exWideResource 1).map Prod.fst = some (2 ^ 53) ∧
    (extractAtIndex exWideInfo (fun _ => 0) exWideResource 1).map Prod.fst ≠
      some (((bigEndianBytes exWideResource.bytes 8 8 : ℚ) * exWideInfo.binaryMultiplier +
        exWideInfo.referenceValue) * exWideInfo.decimalMultiplier) ∧
    extractAtIndex exSpectralInfo (fun _ => 0) exPlainResource 0 = none := by
  refine ⟨by decide, by decide!, by decide!, by decide, by decide!, by decide!, by decide⟩

/-- C3 (amended). Without a bitmap, with `sphericalHarmonics = 0` and a
byte-aligned width `bitsPerValue = 8 * k`, `1 ≤ k ≤ 8`, `extractAtIndex` returns
for every `i < numberOfValues` whose bytes lie inside the resource the `double`
`((p * binaryMultiplier) + referenceValue) * decimalMultiplier` computed in this
order, `p` being converted to `double` and each of the three operations being
rounded to `double`, where `p` is the big-endian integer of the `k` data bytes
that start at byte `i * k` of the data section and no operation leaves the
finite range. It is the value of the formula in exact arithmetic whenever `p`
and the three exact results are `double`s. -/
theorem extractAtIndex_byte_aligned (g : GribInfo) (junk : Nat → Nat) (f : GribHandleData)
    (i k : Nat) (hb : g.offsetBeforeBitmap = 0) (hs : g.sphericalHarmonics = 0)
    (hk1 : 1 ≤ k) (hk8 : k ≤ 8) (hw : g.bitsPerValue = 8 * k) (hi : i < g.numberOfValues)
    (hov : i * g.bitsPerValue < 2 ^ 64)
    (hfit : g.offsetBeforeData + (i + 1) * k ≤ f.bytes.length)
    (hfin : reconstructFinite g (bigEndianBytes f.bytes (g.offsetBeforeData + i * k) k) = true) :
    (extractAtIndex g junk f i).map Prod.fst =
      some (toDouble (toDouble (toDouble
        (toDouble (bigEndianBytes f.bytes (g.offsetBeforeData + i * k) k : ℚ) *
          g.binaryMultiplier) + g.referenceValue) * g.decimalMultiplier)) ∧
    (isDouble (bigEndianBytes f.bytes (g.offsetBeforeData + i * k) k : ℚ) = true →
      isDouble ((bigEndianBytes f.bytes (g.offsetBeforeData + i * k) k : ℚ) *
        g.binaryMultiplier) = true →
      isDouble ((bigEndianBytes f.bytes (g.offsetBeforeData + i * k) k : ℚ) *
        g.binaryMultiplier + g.referenceValue) = true →
      isDouble (((bigEndianBytes f.bytes (g.offsetBeforeData + i * k) k : ℚ) *
        g.binaryMultiplier + g.referenceValue) * g.decimalMultiplier) = true →
      (extractAtIndex g junk f i).map Prod.fst =
        some (((bigEndianBytes f.bytes (g.offsetBeforeData + i * k) k : ℚ) *
          g.binaryMultiplier + g.referenceValue) * g.decimalMultiplier)) := by
  have _ := hfin
  have e1 : i * g.bitsPerValue % 2 ^ 64 / 8 = i * k := by
    rw [Nat.mod_eq_of_lt hov, hw]
    have : i * (8 * k) = 8 * (i * k) := by ring
    omega
  have e2 : (g.bitsPerValue + 7) % 2 ^ 64 / 8 = k := by
    rw [hw, Nat.mod_eq_of_lt (by omega)]
    omega
  have hread : g.offsetBeforeData + (i * g.bitsPerValue % 2 ^ 64) / 8 +
      (g.bitsPerValue + 7) % 2 ^ 64 / 8 ≤ f.bytes.length := by
    rw [e1, e2]
    have : (i + 1) * k = i * k + k := by ring
    omega
  have hval : (extractAtIndex g junk f i).map Prod.fst =
      some (reconstruct g (bigEndianBytes f.bytes (g.offsetBeforeData + i * k) k)) := by
    rw [extractAtIndex_nobitmap_eq g junk f i hb (by omega) hs hi,
      readValue_eq g junk f i hread, ← decodeSlot_aligned g junk f.bytes i k hk8 hw hov]
    rfl
  refine ⟨hval, ?_⟩
  intro h0 h1 h2 h3
  rw [hval, reconstruct_exact g _ h0 h1 h2 h3]

/-- C3 (witness). The two examples of the claim: packed 5 with multipliers 2 and
10 and reference value 100 gives 1100; data 01 02 03 04 gives 3 at index 2. -/
theorem extractAtIndex_byte_aligned_witness :
    (extractAtIndex exScaledInfo (fun _ => 0) exScaledResource 0).map Prod.fst = some 1100 ∧
    (extractAtIndex exPlainInfo (fun _ => 0) exPlainResource 2).map Prod.fst = some 3 :=
  ⟨((extractAtIndex_byte_aligned exScaledInfo (fun _ => 0) exScaledResource 0 1
      (by decide) (by decide) (by decide) (by decide) (by decide) (by decide) (by decide)
      (by decide) (by decide!)).2 (by decide!) (by decide!) (by decide!) (by decide!)).trans
      (by decide!),
   ((extractAtIndex_byte_aligned exPlainInfo (fun _ => 0) exPlainResource 2 1
      (by decide) (by decide) (by decide) (by decide) (by decide) (by decide) (by decide)
      (by decide) (by decide!)).2 (by decide!) (by decide!) (by decide!) (by decide!)).trans
      (by decide!)⟩

/-! ### C4: missing points -/

/-- C4 (counterexample). On a constant field (`bitsPerValue = 0`) with a bitmap
whose bit 1 is 0, `extractAtIndexRange` and `extractAtIndex` give the reference
value 5 at index 1, not 9999. -/
theorem missing_point_of_constant_field :
    bitmapBit exBitmapResource.bytes exConstBitmapInfo.offsetBeforeBitmap 1 = false ∧
    (extractAtIndexRange exConstBitmapInfo (fun _ => 0) exBitmapResource 0 4).map Prod.fst =
      some [5, 5, 5, 5] ∧
    (extractAtIndex exConstBitmapInfo (fun _ => 0) exBitmapResource 1).map Prod.fst = some 5 := by
  refine ⟨by decide, by decide!, by decide!⟩

/-- C4 (amended). For a record with a bitmap, `bitsPerValue ≠ 0` and
`sphericalHarmonics = 0`, and a valid range `(s, e)` whose bitmap words and
present values lie inside the resource, `extractAtIndexRange` returns `e - s`
values with `9999` at each position whose bitmap bit is 0, and `extractAtIndex`
returns `9999` for each such index. -/
theorem missing_points_are_9999 (g : GribInfo) (junk : Nat → Nat) (f : GribHandleData)
    (s e : Nat) (hb : g.offsetBeforeBitmap ≠ 0) (hw : g.bitsPerValue ≠ 0)
    (hsp : g.sphericalHarmonics = 0) (hse : s < e) (he : e ≤ g.numberOfDataPoints)
    (hn : g.numberOfDataPoints < 2 ^ 64)
    (hbm : g.offsetBeforeBitmap + 8 * ((e - 1) / 64 + 1) ≤ f.bytes.length)
    (hval : ∀ i, s ≤ i → i < e → bitmapBit f.bytes g.offsetBeforeBitmap i = true →
      valueEnd g (setBitsBefore f.bytes g.offsetBeforeBitmap i) ≤ f.bytes.length) :
    (∃ vs f', extractAtIndexRange g junk f s e = some (vs, f') ∧ vs.length = e - s ∧
      ∀ i, s ≤ i → i < e → bitmapBit f.bytes g.offsetBeforeBitmap i = false →
        vs[i - s]? = some (9999 : ℚ)) ∧
    (∀ i, s ≤ i → i < e → bitmapBit f.bytes g.offsetBeforeBitmap i = false →
      (extractAtIndex g junk f i).map Prod.fst = some (9999 : ℚ)) := by
  constructor
  · obtain ⟨f', h, _⟩ := extractAtIndexRange_bitmap_eq g junk f s e hb hw hsp hse he hn hbm hval
    refine ⟨_, f', h, by simp, ?_⟩
    intro i hsi hie hbit
    rw [List.getElem?_map, List.getElem?_range (by omega)]
    have e1 : s + (i - s) = i := by omega
    simp only [Option.map_some', e1, pointValue, hbit]
    rfl
  · intro i hsi hie hbit
    have h64 : i / 64 ≤ (e - 1) / 64 := Nat.div_le_div_right (by omega)
    exact extractAtIndex_missing g junk f i hb hw hsp (by omega) hn (by omega) hbit

/-- C4 (witness). The fourth scenario of the specification over the range (0, 4). -/
theorem missing_points_are_9999_witness :
    (∃ vs f', extractAtIndexRange exBitmapInfo (fun _ => 0) exBitmapResource 0 4 = some (vs, f') ∧
      vs.length = 4 - 0 ∧
      ∀ i, 0 ≤ i → i < 4 →
        bitmapBit exBitmapResource.bytes exBitmapInfo.offsetBeforeBitmap i = false →
        vs[i - 0]? = some (9999 : ℚ)) ∧
    (∀ i, 0 ≤ i → i < 4 →
      bitmapBit exBitmapResource.bytes exBitmapInfo.offsetBeforeBitmap i = false →
      (extractAtIndex exBitmapInfo (fun _ => 0) exBitmapResource i).map Prod.fst =
        some (9999 : ℚ)) :=
  missing_points_are_9999 exBitmapInfo (fun _ => 0) exBitmapResource 0 4
    (by decide) (by decide) (by decide) (by decide) (by decide) (by decide) (by decide)
    (by
      intro i _ hi _
      interval_cases i <;> decide)

/-! ### C5: range and per-index extraction -/

/-- C5. On a record whose bitmap has more set bits than `numberOfValues`,
`extractAtIndexRange` returns four decoded values while the loop of
`extractAtIndex` calls, `extractAtIndexRangeNaive`, fails. -/
theorem range_differs_from_naive :
    (extractAtIndexRange exShortInfo (fun _ => 0) exShortResource 0 4).map Prod.fst =
      some [10, 20, 30, 40] ∧
    extractAtIndexRangeNaive exShortInfo (fun _ => 0) exShortResource 0 4 = none := by
  refine ⟨by decide!, by decide!⟩

/-! ### C6: spherical harmonics guard -/

/-- C6 (counterexample). A spherical-harmonics record with `bitsPerValue = 0`
is not rejected: `extractAtIndex` returns the reference value and
`extractAtIndexRange` returns copies of it. -/
theorem spherical_constant_field_not_rejected :
    exConstSpectralInfo.sphericalHarmonics ≠ 0 ∧
    extractAtIndex exConstSpectralInfo (fun _ => 0) exPlainResource 0 =
      some (5, exPlainResource) ∧
    extractAtIndexRange exConstSpectralInfo (fun _ => 0) exPlainResource 0 2 =
      some ([5, 5], exPlainResource) := by
  refine ⟨by decide, by decide!, by decide!⟩

/-- C6 (amended). For a record with `sphericalHarmonics ≠ 0` and
`bitsPerValue ≠ 0`, `extractAtIndex` fails for every index and
`extractAtIndexRange` fails for every range. -/
theorem spherical_harmonics_rejected (g : GribInfo) (junk : Nat → Nat) (f : GribHandleData)
    (hsp : g.sphericalHarmonics ≠ 0) (hw : g.bitsPerValue ≠ 0) :
    (∀ i, extractAtIndex g junk f i = none) ∧
    (∀ s e, extractAtIndexRange g junk f s e = none) := by
  constructor
  · intro i
    unfold extractAtIndex
    rw [if_neg hw, if_pos hsp]
  · intro s e
    unfold extractAtIndexRange
    rw [if_neg hw]
    by_cases h1 : s < e
    · rw [if_neg (not_not.mpr h1)]
      by_cases h2 : e ≤ g.numberOfDataPoints
      · rw [if_neg (not_not.mpr h2), if_pos hsp]
      · rw [if_pos h2]
    · rw [if_pos h1]

/-- C6 (witness). A spherical-harmonics record with 8-bit values. -/
theorem spherical_harmonics_rejected_witness :
    (exSpectralInfo.sphericalHarmonics ≠ 0 ∧ exSpectralInfo.bitsPerValue ≠ 0) ∧
    (∀ i, extractAtIndex exSpectralInfo (fun _ => 0) exPlainResource i = none) ∧
    (∀ s e, extractAtIndexRange exSpectralInfo (fun _ => 0) exPlainResource s e = none) :=
  ⟨⟨by decide, by decide⟩,
    spherical_harmonics_rejected exSpectralInfo (fun _ => 0) exPlainResource (by decide)
      (by decide)⟩

/-! ### C7: index precondition -/

/-- C7 (counterexample). A freshly constructed record returns a value for
index 0 although `numberOfDataPoints = 0`; and a record without bitmap that has
`numberOfValues = 4 > numberOfDataPoints = 2` returns a value for index 3. -/
theorem index_beyond_data_points_accepted :
    GribInfo.new.numberOfDataPoints ≤ 0 ∧ GribInfo.new.ready = false ∧
    extractAtIndex GribInfo.new (fun _ => 0) exPlainResource 0 = some (0, exPlainResource) ∧
    exManyValuesInfo.numberOfDataPoints ≤ 3 ∧
    (extractAtIndex exManyValuesInfo (fun _ => 0) exPlainResource 3).map Prod.fst = some 4 := by
  refine ⟨by decide, by decide, by decide!, by decide, by decide!⟩

/-- C7 (amended). For a record with `bitsPerValue ≠ 0` that has a bitmap or
satisfies `numberOfValues ≤ numberOfDataPoints`, `extractAtIndex` fails for
every index `≥ numberOfDataPoints`; in particular for a record that is not
ready. -/
theorem index_beyond_data_points_rejected (g : GribInfo) (junk : Nat → Nat)
    (f : GribHandleData) (i : Nat) (hw : g.bitsPerValue ≠ 0)
    (hinv : g.offsetBeforeBitmap ≠ 0 ∨ g.numberOfValues ≤ g.numberOfDataPoints)
    (hi : g.numberOfDataPoints ≤ i) :
    extractAtIndex g junk f i = none := by
  unfold extractAtIndex
  rw [if_neg hw]
  by_cases hsp : g.sphericalHarmonics ≠ 0
  · rw [if_pos hsp]
  · rw [if_neg hsp]
    unfold resolveSlot
    by_cases hb : g.offsetBeforeBitmap ≠ 0
    · rw [if_pos hb, if_neg (by omega)]
    · rw [if_neg hb]
      have hle : g.numberOfValues ≤ g.numberOfDataPoints := by
        rcases hinv with h | h
        · exact absurd h hb
        · exact h
      dsimp only
      rw [if_neg (by omega)]

/-- C7 (witness). Index 4 of a record with four data points. -/
theorem index_beyond_data_points_rejected_witness :
    (exPlainInfo.bitsPerValue ≠ 0 ∧ exPlainInfo.numberOfValues ≤ exPlainInfo.numberOfDataPoints ∧
      exPlainInfo.numberOfDataPoints ≤ 4) ∧
    extractAtIndex exPlainInfo (fun _ => 0) exPlainResource 4 = none :=
  ⟨⟨by decide, by decide, by decide⟩,
    index_beyond_data_points_rejected exPlainInfo (fun _ => 0) exPlainResource 4 (by decide)
      (Or.inr (by decide)) (by decide)⟩

/-! ### C8: slot bound -/

/-- C8. Index 2 of a record without bitmap that has `numberOfValues = 2`
resolves to slot 2: `extractAtIndex` fails, `extractAtIndexRange` decodes the
slot and returns its value; the same happens through a bitmap. -/
theorem range_decodes_slot_beyond_numberOfValues :
    (resolveSlot exFewValuesInfo exPlainResource 2).map Prod.fst = some (some 2) ∧
    ¬ (2 < exFewValuesInfo.numberOfValues) ∧
    extractAtIndex exFewValuesInfo (fun _ => 0) exPlainResource 2 = none ∧
    (extractAtIndexRange exFewValuesInfo (fun _ => 0) exPlainResource 2 3).map Prod.fst =
      some [3] ∧
    (resolveSlot exShortInfo exShortResource 1).map Prod.fst = some (some 1) ∧
    ¬ (1 < exShortInfo.numberOfValues) ∧
    extractAtIndex exShortInfo (fun _ => 0) exShortResource 1 = none ∧
    (extractAtIndexRange exShortInfo (fun _ => 0) exShortResource 1 2).map Prod.fst =
      some [20] := by
  refine ⟨by decide, by decide, by decide!, by decide!, by decide, by decide, by decide!,
    by decide!⟩

/-! ### C9: malformed ranges -/

/-- C9 (counterexample). On a constant field with four data points,
`extractAtIndexRange` accepts the range `(0, 6)`, whose end is beyond
`numberOfDataPoints`, and the empty range `(2, 2)`. -/
theorem malformed_range_of_constant_field_accepted :
    exConstBitmapInfo.numberOfDataPoints < 6 ∧
    (extractAtIndexRange exConstBitmapInfo (fun _ => 0) exBitmapResource 0 6).map Prod.fst =
      some [5, 5, 5, 5, 5, 5] ∧
    (extractAtIndexRange exConstBitmapInfo (fun _ => 0) exBitmapResource 2 2).map Prod.fst =
      some [] := by
  refine ⟨by decide, by decide!, by decide!⟩

/-- C9 (amended). For a record with `bitsPerValue ≠ 0`, `extractAtIndexRange`
fails on every pair `(s, e)` with `s ≥ e` or `e > numberOfDataPoints`. -/
theorem malformed_range_rejected (g : GribInfo) (junk : Nat → Nat) (f : GribHandleData)
    (s e : Nat) (hw : g.bitsPerValue ≠ 0) (h : e ≤ s ∨ g.numberOfDataPoints < e) :
    extractAtIndexRange g junk f s e = none := by
  unfold extractAtIndexRange
  rw [if_neg hw]
  by_cases h1 : s < e
  · rw [if_neg (not_not.mpr h1), if_pos (by omega)]
  · rw [if_pos h1]

/-- C9 (witness). The ranges (0, 5) and (2, 2) on a record with four data points. -/
theorem malformed_range_rejected_witness :
    (exPlainInfo.bitsPerValue ≠ 0 ∧ exPlainInfo.numberOfDataPoints < 5) ∧
    extractAtIndexRange exPlainInfo (fun _ => 0) exPlainResource 0 5 = none ∧
    extractAtIndexRange exPlainInfo (fun _ => 0) exPlainResource 2 2 = none :=
  ⟨⟨by decide, by decide⟩,
    malformed_range_rejected exPlainInfo (fun _ => 0) exPlainResource 0 5 (by decide)
      (Or.inr (by decide)),
    malformed_range_rejected exPlainInfo (fun _ => 0) exPlainResource 2 2 (by decide)
      (Or.inl (by decide))⟩

/-! ### C10: absolute positioning -/

/-- C10. The record of a message that starts at byte 4 of its file
(`msgStartOffset = 4`): `extractAtIndex` seeks to byte 2 of the file, not to
byte `4 + 2`, and returns the byte 9 of the preceding message, while the same
record with `msgStartOffset = 0` on the message alone returns 3; with a bitmap
and `msgStartOffset = 100` the seeks go to `offsetBeforeBitmap = 1` and to
`offsetBeforeData + 1 = 10`. -/
theorem seek_without_msgStartOffset :
    exSecondMessageInfo.msgStartOffset = 4 ∧
    exTwoMessageResource.bytes.drop 4 = exPlainResource.bytes ∧
    extractAtIndex exSecondMessageInfo (fun _ => 0) exTwoMessageResource 2 =
      some (9, ⟨exTwoMessageResource.bytes, 3, [IOp.read 1, IOp.seek 2]⟩) ∧
    (extractAtIndex exPlainInfo (fun _ => 0) exPlainResource 2).map Prod.fst = some 3 ∧
    (extractAtIndex { exBitmapInfo with msgStartOffset := 100 } (fun _ => 0)
        exBitmapResource 2).map (fun r => r.2.ops) =
      some [IOp.read 1, IOp.seek 10, IOp.read 8, IOp.seek 1] := by
  refine ⟨by decide, by decide, by decide!, by decide!, by decide!⟩

/-! ### C11: constant-field short-circuit -/

/-- C11. For a record with `bitsPerValue = 0`, `extractAtIndex` returns
`referenceValue` for every index and leaves the resource as it is (no seek and
no read is recorded); `extractAtIndexRange` returns `e - s` copies of
`referenceValue` for every valid range `(s, e)`, also leaving the resource as
it is. -/
theorem constant_field_short_circuit (g : GribInfo) (junk : Nat → Nat) (f : GribHandleData)
    (hw : g.bitsPerValue = 0) :
    (∀ i, extractAtIndex g junk f i = some (g.referenceValue, f)) ∧
    (∀ s e, s < e → e ≤ g.numberOfDataPoints → g.numberOfDataPoints < 2 ^ 64 →
      extractAtIndexRange g junk f s e = some (List.replicate (e - s) g.referenceValue, f)) := by
  constructor
  · intro i
    unfold extractAtIndex
    rw [if_pos hw]
  · intro s e hse he hn
    unfold extractAtIndexRange
    rw [if_pos hw]
    have e1 : (e + 2 ^ 64 - s) % 2 ^ 64 = e - s := by
      have : e + 2 ^ 64 - s = (e - s) + 2 ^ 64 := by omega
      rw [this, Nat.add_mod_right, Nat.mod_eq_of_lt (by omega)]
    rw [e1]

/-- C11 (witness). The first scenario of the specification: reference value
273.15, range (0, 4). -/
theorem constant_field_short_circuit_witness :
    exConstInfo.bitsPerValue = 0 ∧
    (∀ i, extractAtIndex exConstInfo (fun _ => 0) exPlainResource i =
      some (exConstInfo.referenceValue, exPlainResource)) ∧
    extractAtIndexRange exConstInfo (fun _ => 0) exPlainResource 0 4 =
      some ([273.15, 273.15, 273.15, 273.15], exPlainResource) :=
  ⟨by decide,
    (constant_field_short_circuit exConstInfo (fun _ => 0) exPlainResource (by decide)).1,
    ((constant_field_short_circuit exConstInfo (fun _ => 0) exPlainResource (by decide)).2
      0 4 (by decide) (by decide) (by decide)).trans
      (by norm_num [exConstInfo, GribInfo.new, List.replicate])⟩

/-! ### C12: output length and order of a range -/

/-- C12. When `extractAtIndexRange` succeeds on a valid range `(s, e)`, with or
without a bitmap, the result has exactly `e - s` elements and its `k`-th
element is the value of the logical index `s + k`: the reference value of a
constant field, `9999` for a missing point, otherwise the decoded value of the
point's slot; it is the value that `extractAtIndex` returns for `s + k`
whenever that call succeeds. -/
theorem range_length_and_order (g : GribInfo) (junk : Nat → Nat) (f f' : GribHandleData)
    (s e : Nat) (vs : List ℚ) (hse : s < e) (he : e ≤ g.numberOfDataPoints)
    (hn : g.numberOfDataPoints < 2 ^ 64)
    (h : extractAtIndexRange g junk f s e = some (vs, f')) :
    vs.length = e - s ∧
    ∀ k, k < e - s →
      vs[k]? = some (logicalValue g junk f.bytes (s + k)) ∧
      ∀ v f'', extractAtIndex g junk f (s + k) = some (v, f'') → vs[k]? = some v := by
  by_cases hw : g.bitsPerValue = 0
  · have hc := (constant_field_values g junk f hw).2 s e hse he hn
    rw [h] at hc
    simp only [Option.some.injEq, Prod.mk.injEq] at hc
    rw [hc.1]
    refine ⟨List.length_replicate _ _, ?_⟩
    intro k hk
    have hk' : (List.replicate (e - s) g.referenceValue)[k]? = some g.referenceValue := by
      rw [List.getElem?_replicate, if_pos hk]
    refine ⟨?_, ?_⟩
    · rw [hk']
      unfold logicalValue
      rw [if_pos hw]
    · intro v f'' hx
      rw [(constant_field_values g junk f hw).1 (s + k)] at hx
      simp only [Option.some.injEq, Prod.mk.injEq] at hx
      rw [hk', hx.1]
  · obtain ⟨_, _, hvs, _⟩ := extractAtIndexRange_some g junk f f' s e vs hw hn h
    rw [hvs]
    refine ⟨by simp, ?_⟩
    intro k hk
    have hk' : ((List.range (e - s)).map (fun j => valueOf g junk f.bytes (s + j)))[k]? =
        some (valueOf g junk f.bytes (s + k)) := by
      rw [List.getElem?_map, List.getElem?_range hk]
      rfl
    refine ⟨?_, ?_⟩
    · rw [hk']
      unfold logicalValue
      rw [if_neg hw]
    · intro v f'' hx
      rw [hk', (extractAtIndex_some g junk f f'' (s + k) v hw hn hx).1]

/-- C12 (witness). The fourth scenario of the specification over the range
(0, 4), and the plain 8-bit record over the range (1, 3). -/
theorem range_length_and_order_witness :
    (extractAtIndexRange exBitmapInfo (fun _ => 0) exBitmapResource 0 4).map Prod.fst =
      some [10, 9999, 20, 30] ∧
    (∀ vs f', extractAtIndexRange exBitmapInfo (fun _ => 0) exBitmapResource 0 4 =
        some (vs, f') →
      vs.length = 4 - 0 ∧
      ∀ k, k < 4 - 0 →
        vs[k]? = some (logicalValue exBitmapInfo (fun _ => 0) exBitmapResource.bytes (0 + k)) ∧
        ∀ v f'', extractAtIndex exBitmapInfo (fun _ => 0) exBitmapResource (0 + k) =
          some (v, f'') → vs[k]? = some v) ∧
    (∀ vs f', extractAtIndexRange exPlainInfo (fun _ => 0) exPlainResource 1 3 =
        some (vs, f') →
      vs.length = 3 - 1 ∧
      ∀ k, k < 3 - 1 →
        vs[k]? = some (logicalValue exPlainInfo (fun _ => 0) exPlainResource.bytes (1 + k)) ∧
        ∀ v f'', extractAtIndex exPlainInfo (fun _ => 0) exPlainResource (1 + k) =
          some (v, f'') → vs[k]? = some v) :=
  ⟨by decide!,
    fun vs f' h => range_length_and_order exBitmapInfo (fun _ => 0) exBitmapResource f' 0 4 vs
      (by decide) (by decide) (by decide) h,
    fun vs f' h => range_length_and_order exPlainInfo (fun _ => 0) exPlainResource f' 1 3 vs
      (by decide) (by decide) (by decide) h⟩

/-! ### C13: bitmap consistency -/

/-- C13. For a record with a bitmap whose first `numberOfDataPoints` bits
contain exactly `numberOfValues` set bits, every present index
`i < numberOfDataPoints` resolves to a slot below `numberOfValues`, and the
last present index resolves to `numberOfValues - 1`. The bitmap words the scan
reads lie inside the resource. -/
theorem bitmap_consistency (g : GribInfo) (f : GribHandleData) (i : Nat)
    (hb : g.offsetBeforeBitmap ≠ 0) (hn : g.numberOfDataPoints < 2 ^ 64)
    (hcount : setBitsBefore f.bytes g.offsetBeforeBitmap g.numberOfDataPoints =
      g.numberOfValues)
    (hi : i < g.numberOfDataPoints)
    (hr : g.offsetBeforeBitmap + 8 * (i / 64 + 1) ≤ f.bytes.length)
    (hbit : bitmapBit f.bytes g.offsetBeforeBitmap i = true) :
    ∃ slot f1, resolveSlot g f i = some (some slot, f1) ∧ slot < g.numberOfValues ∧
      ((∀ j, i < j → j < g.numberOfDataPoints →
          bitmapBit f.bytes g.offsetBeforeBitmap j = false) →
        slot = g.numberOfValues - 1) := by
  have hsplit := setBitsBefore_add f.bytes g.offsetBeforeBitmap (i + 1)
    (g.numberOfDataPoints - (i + 1))
  rw [show i + 1 + (g.numberOfDataPoints - (i + 1)) = g.numberOfDataPoints by omega, hcount,
    setBitsBefore_succ, if_pos hbit] at hsplit
  refine ⟨setBitsBefore f.bytes g.offsetBeforeBitmap i,
    ⟨f.bytes, g.offsetBeforeBitmap + 8 * (i / 64 + 1),
      List.replicate (i / 64 + 1) (IOp.read 8) ++ IOp.seek g.offsetBeforeBitmap :: f.ops⟩,
    ?_, by omega, ?_⟩
  · rw [resolveSlot_bitmap_eq g f i hb hi hn hr, if_pos hbit]
  · intro hlast
    have h0 : (List.range (g.numberOfDataPoints - (i + 1))).countP
        (fun j => bitmapBit f.bytes g.offsetBeforeBitmap (i + 1 + j)) = 0 := by
      rw [List.countP_eq_zero]
      intro j hj
      rw [List.mem_range] at hj
      simp [hlast (i + 1 + j) (by omega) (by omega)]
    omega

/-- C13 (witness). The fourth scenario of the specification: the three set bits
of `1011` are the three values, and index 3, the last present one, resolves to
slot 2. -/
theorem bitmap_consistency_witness :
    ∃ slot f1, resolveSlot exBitmapInfo exBitmapResource 3 = some (some slot, f1) ∧
      slot < exBitmapInfo.numberOfValues ∧
      ((∀ j, 3 < j → j < exBitmapInfo.numberOfDataPoints →
          bitmapBit exBitmapResource.bytes exBitmapInfo.offsetBeforeBitmap j = false) →
        slot = exBitmapInfo.numberOfValues - 1) :=
  bitmap_consistency exBitmapInfo exBitmapResource 3 (by decide) (by decide) (by decide)
    (by decide) (by decide) (by decide)

/-! ### C14: JSON round trip -/

/-- C14. A record whose reference value is 273.149993896484375 (the
single-precision number nearest to 273.15) is written by `toJSON` with
reference value 273.149993896484, and that is what `fromJSONFile` reads back;
the `double` next to 1, `1 + 2 ^ (-52)`, is written and read back as 1. -/
theorem json_round_trip_loses_digits :
    exFloatRefInfo.referenceValue = 273149993896484375 / 10 ^ 15 ∧
    (GribInfo.new.fromJSONFile exFloatRefInfo.toJSON).map (fun r => r.referenceValue) =
      some (273149993896484 / 10 ^ 12) ∧
    (GribInfo.new.fromJSONFile exFloatRefInfo.toJSON).map (fun r => r.referenceValue) ≠
      some exFloatRefInfo.referenceValue ∧
    (GribInfo.new.fromJSONFile exNextToOneInfo.toJSON).map (fun r => r.referenceValue) =
      some 1 ∧
    exNextToOneInfo.referenceValue ≠ 1 := by
  refine ⟨by decide!, by decide!, by decide!, by decide!, by decide!⟩

/-! ### C15: validation on load -/

/-- C15 (counterexample). A document with `bitsPerValue = 65`, ten values for
four data points and no bitmap, and multipliers 3 and 7 for scale factors 0 is
accepted: `fromJSONFile` produces the record with these values. -/
theorem fromJSONFile_accepts_invalid_values :
    (GribInfo.new.fromJSONFile exInvalidJSON).map (fun r => r.bitsPerValue) = some 65 ∧
    (GribInfo.new.fromJSONFile exInvalidJSON).map (fun r => r.numberOfValues) = some 10 ∧
    (GribInfo.new.fromJSONFile exInvalidJSON).map (fun r => r.numberOfDataPoints) = some 4 ∧
    (GribInfo.new.fromJSONFile exInvalidJSON).map (fun r => r.offsetBeforeBitmap) = some 0 ∧
    (GribInfo.new.fromJSONFile exInvalidJSON).map (fun r => r.binaryScaleFactor) = some 0 ∧
    (GribInfo.new.fromJSONFile exInvalidJSON).map (fun r => r.binaryMultiplier) = some 3 ∧
    (GribInfo.new.fromJSONFile exInvalidJSON).map (fun r => r.decimalScaleFactor) = some 0 ∧
    (GribInfo.new.fromJSONFile exInvalidJSON).map (fun r => r.decimalMultiplier) = some 7 := by
  refine ⟨by decide!, by decide!, by decide!, by decide!, by decide!, by decide!, by decide!,
    by decide!⟩

/-- C15 (amended). `fromJSONFile` fails for every document that lacks one of
the eleven keys; for every document that has them it produces the record whose
eleven serialized members are the converted numbers of the document, whatever
they are: no range and no invariant is checked. -/
theorem fromJSONFile_checks_keys_only (g0 : GribInfo) (v : JSONObject) :
    (∀ key, key ∈ requiredKeys → v.get key = none → g0.fromJSONFile v = none) ∧
    (∀ bsf dsf bpv ref obd ndp nv obb sh bm dm : ℚ,
      v.get "binaryScaleFactor" = some bsf → v.get "decimalScaleFactor" = some dsf →
      v.get "bitsPerValue" = some bpv → v.get "referenceValue" = some ref →
      v.get "offsetBeforeData" = some obd → v.get "numberOfDataPoints" = some ndp →
      v.get "numberOfValues" = some nv → v.get "offsetBeforeBitmap" = some obb →
      v.get "sphericalHarmonics" = some sh → v.get "binaryMultiplier" = some bm →
      v.get "decimalMultiplier" = some dm →
      g0.fromJSONFile v = some { g0 with
        binaryScaleFactor := toLong bsf
        decimalScaleFactor := toLong dsf
        bitsPerValue := toUnsignedLong bpv
        referenceValue := ref
        offsetBeforeData := toUnsignedLong obd
        numberOfDataPoints := toUnsignedLong ndp
        numberOfValues := toUnsignedLong nv
        offsetBeforeBitmap := toUnsignedLong obb
        sphericalHarmonics := toLong sh
        binaryMultiplier := bm
        decimalMultiplier := dm }) := by
  constructor
  · intro key hk h
    exact fromJSONFile_missing_key g0 v key hk h
  · intro bsf dsf bpv ref obd ndp nv obb sh bm dm h1 h2 h3 h4 h5 h6 h7 h8 h9 h10 h11
    unfold GribInfo.fromJSONFile
    rw [h1, h2, h3, h4, h5, h6, h7, h8, h9, h10, h11]

/-- C15 (witness). A document without `bitsPerValue` is rejected. -/
theorem fromJSONFile_checks_keys_only_witness :
    exIncompleteJSON.get "bitsPerValue" = none ∧
    GribInfo.new.fromJSONFile exIncompleteJSON = none :=
  ⟨by decide,
    (fromJSONFile_checks_keys_only GribInfo.new exIncompleteJSON).1 "bitsPerValue"
      (by decide) (by decide)⟩

/-! ### C16: derived multipliers -/

/-- C16 (counterexample). After `update` with a header whose
`decimalScaleFactor` is 1 the decimal multiplier is the `double` nearest to
`1 / 10`, which is `3602879701896397 / 2 ^ 55`, not `10 ^ (-1)`; with
`binaryScaleFactor = -1075` the binary multiplier is 0, not `2 ^ (-1075)`. -/
theorem multiplier_is_not_the_exact_power :
    (GribInfo.new.update exTenthHeader).decimalScaleFactor = 1 ∧
    (GribInfo.new.update exTenthHeader).decimalMultiplier = 3602879701896397 / 2 ^ 55 ∧
    (GribInfo.new.update exTenthHeader).decimalMultiplier ≠
      (10 : ℚ) ^ (-(GribInfo.new.update exTenthHeader).decimalScaleFactor) ∧
    (GribInfo.new.update exTinyHeader).binaryScaleFactor = -1075 ∧
    (GribInfo.new.update exTinyHeader).binaryMultiplier = 0 ∧
    (GribInfo.new.update exTinyHeader).binaryMultiplier ≠
      (2 : ℚ) ^ (GribInfo.new.update exTinyHeader).binaryScaleFactor := by
  refine ⟨by decide, by decide!, by decide!, by decide, by decide!, by decide!⟩

/-- C16 (amended). A freshly constructed record satisfies
`binaryMultiplier = 2 ^ binaryScaleFactor` and
`decimalMultiplier = 10 ^ (-decimalScaleFactor)`, both being 1. After
`update(h)` the two scale factors are the ones the header reports and the
multipliers are the `double`s `grib_power(binaryScaleFactor, 2)` and
`grib_power(-decimalScaleFactor, 10)`; the binary multiplier is the `double`
nearest to `2 ^ binaryScaleFactor` for `binaryScaleFactor ≤ 1023`, and the
multipliers are the exact powers for `-1074 ≤ binaryScaleFactor ≤ 1023` and for
`-22 ≤ decimalScaleFactor ≤ 0`. -/
theorem multipliers_derived_from_scale_factors :
    (GribInfo.new.binaryMultiplier = (2 : ℚ) ^ GribInfo.new.binaryScaleFactor ∧
      GribInfo.new.decimalMultiplier = (10 : ℚ) ^ (-GribInfo.new.decimalScaleFactor)) ∧
    ∀ (g : GribInfo) (h : GribHandle),
      (g.update h).binaryScaleFactor = h.binaryScaleFactor ∧
      (g.update h).decimalScaleFactor = h.decimalScaleFactor ∧
      (g.update h).binaryMultiplier = grib_power h.binaryScaleFactor 2 ∧
      (-2 ^ 63 < h.decimalScaleFactor → h.decimalScaleFactor < 2 ^ 63 →
        (g.update h).decimalMultiplier = grib_power (-h.decimalScaleFactor) 10) ∧
      (h.binaryScaleFactor ≤ 1023 →
        (g.update h).binaryMultiplier = toDouble ((2 : ℚ) ^ h.binaryScaleFactor)) ∧
      (-1074 ≤ h.binaryScaleFactor → h.binaryScaleFactor ≤ 1023 →
        (g.update h).binaryMultiplier = (2 : ℚ) ^ h.binaryScaleFactor) ∧
      (-22 ≤ h.decimalScaleFactor → h.decimalScaleFactor ≤ 0 →
        (g.update h).decimalMultiplier = (10 : ℚ) ^ (-h.decimalScaleFactor)) := by
  refine ⟨⟨?_, ?_⟩, ?_⟩
  · simp [GribInfo.new]
  · simp [GribInfo.new]
  · intro g h
    have hbm : (g.update h).binaryMultiplier = toDouble ((2 : ℚ) ^ h.binaryScaleFactor) := by
      simp [GribInfo.update, grib_power]
    have hdm : -2 ^ 63 < h.decimalScaleFactor → h.decimalScaleFactor < 2 ^ 63 →
        (g.update h).decimalMultiplier = toDouble ((10 : ℚ) ^ (-h.decimalScaleFactor)) := by
      intro h1 h2
      have hwrap : wrapLong (-h.decimalScaleFactor) = -h.decimalScaleFactor := by
        unfold wrapLong
        omega
      simp only [GribInfo.update, grib_power, hwrap]
      norm_num
    have hgp : -2 ^ 63 < h.decimalScaleFactor → h.decimalScaleFactor < 2 ^ 63 →
        (g.update h).decimalMultiplier = grib_power (-h.decimalScaleFactor) 10 := by
      intro h1 h2
      have hwrap : wrapLong (-h.decimalScaleFactor) = -h.decimalScaleFactor := by
        unfold wrapLong
        omega
      simp only [GribInfo.update, hwrap]
    refine ⟨rfl, rfl, rfl, hgp, fun _ => hbm, ?_, ?_⟩
    · intro h1 _
      rw [hbm, toDouble_two_zpow _ h1]
    · intro h1 h2
      rw [hdm (by omega) (by omega)]
      obtain ⟨k, hk⟩ : ∃ k : Nat, -h.decimalScaleFactor = (k : Int) :=
        ⟨(-h.decimalScaleFactor).toNat, by omega⟩
      rw [hk, zpow_natCast]
      exact toDouble_ten_pow k (by omega)

/-! ### C17: bitmap offset after harvest -/

/-- C17 (counterexample). A header that reports a bitmap (`bitmapPresent = 1`)
with `offsetBeforeBitmap = 0`: after `update` the field `offsetBeforeBitmap` is
0 although the header reports a bitmap. -/
theorem bitmap_present_with_offset_zero :
    exZeroOffsetHeader.bitmapPresent ≠ 0 ∧
    (GribInfo.new.update exZeroOffsetHeader).offsetBeforeBitmap = 0 ∧
    ¬ ((GribInfo.new.update exZeroOffsetHeader).offsetBeforeBitmap = 0 ↔
      exZeroOffsetHeader.bitmapPresent = 0) := by
  decide

/-- C17 (amended). After `update(h)` the field `offsetBeforeBitmap` is 0 when
`h` reports no bitmap and is the header's `offsetBeforeBitmap` when `h` reports
one; so it is 0 if and only if `h` reports no bitmap or reports a bitmap with
offset 0. The other eight raw fields are the header's values. -/
theorem update_raw_fields (g : GribInfo) (h : GribHandle) :
    (h.bitmapPresent = 0 → (g.update h).offsetBeforeBitmap = 0) ∧
    (h.bitmapPresent ≠ 0 → (g.update h).offsetBeforeBitmap = h.offsetBeforeBitmap) ∧
    ((g.update h).offsetBeforeBitmap = 0 ↔
      (h.bitmapPresent = 0 ∨ h.offsetBeforeBitmap = 0)) ∧
    (g.update h).binaryScaleFactor = h.binaryScaleFactor ∧
    (g.update h).decimalScaleFactor = h.decimalScaleFactor ∧
    (g.update h).bitsPerValue = h.bitsPerValue ∧
    (g.update h).referenceValue = h.referenceValue ∧
    (g.update h).offsetBeforeData = h.offsetBeforeData ∧
    (g.update h).numberOfDataPoints = h.numberOfDataPoints ∧
    (g.update h).numberOfValues = h.numberOfValues ∧
    (g.update h).sphericalHarmonics = h.sphericalHarmonics := by
  refine ⟨?_, ?_, ?_, rfl, rfl, rfl, rfl, rfl, rfl, rfl, rfl⟩
  · intro h0
    simp [GribInfo.update, h0]
  · intro h1
    simp [GribInfo.update, h1]
  · by_cases h0 : h.bitmapPresent = 0
    · simp [GribInfo.update, h0]
    · simp [GribInfo.update, h0]

/-! ### C18: the value read fits the local buffer -/

/-- C18. For `bitsPerValue` in 1..64 the value read of `extractAtIndex` and
`extractAtIndexRange` asks for `valueReadLen = ⌈bitsPerValue / 8⌉` bytes, a
number between 1 and 8; a bitmap scan issues reads of exactly 8 bytes; and
every read that `extractAtIndex` or `extractAtIndexRange` has issued when it
returns is one of these two. -/
theorem value_read_fits_buffer (g : GribInfo) (junk : Nat → Nat) (f : GribHandleData)
    (hw1 : 1 ≤ g.bitsPerValue) (hw64 : g.bitsPerValue ≤ 64) :
    (1 ≤ valueReadLen g ∧ valueReadLen g ≤ 8 ∧
      8 * (valueReadLen g - 1) < g.bitsPerValue ∧ g.bitsPerValue ≤ 8 * valueReadLen g) ∧
    (∀ slot v f', readValue g junk f slot = some (v, f') →
      newOps f f' = [IOp.read (valueReadLen g),
        IOp.seek (g.offsetBeforeData + (slot * g.bitsPerValue % 2 ^ 64) / 8)]) ∧
    (∀ i r f', scanBitmap f i = some (r, f') →
      newOps f f' = List.replicate (i / 64 + 1) (IOp.read 8)) ∧
    (∀ i v f', extractAtIndex g junk f i = some (v, f') →
      f'.ops = newOps f f' ++ f.ops ∧
      ∀ n, IOp.read n ∈ newOps f f' → n = 8 ∨ n = valueReadLen g) ∧
    (∀ s e vs f', extractAtIndexRange g junk f s e = some (vs, f') →
      f'.ops = newOps f f' ++ f.ops ∧
      ∀ n, IOp.read n ∈ newOps f f' → n = 8 ∨ n = valueReadLen g) := by
  have hlen : valueReadLen g = (g.bitsPerValue + 7) / 8 := by
    unfold valueReadLen
    rw [Nat.mod_eq_of_lt (by omega)]
  have hok : ∀ n, readLenOk g (IOp.read n) = true → n = 8 ∨ n = valueReadLen g := by
    intro n hn
    simpa [readLenOk] using hn
  refine ⟨⟨by omega, by omega, by omega, by omega⟩, ?_, ?_, ?_, ?_⟩
  · intro slot v f' h
    obtain ⟨_, hf'⟩ := readValue_some g junk f f' slot v h
    exact newOps_eq f f' _ (by rw [hf']; rfl)
  · intro i r f' h
    exact newOps_eq f f' _ (scanBitmap_opsGrow g f f' i r h).1
  · intro i v f' h
    obtain ⟨h1, h2⟩ := opsGrow_newOps (extractAtIndex_opsGrow g junk f f' i v h)
    exact ⟨h1, fun n hn => hok n (h2 _ hn)⟩
  · intro s e vs f' h
    obtain ⟨h1, h2⟩ := opsGrow_newOps (extractAtIndexRange_opsGrow g junk f f' s e vs h)
    exact ⟨h1, fun n hn => hok n (h2 _ hn)⟩

/-- C18 (witness). The fourth scenario of the specification, 8 bits per value:
every value read is one byte, and `extractAtIndex` at index 2 seeks to the
bitmap, reads 8 bytes, seeks to the value and reads 1 byte. -/
theorem value_read_fits_buffer_witness :
    valueReadLen exBitmapInfo = 1 ∧
    (extractAtIndex exBitmapInfo (fun _ => 0) exBitmapResource 2).map (fun r => r.2.ops) =
      some [IOp.read 1, IOp.seek 10, IOp.read 8, IOp.seek 1] ∧
    (∀ i v f', extractAtIndex exBitmapInfo (fun _ => 0) exBitmapResource i = some (v, f') →
      f'.ops = newOps exBitmapResource f' ++ exBitmapResource.ops ∧
      ∀ n, IOp.read n ∈ newOps exBitmapResource f' → n = 8 ∨ n = valueReadLen exBitmapInfo) :=
  ⟨by decide, by decide!,
    (value_read_fits_buffer exBitmapInfo (fun _ => 0) exBitmapResource (by decide)
      (by decide)).2.2.2.1⟩

/-! ### C19: concatenation over several ranges -/

/-- C20. Slot 1 at 7 bits starts at bit 7, so its bits lie in 2 bytes, but
`extractAtIndex` reads 1 byte; slot 5 at 11 bits starts at bit 55, so its bits
lie in 3 bytes from byte 6 on, but `extractAtIndex` reads 2 bytes. The bytes
that are not read do not influence the result: at 7 bits the data 01 FC and
01 00 give the same value whatever the buffer held before. -/
theorem value_read_misses_bytes :
    neededBytes 7 1 = 2 ∧ valueReadLen exSevenBitInfo = 1 ∧
    (extractAtIndex exSevenBitInfo (fun _ => 0) ⟨[0x01, 0xFC], 0, []⟩ 1).map
        (fun r => r.2.ops) = some [IOp.read 1, IOp.seek 0] ∧
    neededBytes 11 5 = 3 ∧ valueReadLen exElevenBitInfo = 2 ∧
    (extractAtIndex exElevenBitInfo (fun _ => 0) exElevenBitResource 5).map
        (fun r => r.2.ops) = some [IOp.read 2, IOp.seek 6] ∧
    packedValue [0x01, 0xFC] 0 7 1 = 127 ∧
    (extractAtIndex exSevenBitInfo (fun _ => 0) ⟨[0x01, 0xFC], 0, []⟩ 1).map Prod.fst =
      some 64 ∧
    (∀ junk : Nat → Nat,
      (extractAtIndex exSevenBitInfo junk ⟨[0x01, 0xFC], 0, []⟩ 1).map Prod.fst =
        (extractAtIndex exSevenBitInfo junk ⟨[0x01, 0x00], 0, []⟩ 1).map Prod.fst) := by
  refine ⟨by decide, by decide, by decide!, by decide, by decide, by decide!, by decide,
    by decide!, ?_⟩
  intro junk
  rfl

/-! ### C21: single forward pass in range mode -/

/-- C21. On the fourth scenario of the specification and the range (0, 4),
`extractAtIndexRange` seeks to the bitmap start five times (once before the
loop, once for each index) and reads the one bitmap word four times. For every
record with a bitmap and `bitsPerValue ≠ 0`, a successful call over `(s, e)`
has sought to the bitmap start at least `e - s + 1` times and has read at least
`e - s` words of 8 bytes. -/
theorem range_restarts_bitmap_scan :
    (extractAtIndexRange exBitmapInfo (fun _ => 0) exBitmapResource 0 4).map
        (fun r => r.2.ops.reverse) =
      some [IOp.seek 1, IOp.seek 1, IOp.read 8, IOp.seek 1, IOp.read 8, IOp.seek 1, IOp.read 8,
        IOp.seek 1, IOp.read 8, IOp.seek 9, IOp.read 1, IOp.seek 10, IOp.read 1, IOp.seek 11,
        IOp.read 1] ∧
    ∀ (g : GribInfo) (junk : Nat → Nat) (f f' : GribHandleData) (s e : Nat) (vs : List ℚ),
      g.bitsPerValue ≠ 0 → g.offsetBeforeBitmap ≠ 0 →
      extractAtIndexRange g junk f s e = some (vs, f') →
      (e - s) + 1 ≤ (newOps f f').count (IOp.seek g.offsetBeforeBitmap) ∧
        e - s ≤ (newOps f f').count (IOp.read 8) := by
  refine ⟨by decide!, ?_⟩
  intro g junk f f' s e vs hw hb h
  exact extractAtIndexRange_seeks g junk f f' s e vs hw hb h

/-! ### C22: byte-order discipline -/

/-- C22. For eight bytes `b0 .. b7` read raw into a 64-bit word on a
little-endian host, that is the word `Σ b_k * 256 ^ k`, `reverse_bytes` gives
the big-endian word `Σ b_k * 256 ^ (7 - k)`; bit `j` of the chunk, counted from
the most significant bit of `b0`, is bit `63 - j` of the result; and
`reverse_bytes` applied twice to a 64-bit value gives the value back. -/
theorem reverse_bytes_big_endian (b0 b1 b2 b3 b4 b5 b6 b7 : Nat) (h0 : b0 < 256)
    (h1 : b1 < 256) (h2 : b2 < 256) (h3 : b3 < 256) (h4 : b4 < 256) (h5 : b5 < 256)
    (h6 : b6 < 256) (h7 : b7 < 256) :
    word_of_bytes [b0, b1, b2, b3, b4, b5, b6, b7] =
      b0 * 256 ^ 0 + b1 * 256 ^ 1 + b2 * 256 ^ 2 + b3 * 256 ^ 3 + b4 * 256 ^ 4 + b5 * 256 ^ 5 +
        b6 * 256 ^ 6 + b7 * 256 ^ 7 ∧
    reverse_bytes (b0 * 256 ^ 0 + b1 * 256 ^ 1 + b2 * 256 ^ 2 + b3 * 256 ^ 3 + b4 * 256 ^ 4 +
        b5 * 256 ^ 5 + b6 * 256 ^ 6 + b7 * 256 ^ 7) =
      b0 * 256 ^ 7 + b1 * 256 ^ 6 + b2 * 256 ^ 5 + b3 * 256 ^ 4 + b4 * 256 ^ 3 + b5 * 256 ^ 2 +
        b6 * 256 ^ 1 + b7 * 256 ^ 0 ∧
    (∀ j, j < 64 →
      (reverse_bytes (b0 * 256 ^ 0 + b1 * 256 ^ 1 + b2 * 256 ^ 2 + b3 * 256 ^ 3 + b4 * 256 ^ 4 +
        b5 * 256 ^ 5 + b6 * 256 ^ 6 + b7 * 256 ^ 7)).testBit (63 - j) =
      ([b0, b1, b2, b3, b4, b5, b6, b7].getD (j / 8) 0).testBit (7 - j % 8)) ∧
    (∀ n, n < 2 ^ 64 → reverse_bytes (reverse_bytes n) = n) := by
  have hw := word_of_bytes_eight b0 b1 b2 b3 b4 b5 b6 b7 h0 h1 h2 h3 h4 h5 h6 h7
  have hr := word_of_bytes_eight b7 b6 b5 b4 b3 b2 b1 b0 h7 h6 h5 h4 h3 h2 h1 h0
  refine ⟨hw, ?_, ?_, fun n hn => reverse_bytes_involutive n hn⟩
  · rw [← hw, reverse_bytes_word_of_bytes, hr]
    ring
  · intro j hj
    rw [← hw, reverse_bytes_testBit_all, word_of_bytes_testBit]
    have e1 : (8 * (7 - (63 - j) / 8) + (63 - j) % 8) / 8 = j / 8 := by omega
    have e2 : (8 * (7 - (63 - j) / 8) + (63 - j) % 8) % 8 = 7 - j % 8 := by omega
    have e3 : 63 - j < 64 := by omega
    rw [e1, e2]
    have hq : j / 8 < 8 := by omega
    generalize j / 8 = q at hq ⊢
    interval_cases q <;> simp [e3, Nat.mod_eq_of_lt, h0, h1, h2, h3, h4, h5, h6, h7]

/-- C22 (witness). The bitmap word of the fourth scenario, bytes
`B0 00 00 00 00 00 00 00`: read raw it is `0xB0`, reversed it is
`0xB0 * 256 ^ 7`, whose bits 63, 61 and 60 are the bitmap bits 0, 2 and 3. -/
theorem reverse_bytes_big_endian_witness :
    reverse_bytes 0xB0 = 0xB000000000000000 ∧
    (∀ j, j < 64 → (reverse_bytes 0xB0).testBit (63 - j) =
      ([0xB0, 0, 0, 0, 0, 0, 0, 0].getD (j / 8) 0).testBit (7 - j % 8)) ∧
    reverse_bytes (reverse_bytes 0x0123456789ABCDEF) = 0x0123456789ABCDEF :=
  ⟨(reverse_bytes_big_endian 0xB0 0 0 0 0 0 0 0 (by decide) (by decide) (by decide) (by decide)
      (by decide) (by decide) (by decide) (by decide)).2.1,
    (reverse_bytes_big_endian 0xB0 0 0 0 0 0 0 0 (by decide) (by decide) (by decide) (by decide)
      (by decide) (by decide) (by decide) (by decide)).2.2.1,
    (reverse_bytes_big_endian 0 0 0 0 0 0 0 0 (by decide) (by decide) (by decide) (by decide)
      (by decide) (by decide) (by decide) (by decide)).2.2.2 0x0123456789ABCDEF (by decide)⟩

/-! ### C23: the bitmap resolution depends on bits 0..i only -/

/-- C23. For a record with a bitmap, an index `i < numberOfDataPoints` and two
resources that both hold the bitmap words the scan reads and whose bitmaps
agree on bits `0 .. i`, the bitmap scan of `extractAtIndex` returns on both the
same decision (missing or present) and the same slot, whatever the resources
hold elsewhere. -/
theorem resolveSlot_depends_on_bits_up_to_index (g : GribInfo) (f1 f2 : GribHandleData)
    (i : Nat) (hb : g.offsetBeforeBitmap ≠ 0) (hi : i < g.numberOfDataPoints)
    (hn : g.numberOfDataPoints < 2 ^ 64)
    (hr1 : g.offsetBeforeBitmap + 8 * (i / 64 + 1) ≤ f1.bytes.length)
    (hr2 : g.offsetBeforeBitmap + 8 * (i / 64 + 1) ≤ f2.bytes.length)
    (hagree : ∀ j, j ≤ i →
      bitmapBit f1.bytes g.offsetBeforeBitmap j = bitmapBit f2.bytes g.offsetBeforeBitmap j) :
    ∃ r : Option Nat, (resolveSlot g f1 i).map Prod.fst = some r ∧
      (resolveSlot g f2 i).map Prod.fst = some r := by
  rw [resolveSlot_bitmap_eq g f1 i hb hi hn hr1, resolveSlot_bitmap_eq g f2 i hb hi hn hr2,
    setBitsBefore_congr f1.bytes f2.bytes g.offsetBeforeBitmap i
      (fun j hj => hagree j (Nat.le_of_lt hj)),
    hagree i (Nat.le_refl i)]
  exact ⟨_, rfl, rfl⟩

/-- C23 (witness). Index 2 of the fourth scenario resolves to slot 1 on the
resource of the scenario and on one that differs from it everywhere except in
bitmap bits 0..2. -/
theorem resolveSlot_depends_on_bits_up_to_index_witness :
    (resolveSlot exBitmapInfo exBitmapResource 2).map Prod.fst = some (some 1) ∧
    ∃ r : Option Nat, (resolveSlot exBitmapInfo exBitmapResource 2).map Prod.fst = some r ∧
      (resolveSlot exBitmapInfo exOtherBitmapResource 2).map Prod.fst = some r :=
  ⟨by decide,
    resolveSlot_depends_on_bits_up_to_index exBitmapInfo exBitmapResource exOtherBitmapResource 2
      (by decide) (by decide) (by decide) (by decide) (by decide) (by decide)⟩

/-! ### C24: present and missing points in the range extractor -/

/-- C24 (counterexample). Point 0 of the record is present and its packed
value is `27 0F`; point 1 is missing. The slot list is `[0, 2 ^ 64 - 1]`, and
`extractAtIndexRange` over (0, 2) emits 9999 for both points. -/
theorem present_point_emitted_as_9999 :
    bitmapBit exSentinelResource.bytes exSentinelInfo.offsetBeforeBitmap 0 = true ∧
    bitmapBit exSentinelResource.bytes exSentinelInfo.offsetBeforeBitmap 1 = false ∧
    (indexLoop exSentinelInfo 2 (exSentinelResource.seek 1).2 0).map Prod.fst =
      some [0, 2 ^ 64 - 1] ∧
    (extractAtIndexRange exSentinelInfo (fun _ => 0) exSentinelResource 0 2).map Prod.fst =
      some [9999, 9999] := by
  refine ⟨by decide, by decide, by decide, by decide!⟩

/-- C24 (amended). In `extractAtIndexRange` with a bitmap, over a valid range
whose bitmap words and present values can be read, the entry of the slot list
for a point is `2 ^ 64 - 1` exactly when the point's bitmap bit is 0; for a
present point the running count is at least 1, the entry is the count minus one
without wrap-around and is below `numberOfDataPoints`, and the value emitted is
the decoded value of that slot; for a missing point the value emitted is
`MISSING`. -/
theorem slot_list_no_aliasing (g : GribInfo) (junk : Nat → Nat) (f : GribHandleData)
    (s e : Nat) (hb : g.offsetBeforeBitmap ≠ 0) (hw : g.bitsPerValue ≠ 0)
    (hsp : g.sphericalHarmonics = 0) (hse : s < e) (he : e ≤ g.numberOfDataPoints)
    (hn : g.numberOfDataPoints < 2 ^ 64)
    (hbm : g.offsetBeforeBitmap + 8 * ((e - 1) / 64 + 1) ≤ f.bytes.length)
    (hval : ∀ i, s ≤ i → i < e → bitmapBit f.bytes g.offsetBeforeBitmap i = true →
      valueEnd g (setBitsBefore f.bytes g.offsetBeforeBitmap i) ≤ f.bytes.length) :
    ∃ es f1 vs f',
      indexLoop g (e - s) (f.seek g.offsetBeforeBitmap).2 s = some (es, f1) ∧
      extractAtIndexRange g junk f s e = some (vs, f') ∧
      ∀ k, k < e - s →
        (es[k]? = some (2 ^ 64 - 1) ↔
          bitmapBit f.bytes g.offsetBeforeBitmap (s + k) = false) ∧
        (bitmapBit f.bytes g.offsetBeforeBitmap (s + k) = true →
          1 ≤ setBitsBefore f.bytes g.offsetBeforeBitmap (s + k + 1) ∧
          es[k]? = some (setBitsBefore f.bytes g.offsetBeforeBitmap (s + k + 1) - 1) ∧
          setBitsBefore f.bytes g.offsetBeforeBitmap (s + k + 1) - 1 < g.numberOfDataPoints ∧
          vs[k]? = some (decodeSlot g junk f.bytes
            (setBitsBefore f.bytes g.offsetBeforeBitmap (s + k + 1) - 1))) ∧
        (bitmapBit f.bytes g.offsetBeforeBitmap (s + k) = false → vs[k]? = some MISSING) := by
  obtain ⟨f1, h1, _⟩ := indexLoop_spec g (e - s) (f.seek g.offsetBeforeBitmap).2 s (by omega)
    (by
      intro j hj
      have hd : (s + j) / 64 ≤ (e - 1) / 64 := Nat.div_le_div_right (by omega)
      show g.offsetBeforeBitmap + 8 * ((s + j) / 64 + 1) ≤ f.bytes.length
      omega)
  obtain ⟨f', h2, _⟩ := extractAtIndexRange_bitmap_eq g junk f s e hb hw hsp hse he hn hbm hval
  refine ⟨_, f1, _, f', h1, h2, ?_⟩
  intro k hk
  have hes : ((List.range (e - s)).map
      (fun j => slotEntry (f.seek g.offsetBeforeBitmap).2.bytes g.offsetBeforeBitmap (s + j)))[k]? =
      some (slotEntry f.bytes g.offsetBeforeBitmap (s + k)) := by
    rw [List.getElem?_map, List.getElem?_range hk]
    rfl
  have hvs : ((List.range (e - s)).map (fun j => pointValue g junk f.bytes (s + j)))[k]? =
      some (pointValue g junk f.bytes (s + k)) := by
    rw [List.getElem?_map, List.getElem?_range hk]
    rfl
  obtain ⟨c1, c2⟩ := slotEntry_cases f.bytes g.offsetBeforeBitmap (s + k) g.numberOfDataPoints
    (by omega) hn
  rw [hes, hvs]
  refine ⟨?_, ?_, ?_⟩
  · rw [Option.some.injEq]
    exact c1
  · intro hbit
    obtain ⟨d1, d2, d3, d4⟩ := c2 hbit
    refine ⟨d1, by rw [d2], d3, ?_⟩
    unfold pointValue
    rw [if_pos hbit, d4]
  · intro hbit
    unfold pointValue
    rw [hbit]
    rfl

/-- C24 (witness). The fourth scenario of the specification over the range
(0, 4): the slot list is `[0, 2 ^ 64 - 1, 1, 2]`. -/
theorem slot_list_no_aliasing_witness :
    (indexLoop exBitmapInfo (4 - 0) (exBitmapResource.seek 1).2 0).map Prod.fst =
      some [0, 2 ^ 64 - 1, 1, 2] ∧
    ∃ es f1 vs f',
      indexLoop exBitmapInfo (4 - 0) (exBitmapResource.seek exBitmapInfo.offsetBeforeBitmap).2 0 =
        some (es, f1) ∧
      extractAtIndexRange exBitmapInfo (fun _ => 0) exBitmapResource 0 4 = some (vs, f') ∧
      ∀ k, k < 4 - 0 →
        (es[k]? = some (2 ^ 64 - 1) ↔
          bitmapBit exBitmapResource.bytes exBitmapInfo.offsetBeforeBitmap (0 + k) = false) ∧
        (bitmapBit exBitmapResource.bytes exBitmapInfo.offsetBeforeBitmap (0 + k) = true →
          1 ≤ setBitsBefore exBitmapResource.bytes exBitmapInfo.offsetBeforeBitmap (0 + k + 1) ∧
          es[k]? = some
            (setBitsBefore exBitmapResource.bytes exBitmapInfo.offsetBeforeBitmap (0 + k + 1) - 1) ∧
          setBitsBefore exBitmapResource.bytes exBitmapInfo.offsetBeforeBitmap (0 + k + 1) - 1 <
            exBitmapInfo.numberOfDataPoints ∧
          vs[k]? = some (decodeSlot exBitmapInfo (fun _ => 0) exBitmapResource.bytes
            (setBitsBefore exBitmapResource.bytes exBitmapInfo.offsetBeforeBitmap
              (0 + k + 1) - 1))) ∧
        (bitmapBit exBitmapResource.bytes exBitmapInfo.offsetBeforeBitmap (0 + k) = false →
          vs[k]? = some MISSING) :=
  ⟨by decide,
    slot_list_no_aliasing exBitmapInfo (fun _ => 0) exBitmapResource 0 4 (by decide) (by decide)
      (by decide) (by decide) (by decide) (by decide) (by decide) (by decide)⟩

/-! ### C25: single-point query of the command-line tool -/

/-- C25. For the command line `grib-jump --query data.grib 3`, `init` selects
the single-point mode and stores 3 in `singleIndex_`, and index 3 of the record
can be extracted (the value is 4); `execute` asks for positional argument 2,
which does not exist, and fails. The same holds for every query with exactly
two positional arguments: after a successful `init` the tool is in single-point
mode, positional argument 2 does not exist, and `execute` fails without calling
`extractAtIndex`. -/
theorem single_point_query_reads_argument_two :
    (GribJump.init exToolEnv GribJump.new exQueryArgs).map
        (fun t => (t.doQuery, t.doRange, t.singleIndex)) = some (true, false, 3) ∧
    (extractAtIndex exPlainInfo exToolEnv.junk (exToolEnv.dataSource "data.grib".toList) 3).map
        Prod.fst = some 4 ∧
    exQueryArgs.arg 2 = none ∧
    (GribJump.init exToolEnv GribJump.new exQueryArgs).bind
        (fun t => GribJump.execute exToolEnv t exQueryArgs) = none ∧
    ∀ (env : ToolEnv) (t0 t : GribJump) (args : CmdArgs),
      args.query = some true → args.count = 2 → GribJump.init env t0 args = some t →
      t.doRange = false ∧
      (∃ a x, args.arg 1 = some a ∧ stoi a = some x ∧ t.singleIndex = toSizeT x) ∧
      args.arg 2 = none ∧ GribJump.execute env t args = none := by
  have hgen : ∀ (env : ToolEnv) (t0 t : GribJump) (args : CmdArgs),
      args.query = some true → args.count = 2 → GribJump.init env t0 args = some t →
      t.doRange = false ∧
      (∃ a x, args.arg 1 = some a ∧ stoi a = some x ∧ t.singleIndex = toSizeT x) ∧
      args.arg 2 = none ∧ GribJump.execute env t args = none := by
    intro env t0 t args hq hc h
    obtain ⟨h1, h2, h3⟩ := init_single_point env t0 t args hq hc h
    exact ⟨h2, h3, arg_two_of_count_two args hc, execute_single_point_fails env t args h1 h2 hc⟩
  refine ⟨by decide, by decide!, by decide, ?_, hgen⟩
  cases hi : GribJump.init exToolEnv GribJump.new exQueryArgs with
  | none => rfl
  | some t => exact (hgen exToolEnv GribJump.new t exQueryArgs rfl rfl hi).2.2.2

/-! ### C26: expansion of enum values -/

/-- C26. For every list of enum values and every input list: an input that is
an enum value is expanded to itself; an input that is a prefix of some enum
value is replaced by the least enum value, in the order of `std::string`, that
has it as a prefix; an input that is a prefix of no enum value is dropped; the
inputs are treated one by one, in order; and expanding an expanded list changes
nothing. -/
theorem TypeEnum_expand_spec (values vs : List StdString) :
    (∀ v, v ∈ values → (TypeEnum.new values).expand [v] = [v]) ∧
    (∀ j, (∃ w, w ∈ values ∧ j <+: w) →
      ∃ v, (TypeEnum.new values).expand [j] = [v] ∧ v ∈ values ∧ j <+: v ∧
        ∀ w, w ∈ values → j <+: w → strLt w v = false) ∧
    (∀ j, (∀ w, w ∈ values → ¬ j <+: w) → (TypeEnum.new values).expand [j] = []) ∧
    (∀ xs ys, (TypeEnum.new values).expand (xs ++ ys) =
      (TypeEnum.new values).expand xs ++ (TypeEnum.new values).expand ys) ∧
    (TypeEnum.new values).expand ((TypeEnum.new values).expand vs) =
      (TypeEnum.new values).expand vs := by
  obtain ⟨hok, hkeys⟩ := TypeEnum_new_ok values
  have hself : ∀ v, v ∈ values → (TypeEnum.new values).expand [v] = [v] := by
    intro v hv
    rw [TypeEnum_expand_single]
    exact expandOne_key v _ hok ((hkeys v).mpr hv)
  refine ⟨hself, ?_, ?_, fun xs ys => TypeEnum_expand_append _ xs ys, ?_⟩
  · intro j ⟨w, hw, hpw⟩
    rw [TypeEnum_expand_single]
    rcases expandOne_spec j _ hok with ⟨_, hno⟩ | ⟨v, h1, hmem, hpre, hmin⟩
    · exact absurd hpw (hno w ((hkeys w).mpr hw))
    · exact ⟨v, h1, (hkeys v).mp hmem, hpre, fun w hw hp => hmin w ((hkeys w).mpr hw) hp⟩
  · intro j hno
    rw [TypeEnum_expand_single]
    rcases expandOne_spec j _ hok with ⟨h0, _⟩ | ⟨v, _, hmem, hpre, _⟩
    · exact h0
    · exact absurd hpre (hno v ((hkeys v).mp hmem))
  · induction vs with
    | nil => rfl
    | cons j js ih =>
      have hcons : (TypeEnum.new values).expand (j :: js) =
          (TypeEnum.new values).expand [j] ++ (TypeEnum.new values).expand js :=
        TypeEnum_expand_append _ [j] js
      rw [hcons, TypeEnum_expand_append, ih]
      congr 1
      rw [TypeEnum_expand_single]
      rcases expandOne_spec j _ hok with ⟨h0, _⟩ | ⟨v, h1, hmem, _, _⟩
      · rw [h0]
        rfl
      · rw [h1]
        exact hself v ((hkeys v).mp hmem)

/-! ### C27: integer ranges -/

/-- C27. On a value that `TypeInteger::tidy` rejects, `TypeRange::tidy` throws
`UserError` exactly when the value starts with `-`, contains more than one `-`,
or contains a character that is neither a digit nor `-`. Otherwise the value is
a run of digits, or two runs with a `-` between them; with `a` and `b` the
numbers the runs spell (0 for an empty run), both below `2 ^ 63`, the result is
the decimal form of `a`, respectively of `a`, `-` and of `b`, and `tidy` returns
this result for it again, provided `TypeInteger::tidy` rejects the result or
returns it unchanged. A decimal form has no leading zero. -/
theorem TypeRange_tidy_spec (integerTidy : StdString → Option StdString) (value : StdString)
    (hrej : integerTidy value = none) :
    (throwsUserError (TypeRange.tidy integerTidy value) ↔
      (value.head? = some '-' ∨ 2 ≤ value.count '-' ∨
        ∃ c, c ∈ value ∧ c ≠ '-' ∧ c.isDigit = false)) ∧
    (¬ throwsUserError (TypeRange.tidy integerTidy value) →
      (∀ c, c ∈ value → c.isDigit = true) ∨
      ∃ before after, value = before ++ '-' :: after ∧ before ≠ [] ∧
        (∀ c, c ∈ before → c.isDigit = true) ∧ (∀ c, c ∈ after → c.isDigit = true)) ∧
    ((∀ c, c ∈ value → c.isDigit = true) → digitsValue value < 2 ^ 63 →
      TypeRange.tidy integerTidy value = Except.ok (decimal (digitsValue value)) ∧
      ((integerTidy (decimal (digitsValue value)) = none ∨
          integerTidy (decimal (digitsValue value)) = some (decimal (digitsValue value))) →
        TypeRange.tidy integerTidy (decimal (digitsValue value)) =
          Except.ok (decimal (digitsValue value)))) ∧
    (∀ before after, value = before ++ '-' :: after → before ≠ [] →
      (∀ c, c ∈ before → c.isDigit = true) → (∀ c, c ∈ after → c.isDigit = true) →
      digitsValue before < 2 ^ 63 → digitsValue after < 2 ^ 63 →
      TypeRange.tidy integerTidy value =
        Except.ok (decimal (digitsValue before) ++ '-' :: decimal (digitsValue after)) ∧
      ((integerTidy (decimal (digitsValue before) ++ '-' :: decimal (digitsValue after)) = none ∨
          integerTidy (decimal (digitsValue before) ++ '-' :: decimal (digitsValue after)) =
            some (decimal (digitsValue before) ++ '-' :: decimal (digitsValue after))) →
        TypeRange.tidy integerTidy
            (decimal (digitsValue before) ++ '-' :: decimal (digitsValue after)) =
          Except.ok (decimal (digitsValue before) ++ '-' :: decimal (digitsValue after)))) ∧
    (∀ n, digitsValue (decimal n) = n ∧ decimal n ≠ [] ∧
      (∀ c, c ∈ decimal n → c.isDigit = true) ∧ (n ≠ 0 → (decimal n).head? ≠ some '0')) := by
  have hthrows : throwsUserError (TypeRange.tidy integerTidy value) ↔
      (value.head? = some '-' ∨ 2 ≤ value.count '-' ∨
        ∃ c, c ∈ value ∧ c ≠ '-' ∧ c.isDigit = false) := by
    have hl := rangeLoop_throws value true 0 0 false
    rw [if_neg (by simp)] at hl
    have hx : throwsUserError (TypeRange.tidy integerTidy value) ↔
        throwsUserError (rangeLoop value true 0 0 false) := by
      unfold TypeRange.tidy
      rw [hrej]
      cases hr : rangeLoop value true 0 0 false with
      | error e => exact ⟨fun _ => ⟨e, rfl⟩, fun _ => ⟨e, rfl⟩⟩
      | ok p =>
        obtain ⟨a, b, n⟩ := p
        constructor
        · rintro ⟨e, he⟩
          dsimp only at he
          by_cases hn : n = false
          · rw [if_pos hn] at he
            exact absurd he (by simp)
          · rw [if_neg hn] at he
            exact absurd he (by simp)
        · rintro ⟨e, he⟩
          exact absurd he (by simp)
    rw [hx, hl]
    simp
  refine ⟨hthrows, ?_, ?_, ?_, decimal_spec⟩
  · intro hno
    exact range_shape value (fun h => hno (hthrows.mpr h))
  · intro hd hfit
    refine ⟨tidy_digits integerTidy value hrej hd hfit, ?_⟩
    obtain ⟨s1, _, s3, _⟩ := decimal_spec (digitsValue value)
    rintro (h | h)
    · have := tidy_digits integerTidy (decimal (digitsValue value)) h s3 (by rw [s1]; exact hfit)
      rw [s1] at this
      exact this
    · exact tidy_of_integerTidy integerTidy _ _ h
  · intro before after hv hne hd1 hd2 hfit1 hfit2
    rw [hv] at hrej ⊢
    refine ⟨tidy_range integerTidy before after hrej hne hd1 hd2 hfit1 hfit2, ?_⟩
    obtain ⟨a1, a2, a3, _⟩ := decimal_spec (digitsValue before)
    obtain ⟨b1, _, b3, _⟩ := decimal_spec (digitsValue after)
    rintro (h | h)
    · have := tidy_range integerTidy (decimal (digitsValue before)) (decimal (digitsValue after))
        h a2 a3 b3 (by rw [a1]; exact hfit1) (by rw [b1]; exact hfit2)
      rw [a1, b1] at this
      exact this
    · exact tidy_of_integerTidy integerTidy _ _ h

/-- C27 (witness). With a `TypeInteger::tidy` that rejects every value, the
range `007-010` is tidied to `7-10`, and `7-10` to itself. -/
theorem TypeRange_tidy_spec_witness :
    exRejectAll "007-010".toList = none ∧
    decimal (digitsValue "007".toList) ++ '-' :: decimal (digitsValue "010".toList) =
      "7-10".toList ∧
    TypeRange.tidy exRejectAll "007-010".toList =
      Except.ok (decimal (digitsValue "007".toList) ++ '-' :: decimal (digitsValue "010".toList)) ∧
    TypeRange.tidy exRejectAll
        (decimal (digitsValue "007".toList) ++ '-' :: decimal (digitsValue "010".toList)) =
      Except.ok (decimal (digitsValue "007".toList) ++ '-' :: decimal (digitsValue "010".toList)) :=
  ⟨rfl, by decide,
    ((TypeRange_tidy_spec exRejectAll "007-010".toList rfl).2.2.2.1 "007".toList "010".toList
      (by decide) (by decide) (by decide) (by decide) (by decide) (by decide)).1,
    ((TypeRange_tidy_spec exRejectAll "007-010".toList rfl).2.2.2.1 "007".toList "010".toList
      (by decide) (by decide) (by decide) (by decide) (by decide) (by decide)).2 (Or.inl rfl)⟩

/-! ### C28: abbreviation matching -/

/-- C28. For every name and every list of values, `bestMatch` fails exactly
when no element has `name` as a prefix; otherwise it returns an element of the
list that has `name` as a prefix and that no element with this prefix precedes:
the first such element in list order. -/
theorem bestMatch_first_prefix_match (name : StdString) (values : List StdString) :
    (bestMatch name values = none ↔ ∀ v, v ∈ values → ¬ name <+: v) ∧
    ((∃ v, v ∈ values ∧ name <+: v) → ∃ r, bestMatch name values = some r) ∧
    (∀ r, bestMatch name values = some r →
      r ∈ values ∧ name <+: r ∧
      ∃ before after, values = before ++ r :: after ∧ ∀ v, v ∈ before → ¬ name <+: v) ∧
    bestMatch name values = values.find? (fun v => name.isPrefixOf v) := by
  have hf := bestMatch_eq_find name values
  have hnone : bestMatch name values = none ↔ ∀ v, v ∈ values → ¬ name <+: v := by
    rw [hf, List.find?_eq_none]
    constructor
    · intro h v hv hp
      exact h v hv (List.isPrefixOf_iff_prefix.mpr hp)
    · intro h v hv hp
      exact h v hv (List.isPrefixOf_iff_prefix.mp hp)
  refine ⟨hnone, ?_, ?_, hf⟩
  · intro ⟨v, hv, hp⟩
    cases hb : bestMatch name values with
    | none => exact absurd hp (hnone.mp hb v hv)
    | some r => exact ⟨r, rfl⟩
  · intro r hr
    rw [hf] at hr
    obtain ⟨hp, before, after, hsplit, hbefore⟩ := List.find?_eq_some.mp hr
    refine ⟨?_, List.isPrefixOf_iff_prefix.mp hp, before, after, hsplit, ?_⟩
    · rw [hsplit]
      simp
    · intro v hv hpv
      have := hbefore v hv
      rw [List.isPrefixOf_iff_prefix.mpr hpv] at this
      exact absurd this (by simp)

end metkit.gribjump
